import Mathlib

/-!
# golisttests: static enumeration of Go test names

A shallow embedding of `main.go` and `tree_sitter.go`.

* Go strings are `String`; `sort.Strings` compares byte-wise, which on UTF-8 text is the
  lexicographic order of the code points, taken here on `String.toList`.
* A Go `map[string]V` is an association list holding each key once (`GoMap`).  A `range` over a
  map visits the keys in an order chosen by the run time: the functions that range over a map
  take that choice as an argument.
* A Go `panic` (explicit, or an index out of range, or a nil dereference) is `none`, or
  `Outcome.panic` where the code can also run forever.
* The external collaborators (go/parser, go/types, tree-sitter, regexp) are not re-implemented:
  a `SourceFile` carries what they return for the file.
-/

namespace GoListTests

/-! ## Syntax trees (go/ast) -/

/-- An `*ast.Ident`: source position and name. -/
structure Ident where
  NamePos : Nat
  Name : String
deriving DecidableEq

/-- The syntax nodes the program tells apart.  `Other` stands for every other kind of node
(unary and binary expressions, composite literals, statements, ...); its children are the
nodes `ast.Inspect` visits below it, in that order. -/
inductive Node where
  | Ident (id : Ident)
  | SelectorExpr (X : Node) (Sel : Ident)
  | StarExpr (X : Node)
  | CallExpr (Fun : Node) (Args : List Node)
  | Other (children : List Node)

/-- An `*ast.UnaryExpr` such as `&x`: `ast.Inspect` visits its operand. -/
def UnaryExpr (X : Node) : Node := .Other [X]

/-- An `*ast.CompositeLit` such as `T{...}`: `ast.Inspect` visits the type, then the elements. -/
def CompositeLit (Type_ : Node) (Elts : List Node) : Node := .Other (Type_ :: Elts)

/-- An `*ast.BasicLit`: no children. -/
def BasicLit : Node := .Other []

/-- An `*ast.ExprStmt`: `ast.Inspect` visits its expression. -/
def ExprStmt (X : Node) : Node := .Other [X]

/-- An `*ast.AssignStmt`: `ast.Inspect` visits the left-hand sides, then the right-hand sides. -/
def AssignStmt (Lhs Rhs : List Node) : Node := .Other (Lhs ++ Rhs)

/-- An `*ast.Field` of a parameter or receiver list: `(a, b T)` is one field with two names. -/
structure Field where
  Names : List Ident
  Type_ : Node

/-- An `*ast.FuncDecl`.  `Recv` is `none` for a nil receiver list, `Params` is
`fn.Type.Params.List`, `Results` is `fn.Type.Results.List`, `Body` the statements of the body. -/
structure FuncDecl where
  Recv : Option (List Field)
  Name : Ident
  Params : List Field
  Results : List Field
  Body : List Node

/-- A top-level declaration (`ast.Decl`): a function, or anything else. -/
inductive Decl where
  | FuncDecl (fn : FuncDecl)
  | GenDecl

mutual
/-- The nodes `ast.Inspect` visits from a node on, in the order it visits them. -/
def Node.Inspect : Node → List Node
  | .Ident id => [.Ident id]
  | .SelectorExpr X Sel => .SelectorExpr X Sel :: (X.Inspect ++ [.Ident Sel])
  | .StarExpr X => .StarExpr X :: X.Inspect
  | .CallExpr Fun Args => .CallExpr Fun Args :: (Fun.Inspect ++ InspectList Args)
  | .Other children => .Other children :: InspectList children
/-- The nodes `ast.Inspect` visits in a list of sibling nodes. -/
def InspectList : List Node → List Node
  | [] => []
  | n :: rest => n.Inspect ++ InspectList rest
end

/-- The nodes `ast.Inspect` visits in a field: its names, then its type. -/
def Field.Inspect (f : Field) : List Node :=
  f.Names.map Node.Ident ++ f.Type_.Inspect

/-- The identifier, selector, star, call and other expression or statement nodes that
`ast.Inspect(fn, ...)` visits, in order: receiver, name, parameters, results, body.  (The
declaration, field-list, field and comment nodes in between are none of the kinds the
program looks for.) -/
def FuncDecl.Inspect (fn : FuncDecl) : List Node :=
  ((fn.Recv.getD []).map Field.Inspect).flatten ++ [.Ident fn.Name]
    ++ (fn.Params.map Field.Inspect).flatten ++ (fn.Results.map Field.Inspect).flatten
    ++ InspectList fn.Body

/-- The number of parameters a field list declares (`FieldList.NumFields` of go/ast): a field
counts once per name, and once when it has no name. -/
def NumFields (fields : List Field) : Nat :=
  (fields.map (fun f => if f.Names.length = 0 then 1 else f.Names.length)).sum

/-- The text a bad verb leaves in the output of `fmt.Sprintf`. -/
def badVerb : String := "%!s("

/-- The text of `fmt.Sprintf("%s", e)` for an expression node: an identifier prints its name
(it is a `Stringer`), a selector on an identifier prints as a struct of two names.  Every
other expression struct holds a `token.Pos` or a nested pointer, for which `%s` is a bad
verb: its text holds a bad-verb marker around a source position or an address.  The program
only compares the text, so the embedding keeps the marker alone. -/
def Sprintf : Node → String
  | .Ident id => id.Name
  | .SelectorExpr (.Ident x) Sel => "&\x7b" ++ x.Name ++ " " ++ Sel.Name ++ "\x7d"
  | _ => badVerb

/-! ## Classifier -/

/-- The identifiers `GetFirstIdent` steps over. -/
def skipIdents : List String := ["new"]

/-- Go `strings.HasPrefix(name, "Test")`. -/
def IsTestName (name : String) : Bool :=
  "Test".toList.isPrefixOf name.toList

/-- Go `IsSingleArgumentTestingT`. -/
def IsSingleArgumentTestingT (fn : FuncDecl) : Bool :=
  if fn.Params.length ≠ 1 then false
  else
    match fn.Params with
    | param :: _ =>
      match param.Type_ with
      | .StarExpr X => "&\x7btesting T\x7d" == Sprintf X
      | _ => false
    | [] => false

/-- Go `GetReceiverTypeNoStar`; `none` when it panics (no receiver field, or a receiver type
that is neither a pointer type nor an identifier). -/
def GetReceiverTypeNoStar (fn : FuncDecl) : Option String :=
  match fn.Recv with
  | some (f :: _) =>
    match f.Type_ with
    | .StarExpr X => some (Sprintf X)
    | .Ident t => some t.Name
    | _ => none
  | _ => none

/-- Go `HasReceiver`. -/
def HasReceiver (fn : FuncDecl) : Bool := fn.Recv.isSome

/-- Go `HasReceiverAndNoArguments`. -/
def HasReceiverAndNoArguments (fn : FuncDecl) : Bool :=
  if fn.Params.length ≠ 0 then false else HasReceiver fn

/-- Go `IsSimpleTest`. -/
def IsSimpleTest (fn : FuncDecl) : Bool :=
  IsTestName fn.Name.Name && !HasReceiver fn && IsSingleArgumentTestingT fn

/-- Go `IsPossibleSuiteTest`. -/
def IsPossibleSuiteTest (fn : FuncDecl) : Bool :=
  IsTestName fn.Name.Name && HasReceiverAndNoArguments fn

/-- Go `GetFirstIdent`: the callback keeps the first identifier visited whose name is not in
`skipIdents`; `none` when there is none (the function panics). -/
def GetFirstIdent (expr : Node) : Option Ident :=
  expr.Inspect.foldl
    (fun result node =>
      match node with
      | .Ident ident =>
        if ident.Name ∈ skipIdents then result
        else if result.isNone then some ident else result
      | _ => result)
    none

/-- Go `IdentNames`. -/
def IdentNames (idents : List Ident) : List String := idents.map (·.Name)

/-- The callback of `FindSuiteRunTypes` on one visited node, on the state `(seen, result)`;
`none` when `GetFirstIdent` panics. -/
def FindSuiteRunTypes.visit (st : List String × List Ident) (node : Node) :
    Option (List String × List Ident) :=
  match node with
  | .CallExpr Fun Args =>
    if Args.length ≠ 2 then some st
    else if Sprintf Fun ≠ "&\x7bsuite Run\x7d" then some st
    else
      match Args.get? 1 with
      | none => none
      | some arg =>
        match GetFirstIdent arg with
        | none => none
        | some ident =>
          if ident.Name ∈ st.1 then some st
          else some (st.1 ++ [ident.Name], st.2 ++ [ident])
  | _ => some st

/-- The callback of `FindSuiteRunTypes` run over a list of visited nodes. -/
def FindSuiteRunTypes.visitAll :
    List Node → List String × List Ident → Option (List String × List Ident)
  | [], st => some st
  | node :: rest, st => (FindSuiteRunTypes.visit st node).bind (FindSuiteRunTypes.visitAll rest)

/-- Go `FindSuiteRunTypes`. -/
def FindSuiteRunTypes (fn : FuncDecl) : Option (List Ident) :=
  (FindSuiteRunTypes.visitAll fn.Inspect ([], [])).map (·.2)

/-- Go `IsSuiteRunner`. -/
def IsSuiteRunner (fn : FuncDecl) : Option Bool :=
  if IsSimpleTest fn then (FindSuiteRunTypes fn).map (fun idents => decide (idents.length > 0))
  else some false

/-! ## Go maps and sorting -/

/-- A Go `map[string]V`: an association list that holds each key once. -/
abbrev GoMap (V : Type) := List (String × V)

/-- Go `v, ok := m[key]`. -/
def mapGet {V : Type} : GoMap V → String → Option V
  | [], _ => none
  | (k, v) :: rest, key => if k = key then some v else mapGet rest key

/-- Go `m[key] = val`. -/
def mapPut {V : Type} : GoMap V → String → V → GoMap V
  | [], key, val => [(key, val)]
  | (k, v) :: rest, key, val =>
    if k = key then (k, val) :: rest else (k, v) :: mapPut rest key val

/-- The keys of a Go map. -/
def mapKeys {V : Type} (m : GoMap V) : List String := m.map Prod.fst

/-- The order of Go strings (`<=`), on the code points of the text. -/
def strLE (a b : String) : Prop := a.toList ≤ b.toList

instance strLE.decidable (a b : String) : Decidable (strLE a b) := by
  unfold strLE; infer_instance

/-- Go `sort.Strings`. -/
def sortStrings (l : List String) : List String := l.insertionSort strLE

/-! ## Tracker -/

/-- Go `Tracker`. -/
structure Tracker where
  result : List String
  seenTests : GoMap Bool
  suiteTypesAndTestsWhoRanThem : GoMap (GoMap Bool)

/-- Go `NewTracker`. -/
def NewTracker : Tracker :=
  { result := [], seenTests := [], suiteTypesAndTestsWhoRanThem := [] }

/-- Go `Tracker.AddTest`. -/
def Tracker.AddTest (t : Tracker) (name : String) : Tracker :=
  if (mapGet t.seenTests name).isNone then
    { t with result := t.result ++ [name], seenTests := mapPut t.seenTests name true }
  else t

/-- Go `Tracker.SeenTests`. -/
def Tracker.SeenTests (t : Tracker) : List String := sortStrings t.result

/-- Go `Tracker.SuiteRanByTest`. -/
def Tracker.SuiteRanByTest (t : Tracker) (suiteTypeName testName : String) : Tracker :=
  let m :=
    if (mapGet t.suiteTypesAndTestsWhoRanThem suiteTypeName).isNone then
      mapPut t.suiteTypesAndTestsWhoRanThem suiteTypeName []
    else t.suiteTypesAndTestsWhoRanThem
  { t with suiteTypesAndTestsWhoRanThem :=
      mapPut m suiteTypeName (mapPut ((mapGet m suiteTypeName).getD []) testName true) }

/-- Go `Tracker.WhoRanSuiteType`; `order` is the order in which this `range` visits the keys
of the map. -/
def Tracker.WhoRanSuiteType (order : List String → List String) (t : Tracker)
    (suiteTypeName : String) : List String :=
  match mapGet t.suiteTypesAndTestsWhoRanThem suiteTypeName with
  | none => []
  | some tests => order (mapKeys tests)

/-- The orders a `range` over a map can take: the n-th `range` the program runs visits the
keys `l` in the order `order n l`, which holds the same keys. -/
def ValidOrder (order : Nat → List String → List String) : Prop :=
  ∀ n l, (order n l).Perm l

/-! ## Type resolution (go/types) -/

/-- A `types.Type`, as far as the program looks at it: a pointer type, or a type that is not
a pointer with the text its `String()` prints. -/
inductive GoType where
  | Named (text : String)
  | Pointer (elem : GoType)

/-- Go `types.Type.String()`. -/
def GoType.TypeString : GoType → String
  | .Named text => text
  | .Pointer elem => "*" ++ elem.TypeString

/-- A `types.Object`: its name and its type. -/
structure Object where
  Name : String
  Type_ : GoType

/-- Go `TypeResolver`: `Uses` is `info.Uses`, in the order `Resolve` ranges over it. -/
structure TypeResolver where
  Uses : List (Ident × Object)

/-- Go `TypeResolver.Resolve`. -/
def TypeResolver.Resolve (this : TypeResolver) (ident : Ident) : String :=
  match this.Uses.find? (fun e => ident.Name == e.2.Name && ident.NamePos == e.1.NamePos) with
  | some e =>
    match e.2.Type_ with
    | .Pointer elem => elem.TypeString
    | ty => ty.TypeString
  | none => ident.Name

/-! ## The AST strategy -/

/-- The loop over `FindSuiteRunTypes(fn)` in `scan`. -/
def bindSuites (resolver : TypeResolver) (testName : String) (idents : List Ident)
    (t : Tracker) : Tracker :=
  idents.foldl
    (fun t runnableSuiteTypeIdent =>
      let typeName := resolver.Resolve runnableSuiteTypeIdent
      if typeName ≠ "" then t.SuiteRanByTest typeName testName else t)
    t

/-- The loop over `tracker.WhoRanSuiteType(receiverTypeName)` in `scan`. -/
def addSuiteTests (testName : String) (whoRan : List String) (t : Tracker) : Tracker :=
  whoRan.foldl (fun t testNameWhoRan => t.AddTest (testNameWhoRan ++ "/" ++ testName)) t

/-- The body of the loop of `scan` for one declaration.  The state is the tracker and the
number of `range` statements over a map run so far. -/
def scanDecl (resolver : TypeResolver) (order : Nat → List String → List String)
    (st : Tracker × Nat) (f : Decl) : Option (Tracker × Nat) :=
  match f with
  | .GenDecl => some st
  | .FuncDecl fn =>
    let testName := fn.Name.Name
    let st1 : Option (Tracker × Nat) :=
      if IsSimpleTest fn then
        (FindSuiteRunTypes fn).map
          (fun idents => (bindSuites resolver testName idents (st.1.AddTest testName), st.2))
      else some st
    st1.bind fun st1 =>
      if IsPossibleSuiteTest fn then
        (GetReceiverTypeNoStar fn).map
          (fun receiverTypeName =>
            (addSuiteTests testName (st1.1.WhoRanSuiteType (order st1.2) receiverTypeName) st1.1,
              st1.2 + 1))
      else some st1

/-- The closure `scan` of `ParseTestNamesGolangAST`: one pass over the declarations. -/
def scan (resolver : TypeResolver) (order : Nat → List String → List String) :
    List Decl → Tracker × Nat → Option (Tracker × Nat)
  | [], st => some st
  | f :: rest, st => (scanDecl resolver order st f).bind (scan resolver order rest)

/-- The part of `ParseTestNamesGolangAST` after parsing and type checking: two passes of
`scan` over the declarations, then `SeenTests`. -/
def scanTwice (resolver : TypeResolver) (order : Nat → List String → List String)
    (decls : List Decl) : Option (List String) :=
  ((scan resolver order decls (NewTracker, 0)).bind (scan resolver order decls)).map
    (fun st => st.1.SeenTests)

/-! ## The pattern strategy (tree-sitter) -/

/-- What a call does: it returns a value, it panics, or it never returns. -/
inductive Outcome (α : Type) where
  | ret (a : α)
  | panic
  | hang
deriving DecidableEq

/-- Go `sitter.QueryPredicateStepType`. -/
inductive QueryPredicateStepType where
  | Done
  | Capture
  | String_
deriving DecidableEq

/-- Go `sitter.QueryPredicateStep`. -/
structure QueryPredicateStep where
  Type_ : QueryPredicateStepType
  ValueId : Nat
deriving DecidableEq

/-- A compiled `sitter.Query`, as far as the program reads it: the table of capture names,
the table of string values and the predicate steps of each pattern. -/
structure Query where
  CaptureNames : List String
  StringValues : List String
  Predicates : List (List QueryPredicateStep)

/-- Go `q.CaptureNameForId`; `none` for an id outside the table. -/
def Query.CaptureNameForId (q : Query) (id : Nat) : Option String := q.CaptureNames.get? id

/-- Go `q.StringValueForId`; `none` for an id outside the table. -/
def Query.StringValueForId (q : Query) (id : Nat) : Option String := q.StringValues.get? id

/-- Go `q.PredicatesForPattern`. -/
def Query.PredicatesForPattern (q : Query) (patternIndex : Nat) : List QueryPredicateStep :=
  (q.Predicates.get? patternIndex).getD []

/-- Go `sitter.QueryCapture`: the capture index and the node, of which the program reads
`Node.Content(input)` only. -/
structure QueryCapture where
  Index : Nat
  Content : String

/-- Go `sitter.QueryMatch`. -/
structure QueryMatch where
  PatternIndex : Nat
  Captures : List QueryCapture

/-- Go `CaptureValues`. -/
abbrev CaptureValues := GoMap String

/-- Go `CapturesToValues` (and `CapturesToMap`, whose nodes the program only reads through
`Content(input)`); `none` when a capture index is outside the table of the query. -/
def CapturesToValues (q : Query) : List QueryCapture → CaptureValues → Option CaptureValues
  | [], result => some result
  | c :: rest, result =>
    (q.CaptureNameForId c.Index).bind fun name =>
      CapturesToValues q rest (mapPut result name c.Content)

/-- Go `predicateMustString`; `none` when it panics. -/
def predicateMustString (q : Query) (p : QueryPredicateStep) : Option String :=
  match p.Type_ with
  | .String_ => q.StringValueForId p.ValueId
  | _ => none

/-- Go `predicateMustCapture`; `none` when it panics. -/
def predicateMustCapture (q : Query) (p : QueryPredicateStep) : Option String :=
  match p.Type_ with
  | .Capture => q.CaptureNameForId p.ValueId
  | _ => none

/-- Go `predicateMustDone`; `none` when it panics. -/
def predicateMustDone (_q : Query) (p : QueryPredicateStep) : Option String :=
  match p.Type_ with
  | .Done => some ""
  | _ => none

/-- Go `predicate.Match`, on the steps `ps` still to run.  `regexp pattern value` is
`regexp.MatchString(pattern, value)`, `none` when the pattern does not compile.  A step
name that is neither `match?` nor `eq?` falls through the `switch` and leaves `ps` as it
is, so the loop `for len(ps) > 0` runs forever. -/
def predicate.Match (regexp : String → String → Option Bool) (q : Query)
    (captures : CaptureValues) : List QueryPredicateStep → Outcome Bool
  | [] => .ret true
  | p0 :: rest =>
    match predicateMustString q p0 with
    | none => .panic
    | some name =>
      if name = "match?" then
        match rest with
        | p1 :: p2 :: p3 :: rest4 =>
          match predicateMustCapture q p1, predicateMustString q p2, predicateMustDone q p3 with
          | some capture, some pattern, some _ =>
            match mapGet captures capture with
            | none => .panic
            | some value =>
              match regexp pattern value with
              | none => .panic
              | some ok =>
                if !ok then .ret false
                else predicate.Match regexp q captures rest4
          | _, _, _ => .panic
        | _ => .panic
      else if name = "eq?" then
        match rest with
        | p1 :: p2 :: p3 :: rest4 =>
          match predicateMustCapture q p1, predicateMustCapture q p2, predicateMustDone q p3 with
          | some capture1, some capture2, some _ =>
            match mapGet captures capture1, mapGet captures capture2 with
            | some value1, some value2 =>
              if value1 ≠ value2 then .ret false
              else predicate.Match regexp q captures rest4
            | _, _ => .panic
          | _, _, _ => .panic
        | _ => .panic
      else .hang

/-- Go `NewPredicate(input, q, m).Match()`. -/
def NewPredicate.Match (regexp : String → String → Option Bool) (q : Query) (m : QueryMatch) :
    Outcome Bool :=
  let predicates := q.PredicatesForPattern m.PatternIndex
  if predicates.length = 0 then .ret true
  else
    match CapturesToValues q m.Captures [] with
    | none => .panic
    | some captures => predicate.Match regexp q captures predicates

/-- Go `Scan`, on the matches the query cursor yields: the capture values handed to the
callback, in order. -/
def Scan (regexp : String → String → Option Bool) (q : Query) :
    List QueryMatch → Outcome (List CaptureValues)
  | [] => .ret []
  | m :: rest =>
    match NewPredicate.Match regexp q m with
    | .panic => .panic
    | .hang => .hang
    | .ret false => Scan regexp q rest
    | .ret true =>
      match CapturesToValues q m.Captures [] with
      | none => .panic
      | some c =>
        match Scan regexp q rest with
        | .ret cs => .ret (c :: cs)
        | .panic => .panic
        | .hang => .hang

/-- Go `strings.ReplaceAll(s, old, new)` for a one-character `old`. -/
def ReplaceAll (s : String) (old : Char) (new : String) : String :=
  String.mk (s.toList.flatMap fun c => if c = old then new.toList else [c])

/-- Go `clear`. -/
def clear (name : String) : String :=
  let name := ReplaceAll name ' ' "_"
  let name := ReplaceAll name (Char.ofNat 34) ""
  name

/-- The callback of `ScanTRunStringLiteral` and of `ScanTRunStructLiteral`: the name it
appends.  A capture that is not in the map reads as the empty string. -/
def subTestName (c : CaptureValues) : String :=
  (mapGet c "func.name").getD "" ++ "/" ++ clear ((mapGet c "test.name").getD "")

/-- What the program is built with and links against: the regular-expression engine and the
two embedded queries (the `.scm` files), compiled. -/
structure Engine where
  regexp : String → String → Option Bool
  queryTRunStringLiteral : Query
  queryTRunStructLiteral : Query

/-- A readable source file, through the eyes of the external collaborators: the declarations
`parser.ParseFile` returns (`none` when it reports an error), the `info.Uses` that
`conf.Check` records, and the matches the query cursor yields for each of the two queries. -/
structure SourceFile where
  Decls : Option (List Decl)
  Uses : List (Ident × Object)
  matchesTRunStringLiteral : List QueryMatch
  matchesTRunStructLiteral : List QueryMatch

/-- Go `ScanTRunStringLiteral`. -/
def ScanTRunStringLiteral (e : Engine) (file : SourceFile) : Outcome (List String) :=
  match Scan e.regexp e.queryTRunStringLiteral file.matchesTRunStringLiteral with
  | .ret cs => .ret (cs.map subTestName)
  | .panic => .panic
  | .hang => .hang

/-- Go `ScanTRunStructLiteral`. -/
def ScanTRunStructLiteral (e : Engine) (file : SourceFile) : Outcome (List String) :=
  match Scan e.regexp e.queryTRunStructLiteral file.matchesTRunStructLiteral with
  | .ret cs => .ret (cs.map subTestName)
  | .panic => .panic
  | .hang => .hang

/-- Go `ScanTreeSitter`. -/
def ScanTreeSitter (e : Engine) (file : SourceFile) : Outcome (List String) :=
  match ScanTRunStringLiteral e file with
  | .ret names1 =>
    match ScanTRunStructLiteral e file with
    | .ret names2 => .ret ([] ++ names1 ++ names2)
    | .panic => .panic
    | .hang => .hang
  | .panic => .panic
  | .hang => .hang

/-! ## The driver -/

/-- Go `NewTypeResolver`. -/
def NewTypeResolver (file : SourceFile) : TypeResolver := { Uses := file.Uses }

/-- Go `ParseTestNamesGolangAST`; `none` when it panics. -/
def ParseTestNamesGolangAST (order : Nat → List String → List String) (file : SourceFile) :
    Option (List String) :=
  match file.Decls with
  | none => some []
  | some decls => scanTwice (NewTypeResolver file) order decls

/-- Go `ParseTestNamesTreeSitter`. -/
def ParseTestNamesTreeSitter (e : Engine) (file : SourceFile) : Outcome (List String) :=
  ScanTreeSitter e file

/-- Go `ParseTestNames`: the two goroutines share nothing, `wg.Wait()` returns once both
have returned; a panic in either ends the process. -/
def ParseTestNames (e : Engine) (order : Nat → List String → List String)
    (file : SourceFile) : Outcome (List String) :=
  match ParseTestNamesGolangAST order file, ParseTestNamesTreeSitter e file with
  | some result1, .ret result2 => .ret ([] ++ result1 ++ result2)
  | none, _ => .panic
  | some _, .panic => .panic
  | some _, .hang => .hang

/-! ## The walker -/

/-- The strict order of Go strings (`<`), on the code points of the text. -/
def strLT (a b : String) : Prop := a.toList < b.toList

instance strLT.decidable (a b : String) : Decidable (strLT a b) := by
  unfold strLT; infer_instance

/-- Go `IsTestFilename`: `strings.HasSuffix(name, "_test.go")`. -/
def IsTestFilename (name : String) : Bool :=
  "_test.go".toList.isSuffixOf name.toList

/-- The loop of `SlicerSortUniq` on one line, on the state `(seen, result)`. -/
def SlicerSortUniq.step (st : GoMap Bool × List String) (line : String) :
    GoMap Bool × List String :=
  if (mapGet st.1 line).isNone then (mapPut st.1 line true, st.2 ++ [line]) else st

/-- Go `SlicerSortUniq`. -/
def SlicerSortUniq (input : List String) : List String :=
  let input := sortStrings input
  (input.foldl SlicerSortUniq.step ([], [])).2

/-- The values of the flags that the program reads after `flag.Parse()`: `maxFiles`, and
`maxExecution` in nanoseconds. -/
structure Flags where
  maxFiles : Int
  maxExecution : Int

/-- The `error` values of the program: the two errors of `Limited.Tick`, which print the
flag they name, and an error that `filepath.Walk` hands to its callback. -/
inductive Error where
  | numberOfFilesExceeded (maxFiles : Int)
  | executionTimeExceeded (maxExecution : Int)
  | walk (text : String)
deriving DecidableEq

/-- A Go `int` (64 bits, two's complement) of the value `x`. -/
def wrapInt (x : Int) : Int := (x + 2 ^ 63) % 2 ^ 64 - 2 ^ 63

/-- Go `Limited`; the instant `expiry` in nanoseconds. -/
structure Limited where
  expiry : Int
  numFiles : Int
deriving DecidableEq

/-- Go `Limited.Tick`; `now` is the instant `time.Now()` returns. -/
def Limited.Tick (flags : Flags) (now : Int) (l : Limited) : Option Error × Limited :=
  let l := { l with numFiles := wrapInt (l.numFiles - 1) }
  if l.numFiles ≤ 0 then (some (.numberOfFilesExceeded flags.maxFiles), l)
  else if now > l.expiry then (some (.executionTimeExceeded flags.maxExecution), l)
  else (none, l)

/-- Go `Deadliner`, with its two implementations `*Limited` and `*Unlimited`. -/
inductive Deadliner where
  | Limited (l : Limited)
  | Unlimited
deriving DecidableEq

/-- Go `Deadliner.Tick`. -/
def Deadliner.Tick (flags : Flags) (now : Int) : Deadliner → Option Error × Deadliner
  | .Limited l => ((l.Tick flags now).1, .Limited (l.Tick flags now).2)
  | .Unlimited => (none, .Unlimited)

/-- A call of the callback of `filepath.Walk`: the path, the error the walker passes (if
any), and the file at the path as `ParseTestNames` reads it. -/
structure WalkEntry where
  path : String
  err : Option String
  file : SourceFile

/-- The callback of `ListTestNames` run over the paths that `filepath.Walk` visits, in
order, from the `i`-th on; the state is the budget and the names appended so far.
`now i` is the instant of the `i`-th visit, `order i` the order in which maps are ranged
over while the `i`-th path is parsed.  The walk ends at the first error the callback
returns. -/
def ListTestNames.walk (e : Engine) (order : Nat → Nat → List String → List String)
    (flags : Flags) (now : Nat → Int) :
    List WalkEntry → Nat → Deadliner → List String → Outcome (List String × Option Error)
  | [], _, _, result => .ret (result, none)
  | entry :: rest, i, limit, result =>
    match entry.err with
    | some err => .ret (result, some (.walk err))
    | none =>
      match (limit.Tick flags (now i)).1 with
      | some err => .ret (result, some err)
      | none =>
        if !IsTestFilename entry.path then
          ListTestNames.walk e order flags now rest (i + 1) (limit.Tick flags (now i)).2 result
        else
          match ParseTestNames e (order i) entry.file with
          | .ret names =>
            ListTestNames.walk e order flags now rest (i + 1) (limit.Tick flags (now i)).2
              (result ++ names)
          | .panic => .panic
          | .hang => .hang

/-- Go `ListTestNames`, on the paths that `filepath.Walk` visits from `root`. -/
def ListTestNames (e : Engine) (order : Nat → Nat → List String → List String)
    (flags : Flags) (now : Nat → Int) (entries : List WalkEntry) (limit : Deadliner) :
    Outcome (List String × Option Error) :=
  match ListTestNames.walk e order flags now entries 0 limit [] with
  | .ret (result, err) => .ret (SlicerSortUniq result, err)
  | .panic => .panic
  | .hang => .hang

/-- What one run of the body of the loop `for len(ps) > 0` of `predicate.Match` does: it
goes on with the steps `ps`, it returns `b`, or it panics. -/
inductive LoopStep where
  | next (ps : List QueryPredicateStep)
  | done (b : Bool)
  | panic

/-- The body of the loop of `predicate.Match`, on the steps `ps` still to run: the two cases
of the `switch` end with `ps = ps[4:]`; for any other name no case is taken and `ps` stays
as it is. -/
def predicate.Match.body (regexp : String → String → Option Bool) (q : Query)
    (captures : CaptureValues) : List QueryPredicateStep → LoopStep
  | [] => .panic
  | p0 :: rest =>
    match predicateMustString q p0 with
    | none => .panic
    | some name =>
      if name = "match?" then
        match rest with
        | p1 :: p2 :: p3 :: rest4 =>
          match predicateMustCapture q p1, predicateMustString q p2, predicateMustDone q p3 with
          | some capture, some pattern, some _ =>
            match mapGet captures capture with
            | none => .panic
            | some value =>
              match regexp pattern value with
              | none => .panic
              | some ok => if !ok then .done false else .next rest4
          | _, _, _ => .panic
        | _ => .panic
      else if name = "eq?" then
        match rest with
        | p1 :: p2 :: p3 :: rest4 =>
          match predicateMustCapture q p1, predicateMustCapture q p2, predicateMustDone q p3 with
          | some capture1, some capture2, some _ =>
            match mapGet captures capture1, mapGet captures capture2 with
            | some value1, some value2 => if value1 ≠ value2 then .done false else .next rest4
            | _, _ => .panic
          | _, _, _ => .panic
        | _ => .panic
      else .next (p0 :: rest)

/-- The loop `for len(ps) > 0` of `predicate.Match`, run for at most `fuel` tests of its
condition; `none` when the loop is still running after them. -/
def predicate.Match.run (regexp : String → String → Option Bool) (q : Query)
    (captures : CaptureValues) : Nat → List QueryPredicateStep → Option (Outcome Bool)
  | 0, _ => none
  | fuel + 1, ps =>
    if ps.length > 0 then
      match predicate.Match.body regexp q captures ps with
      | .next ps1 => predicate.Match.run regexp q captures fuel ps1
      | .done b => some (.ret b)
      | .panic => some .panic
    else some (.ret true)

/-- The trackers after each `AddTest` call of the loop over
`tracker.WhoRanSuiteType(receiverTypeName)` in `scan`, in the order of the calls. -/
def addSuiteTests.states (testName : String) : List String → Tracker → List Tracker
  | [], _ => []
  | testNameWhoRan :: rest, t =>
    t.AddTest (testNameWhoRan ++ "/" ++ testName)
      :: addSuiteTests.states testName rest (t.AddTest (testNameWhoRan ++ "/" ++ testName))

/-- The trackers after each `AddTest` call of the body of the loop of `scan` for one
declaration: the call for a root test (made before `FindSuiteRunTypes` runs, so also when
that panics), then the calls for a suite method. -/
def scanDecl.states (resolver : TypeResolver) (order : Nat → List String → List String)
    (st : Tracker × Nat) (f : Decl) : List Tracker :=
  match f with
  | .GenDecl => []
  | .FuncDecl fn =>
    let testName := fn.Name.Name
    let root : List Tracker := if IsSimpleTest fn then [st.1.AddTest testName] else []
    let st1 : Option (Tracker × Nat) :=
      if IsSimpleTest fn then
        (FindSuiteRunTypes fn).map
          (fun idents => (bindSuites resolver testName idents (st.1.AddTest testName), st.2))
      else some st
    root ++
      match st1 with
      | none => []
      | some st1 =>
        if IsPossibleSuiteTest fn then
          match GetReceiverTypeNoStar fn with
          | none => []
          | some receiverTypeName =>
            addSuiteTests.states testName
              (st1.1.WhoRanSuiteType (order st1.2) receiverTypeName) st1.1
        else []

/-- The trackers after each `AddTest` call of one pass of `scan`, up to its end or to the
panic that ends it. -/
def scan.states (resolver : TypeResolver) (order : Nat → List String → List String) :
    List Decl → Tracker × Nat → List Tracker
  | [], _ => []
  | f :: rest, st =>
    scanDecl.states resolver order st f ++
      match scanDecl resolver order st f with
      | none => []
      | some st1 => scan.states resolver order rest st1

/-- The trackers after each `AddTest` call of the two passes of `ParseTestNamesGolangAST`. -/
def scanTwice.states (resolver : TypeResolver) (order : Nat → List String → List String)
    (decls : List Decl) : List Tracker :=
  scan.states resolver order decls (NewTracker, 0) ++
    match scan resolver order decls (NewTracker, 0) with
    | none => []
    | some st1 => scan.states resolver order decls st1

/-! ## Predicates of the statements -/

/-- The binding table binds the root test `r` to the suite type `T`. -/
def Tracker.Bound (t : Tracker) (T r : String) : Prop :=
  ∃ tests, mapGet t.suiteTypesAndTestsWhoRanThem T = some tests ∧ r ∈ mapKeys tests

/-- The set `seenTests` holds the names of `result`, and `result` holds no name twice. -/
def Tracker.Inv (t : Tracker) : Prop :=
  (∀ n, n ∈ t.result ↔ n ∈ mapKeys t.seenTests) ∧ t.result.Nodup

/-- The declaration makes `scan` panic: a root test in which `FindSuiteRunTypes` panics, or a
suite method on which `GetReceiverTypeNoStar` panics. -/
def declPanics (f : Decl) : Bool :=
  match f with
  | .GenDecl => false
  | .FuncDecl fn =>
    (IsSimpleTest fn && (FindSuiteRunTypes fn).isNone)
      || (IsPossibleSuiteTest fn && (GetReceiverTypeNoStar fn).isNone)

/-- The function `fn` runs the suite type `T`: `T` is not empty and is what some identifier
returned by `FindSuiteRunTypes` resolves to. -/
def RunsSuite (resolver : TypeResolver) (fn : FuncDecl) (T : String) : Prop :=
  T ≠ "" ∧ ∃ idents, FindSuiteRunTypes fn = some idents ∧
    ∃ id ∈ idents, resolver.Resolve id = T

/-- The declaration is a root test named `n`. -/
def DeclRoot (f : Decl) (n : String) : Prop :=
  ∃ fn, f = .FuncDecl fn ∧ IsSimpleTest fn = true ∧ fn.Name.Name = n

/-- The declaration is a root test named `r` that runs the suite type `T`. -/
def DeclBinds (resolver : TypeResolver) (f : Decl) (T r : String) : Prop :=
  ∃ fn, f = .FuncDecl fn ∧ IsSimpleTest fn = true ∧ fn.Name.Name = r ∧ RunsSuite resolver fn T

/-- The declaration is a suite method `m` on a receiver type `T`, and `n` is `r/m` for a root
test `r` that the relation `B` binds to `T`. -/
def DeclSuite (B : String → String → Prop) (f : Decl) (n : String) : Prop :=
  ∃ fn T r, f = .FuncDecl fn ∧ IsPossibleSuiteTest fn = true ∧
    GetReceiverTypeNoStar fn = some T ∧ B T r ∧ n = r ++ "/" ++ fn.Name.Name

/-- The names the two passes are to find in a declaration list: the root tests, and `r/m` for
each suite method `m` and each root test `r` among the declarations that runs the receiver
type of `m`. -/
def Expected (resolver : TypeResolver) (decls : List Decl) (n : String) : Prop :=
  ∃ f ∈ decls, DeclRoot f n ∨
    DeclSuite (fun T r => ∃ g ∈ decls, DeclBinds resolver g T r) f n

/-- Text that the Go scanner can return as an identifier: not empty, and made of letters,
digits and underscores (outside ASCII the scanner asks for a Unicode letter or digit; the
predicate lets every such character through). -/
def IsIdentifierText (s : String) : Prop :=
  s ≠ "" ∧ ∀ c ∈ s.toList, c.isAlphanum = true ∨ c = '_' ∨ 128 ≤ c.toNat

instance IsIdentifierText.decidable (s : String) : Decidable (IsIdentifierText s) := by
  unfold IsIdentifierText; infer_instance

/-- Every identifier below the node has the text of a Go identifier. -/
def Node.WellFormed (n : Node) : Prop :=
  ∀ id, Node.Ident id ∈ n.Inspect → IsIdentifierText id.Name

/-- C1, the words of the claim: the body of `r` contains a call of `suite.Run` with two
arguments, and the first identifier of the second argument resolves to `T`. -/
def HasSuiteRunCall (resolver : TypeResolver) (r : FuncDecl) (T : String) : Prop :=
  ∃ Fun Args arg ident, Node.CallExpr Fun Args ∈ InspectList r.Body ∧ Args.length = 2 ∧
    Sprintf Fun = "&\x7bsuite Run\x7d" ∧ Args.get? 1 = some arg ∧
    GetFirstIdent arg = some ident ∧ resolver.Resolve ident = T

/-- C1, the words of the claim: `n` is the name of a root test, or `r/m` for a suite method
`m` with the receiver type `T` and a root test `r` with a call of `suite.Run` on `T`. -/
def ClaimedName (resolver : TypeResolver) (decls : List Decl) (n : String) : Prop :=
  (∃ fn, Decl.FuncDecl fn ∈ decls ∧ IsSimpleTest fn = true ∧ n = fn.Name.Name) ∨
  (∃ r m T, Decl.FuncDecl r ∈ decls ∧ Decl.FuncDecl m ∈ decls ∧ IsSimpleTest r = true ∧
    IsPossibleSuiteTest m = true ∧ GetReceiverTypeNoStar m = some T ∧
    HasSuiteRunCall resolver r T ∧ n = r.Name.Name ++ "/" ++ m.Name.Name)

/-- The `switch` of `Resolve`: the text of the element type for a pointer type, the text of
the type for any other type. -/
def GoType.elemString : GoType → String
  | .Pointer elem => elem.TypeString
  | ty => ty.TypeString

/-- C13, the words of the claim: every space replaced by an underscore, every double quote
removed, every other character kept, in order. -/
def clearSpec (s : String) : String :=
  String.mk (s.toList.filterMap fun c =>
    if c = Char.ofNat 34 then none else if c = ' ' then some '_' else some c)

/-- The identifiers that `ast.Inspect` visits from a node on, in order. -/
def Node.idents (n : Node) : List GoListTests.Ident :=
  n.Inspect.filterMap fun node =>
    match node with
    | .Ident id => some id
    | _ => none

/-- The second arguments of the calls with two arguments whose callee prints as
`&{suite Run}`, among the nodes `ast.Inspect` visits in the function, in order. -/
def suiteRunArgs (fn : FuncDecl) : List Node :=
  fn.Inspect.filterMap fun node =>
    match node with
    | .CallExpr Fun Args =>
      if Args.length = 2 ∧ Sprintf Fun = "&\x7bsuite Run\x7d" then Args.get? 1 else none
    | _ => none

/-- The step of `FindSuiteRunTypes` on the first identifier of a second argument: it is kept
when its name is new. -/
def keepIdent (st : List String × List Ident) (ident : Ident) : List String × List Ident :=
  if ident.Name ∈ st.1 then st else (st.1 ++ [ident.Name], st.2 ++ [ident])

/-- Every value stored in the binding table is `true`. -/
def Tracker.AllTrue (t : Tracker) : Prop :=
  ∀ T tests r v, mapGet t.suiteTypesAndTestsWhoRanThem T = some tests →
    mapGet tests r = some v → v = true

/-- The evaluation of a hit returns: its predicates accept or reject it, and the captures of
an accepted hit are read. -/
def HitReturns (regexp : String → String → Option Bool) (q : Query) (m : QueryMatch) : Prop :=
  ∃ b, NewPredicate.Match regexp q m = .ret b ∧
    (b = true → (CapturesToValues q m.Captures []).isSome = true)

/-- The predicates of the hit accept it. -/
def hitAccepted (regexp : String → String → Option Bool) (q : Query) (m : QueryMatch) : Bool :=
  decide (NewPredicate.Match regexp q m = .ret true)

/-- The capture values of a hit (empty when a capture index is outside the table). -/
def hitValues (q : Query) (m : QueryMatch) : CaptureValues :=
  (CapturesToValues q m.Captures []).getD []

/-- An instruction of a predicate program, with the names and texts its steps stand for:
`match? capture pattern` or `eq? capture capture`. -/
inductive Instruction where
  | match_ (capture pattern : String)
  | eq_ (capture1 capture2 : String)

/-- The four steps `p0 p1 p2 p3` spell the instruction: the name, the two operands and the
end marker. -/
def Instruction.Reads (q : Query) (p0 p1 p2 p3 : QueryPredicateStep) : Instruction → Prop
  | .match_ capture pattern =>
    predicateMustString q p0 = some "match?" ∧ predicateMustCapture q p1 = some capture ∧
      predicateMustString q p2 = some pattern ∧ p3.Type_ = .Done
  | .eq_ capture1 capture2 =>
    predicateMustString q p0 = some "eq?" ∧ predicateMustCapture q p1 = some capture1 ∧
      predicateMustCapture q p2 = some capture2 ∧ p3.Type_ = .Done

/-- A well-formed predicate program: the steps spell a sequence of instructions, four steps
each. -/
inductive Spells (q : Query) : List QueryPredicateStep → List Instruction → Prop where
  | nil : Spells q [] []
  | cons {p0 p1 p2 p3 : QueryPredicateStep} {rest : List QueryPredicateStep}
      {i : Instruction} {prog : List Instruction} :
      i.Reads q p0 p1 p2 p3 → Spells q rest prog →
      Spells q (p0 :: p1 :: p2 :: p3 :: rest) (i :: prog)

/-- The operands of the instruction are there: the captures have a captured text, and the
pattern is a regular expression. -/
def Instruction.Defined (regexp : String → String → Option Bool) (captures : CaptureValues) :
    Instruction → Prop
  | .match_ capture pattern =>
    ∃ value ok, mapGet captures capture = some value ∧ regexp pattern value = some ok
  | .eq_ capture1 capture2 =>
    ∃ value1 value2, mapGet captures capture1 = some value1 ∧
      mapGet captures capture2 = some value2

/-- The instruction holds: the captured text matches the regular expression, or the two
captured texts are identical. -/
def Instruction.Holds (regexp : String → String → Option Bool) (captures : CaptureValues) :
    Instruction → Prop
  | .match_ capture pattern =>
    ∃ value, mapGet captures capture = some value ∧ regexp pattern value = some true
  | .eq_ capture1 capture2 =>
    ∃ value, mapGet captures capture1 = some value ∧ mapGet captures capture2 = some value

/-- The error, if any, that `Tick` returns at the visit `i + j`, for a walk that is at the
visit `i` with the budget `limit` and is not stopped before. -/
def ticks (flags : Flags) (now : Nat → Int) : Nat → Deadliner → Nat → Option Error
  | i, limit, 0 => (limit.Tick flags (now i)).1
  | i, limit, j + 1 => ticks flags now (i + 1) (limit.Tick flags (now i)).2 j

/-- The names that the `i`-th visit appends: those of `ParseTestNames` for a test file,
none for another path. -/
def namesOf (e : Engine) (order : Nat → Nat → List String → List String) (i : Nat)
    (entry : WalkEntry) : List String :=
  if IsTestFilename entry.path then
    match ParseTestNames e (order i) entry.file with
    | .ret names => names
    | _ => []
  else []

/-- The names of the test files among the paths, visited from the `i`-th visit on. -/
def collected (e : Engine) (order : Nat → Nat → List String → List String) :
    List WalkEntry → Nat → List String
  | [], _ => []
  | entry :: rest, i => namesOf e order i entry ++ collected e order rest (i + 1)

/-- The name `a` stands before the name `b` in the list: it was appended earlier. -/
def Before (l : List String) (a b : String) : Prop :=
  ∃ pre post, l = pre ++ b :: post ∧ a ∈ pre

/-- The declarations hold a root test named `n`. -/
def IsRootName (decls : List Decl) (n : String) : Prop :=
  ∃ fn, Decl.FuncDecl fn ∈ decls ∧ IsSimpleTest fn = true ∧ fn.Name.Name = n

/-- The declarations hold a suite method named `m`. -/
def IsMethodName (decls : List Decl) (m : String) : Prop :=
  ∃ fn, Decl.FuncDecl fn ∈ decls ∧ IsPossibleSuiteTest fn = true ∧ fn.Name.Name = m

/-- The invariant of the tracker in the passes over `decls`: `seenTests` and `result` agree,
every root test of the binding table is a root test of the declarations and is in `result`,
and every name of `result` is a root test or `r/m` for a suite method `m` and a root test
`r` that stands before it. -/
def Tracker.Parented (decls : List Decl) (t : Tracker) : Prop :=
  t.Inv ∧
  (∀ T r, t.Bound T r → r ∈ t.result ∧ IsRootName decls r) ∧
  (∀ n ∈ t.result, IsRootName decls n ∨
    ∃ r m, n = r ++ "/" ++ m ∧ IsRootName decls r ∧ IsMethodName decls m ∧ Before t.result r n)

/-- The error that ends the walk at the visit `i + j`, for a walk that is at the visit `i`
with the budget `limit` and is not ended before: the error the walker passes to the
callback for that path, or else the error of `Tick`; `none` when the walk goes on from
there, or has no such visit. -/
def stops (flags : Flags) (now : Nat → Int) (i : Nat) (limit : Deadliner)
    (entries : List WalkEntry) (j : Nat) : Option Error :=
  match entries.get? j with
  | none => none
  | some entry =>
    match entry.err with
    | some err => some (.walk err)
    | none => ticks flags now i limit j

/-! ## Examples -/

/-- The type expression `*testing.T`, with its two identifiers at the positions `p` and `q`. -/
def ptrTestingT (p q : Nat) : Node :=
  .StarExpr (.SelectorExpr (.Ident ⟨p, "testing"⟩) ⟨q, "T"⟩)

/-- The parameter list `(t *testing.T)`. -/
def paramsT : List Field := [⟨[⟨20, "t"⟩], ptrTestingT 22 30⟩]

/-- Go `func TestSimple3(t *something.T) {}`. -/
def testSomethingT : FuncDecl :=
  { Recv := none, Name := ⟨5, "TestSimple3"⟩,
    Params := [⟨[⟨20, "t"⟩], .StarExpr (.SelectorExpr (.Ident ⟨22, "something"⟩) ⟨32, "T"⟩)⟩],
    Results := [], Body := [] }

/-- Go `func TestBench(b *testing.B) {}`. -/
def testTestingB : FuncDecl :=
  { Recv := none, Name := ⟨5, "TestBench"⟩,
    Params := [⟨[⟨15, "b"⟩], .StarExpr (.SelectorExpr (.Ident ⟨18, "testing"⟩) ⟨26, "B"⟩)⟩],
    Results := [], Body := [] }

/-- Go `func TestPair(a, b *testing.T) {}`: two parameters in one group. -/
def testPair : FuncDecl :=
  { Recv := none, Name := ⟨5, "TestPair"⟩,
    Params := [⟨[⟨14, "a"⟩, ⟨17, "b"⟩], ptrTestingT 20 28⟩], Results := [], Body := [] }

/-- Go `func TestSimple(t *testing.T, more bool) {}`: two parameters in two groups. -/
def testTwoGroups : FuncDecl :=
  { Recv := none, Name := ⟨5, "TestSimple"⟩,
    Params := [⟨[⟨16, "t"⟩], ptrTestingT 19 27⟩, ⟨[⟨30, "more"⟩], .Ident ⟨35, "bool"⟩⟩],
    Results := [], Body := [] }

/-- Go `func TestValue(t testing.T) {}`: the handle passed by value. -/
def testByValue : FuncDecl :=
  { Recv := none, Name := ⟨5, "TestValue"⟩,
    Params := [⟨[⟨15, "t"⟩], .SelectorExpr (.Ident ⟨17, "testing"⟩) ⟨25, "T"⟩⟩],
    Results := [], Body := [] }

/-- Go `func TestValue(t *testing.T) {}`: the handle passed by pointer. -/
def testByPointer : FuncDecl :=
  { Recv := none, Name := ⟨5, "TestValue"⟩,
    Params := [⟨[⟨15, "t"⟩], ptrTestingT 18 26⟩], Results := [], Body := [] }

/-- Go `func (p int) TestSimple4() {}`. -/
def methodValueReceiver : FuncDecl :=
  { Recv := some [⟨[⟨6, "p"⟩], .Ident ⟨8, "int"⟩⟩], Name := ⟨13, "TestSimple4"⟩,
    Params := [], Results := [], Body := [] }

/-- Go `func (p *int) TestSimple5() {}`. -/
def methodPointerReceiver : FuncDecl :=
  { Recv := some [⟨[⟨6, "p"⟩], .StarExpr (.Ident ⟨9, "int"⟩)⟩], Name := ⟨14, "TestSimple5"⟩,
    Params := [], Results := [], Body := [] }

/-- The call `suite.Run(t, arg)`, as a statement. -/
def suiteRun (p : Nat) (arg : Node) : Node :=
  ExprStmt (.CallExpr (.SelectorExpr (.Ident ⟨p, "suite"⟩) ⟨p + 6, "Run"⟩)
    [.Ident ⟨p + 10, "t"⟩, arg])

/-- A root test `func name(t *testing.T) { body }`. -/
def rootTest (p : Nat) (name : String) (body : List Node) : FuncDecl :=
  { Recv := none, Name := ⟨p, name⟩, Params := paramsT, Results := [], Body := body }

/-- A method `func (s recv) name(params) {}`. -/
def method (p : Nat) (recv : Node) (name : String) (params : List Field) : FuncDecl :=
  { Recv := some [⟨[⟨p, "s"⟩], recv⟩], Name := ⟨p + 10, name⟩, Params := params,
    Results := [], Body := [] }

/-- The declarations
```
func TestSimple1(t *testing.T) {}
func TestSuite(t *testing.T) { suite.Run(t, &S{}) }
func (s S) TestA() {}
func (s *S) TestB() {}
func (s S) TestInvalidArgs(t *testing.T) {}
func (s *S) IncorrectName() {}
func (s U) TestNeverRun() {}
```
-/
def exampleDecls : List Decl :=
  [ .FuncDecl (rootTest 100 "TestSimple1" []),
    .FuncDecl (rootTest 200 "TestSuite"
      [suiteRun 230 (UnaryExpr (CompositeLit (.Ident ⟨244, "S"⟩) []))]),
    .FuncDecl (method 300 (.Ident ⟨302, "S"⟩) "TestA" []),
    .FuncDecl (method 400 (.StarExpr (.Ident ⟨403, "S"⟩)) "TestB" []),
    .FuncDecl (method 500 (.Ident ⟨502, "S"⟩) "TestInvalidArgs" paramsT),
    .FuncDecl (method 600 (.StarExpr (.Ident ⟨603, "S"⟩)) "IncorrectName" []),
    .FuncDecl (method 700 (.Ident ⟨702, "U"⟩) "TestNeverRun" []) ]

/-- A file with the declarations `exampleDecls`, in which the type checker resolves nothing
and the queries match nothing. -/
def exampleFile : SourceFile :=
  { Decls := some exampleDecls, Uses := [],
    matchesTRunStringLiteral := [], matchesTRunStructLiteral := [] }

/-- The file `exampleFile` with its declarations in the reverse order: the suite methods
come before the root test that runs their suite. -/
def exampleFileReversed : SourceFile :=
  { exampleFile with Decls := some exampleDecls.reverse }

/-- Maps ranged over in the order of insertion. -/
def insertionOrder : Nat → List String → List String := fun _ l => l

/-- Maps ranged over in the reverse order of insertion. -/
def reverseOrder : Nat → List String → List String := fun _ l => l.reverse

/-- The root test of `shadowDecls`:
```
func TestSuite(t *testing.T) {
	{ s := &A{}; suite.Run(t, s) }
	{ s := &B{}; suite.Run(t, s) }
}
```
-/
def shadowSuite : FuncDecl :=
  rootTest 100 "TestSuite"
    [ .Other [AssignStmt [.Ident ⟨130, "s"⟩] [UnaryExpr (CompositeLit (.Ident ⟨136, "A"⟩) [])],
        suiteRun 140 (.Ident ⟨153, "s"⟩)],
      .Other [AssignStmt [.Ident ⟨160, "s"⟩] [UnaryExpr (CompositeLit (.Ident ⟨166, "B"⟩) [])],
        suiteRun 170 (.Ident ⟨183, "s"⟩)] ]

/-- The declarations `type A struct{}`, `type B struct{}`, `shadowSuite`,
`func (a *A) TestA() {}` and `func (b *B) TestB() {}`. -/
def shadowDecls : List Decl :=
  [ .GenDecl, .GenDecl, .FuncDecl shadowSuite,
    .FuncDecl (method 200 (.StarExpr (.Ident ⟨203, "A"⟩)) "TestA" []),
    .FuncDecl (method 300 (.StarExpr (.Ident ⟨303, "B"⟩)) "TestB" []) ]

/-- A file with the declarations `shadowDecls`; the type checker records the two variables
`s` at their uses, with the types `*A` and `*B`. -/
def shadowFile : SourceFile :=
  { Decls := some shadowDecls,
    Uses := [(⟨153, "s"⟩, ⟨"s", .Pointer (.Named "A")⟩),
             (⟨183, "s"⟩, ⟨"s", .Pointer (.Named "B")⟩)],
    matchesTRunStringLiteral := [], matchesTRunStructLiteral := [] }

/-- A resolver in which the variable `new`, used at position 153, has the type `Env`. -/
def resolverNew : TypeResolver :=
  { Uses := [(⟨153, "new"⟩, ⟨"new", .Named "Env"⟩)] }

/-- A resolver in which the variable `env`, used at position 153, has the type `*Env`, and
the type name `Env`, used at position 130, is bound to the type `Env`. -/
def resolverEnv : TypeResolver :=
  { Uses := [(⟨130, "Env"⟩, ⟨"Env", .Named "Env"⟩),
             (⟨153, "env"⟩, ⟨"env", .Pointer (.Named "Env")⟩)] }

/-- An `*ast.FuncLit`: `ast.Inspect` visits the parameters, then the body. -/
def FuncLit (Params Body : List Node) : Node := .Other (Params ++ Body)

/-- The call `t.Run(<string literal>, func(t *testing.T) {})`, as a statement. -/
def tRun (p : Nat) : Node :=
  ExprStmt (.CallExpr (.SelectorExpr (.Ident ⟨p, "t"⟩) ⟨p + 2, "Run"⟩)
    [BasicLit, FuncLit [.Ident ⟨p + 20, "t"⟩, ptrTestingT (p + 23) (p + 31)] []])

/-- A string literal of Go source: the text between double quotes. -/
def quoted (s : String) : String := "\x22" ++ s ++ "\x22"

/-- A stand-in for `regexp.MatchString` in the examples: a pattern made of letters and
digits matches the texts that contain it; the examples use no other pattern. -/
def literalRegexp (pattern value : String) : Option Bool :=
  if pattern.toList.all Char.isAlphanum then
    some (decide (pattern.toList <:+: value.toList))
  else none

/-- An engine for the examples, after the description of the two queries: the
string-literal query asks that the called method match `Run`; the struct-literal query
asks that the loop variable and the variable of the field access be equal, and that the
called method match `Run`. -/
def exampleEngine : Engine :=
  { regexp := literalRegexp,
    queryTRunStringLiteral :=
      { CaptureNames := ["func.name", "run", "test.name"],
        StringValues := ["match?", "Run"],
        Predicates := [[⟨.String_, 0⟩, ⟨.Capture, 1⟩, ⟨.String_, 1⟩, ⟨.Done, 0⟩]] },
    queryTRunStructLiteral :=
      { CaptureNames := ["func.name", "loop.var", "field.var", "run", "test.name"],
        StringValues := ["eq?", "match?", "Run"],
        Predicates := [[⟨.String_, 0⟩, ⟨.Capture, 1⟩, ⟨.Capture, 2⟩, ⟨.Done, 0⟩,
                        ⟨.String_, 1⟩, ⟨.Capture, 3⟩, ⟨.String_, 2⟩, ⟨.Done, 0⟩]] } }

/-- The match of the string-literal query on a call `t.Run("name", ...)` in the function
`func`. -/
def stringLiteralMatch (func name : String) : QueryMatch :=
  { PatternIndex := 0, Captures := [⟨0, func⟩, ⟨1, "Run"⟩, ⟨2, quoted name⟩] }

/-- The file of `TestTreeSitterTRunStringLiteral`:
```
func TestWeb(t *testing.T) {
	t.Run("works", func(t *testing.T) {})
}
```
-/
def webFile : SourceFile :=
  { Decls := some [.FuncDecl (rootTest 100 "TestWeb" [tRun 130])], Uses := [],
    matchesTRunStringLiteral := [stringLiteralMatch "TestWeb" "works"],
    matchesTRunStructLiteral := [] }

/-- The file
```
func TestWeb(t *testing.T) {
	t.Run("works", func(t *testing.T) {})
	t.Run("works", func(t *testing.T) {})
}
```
-/
def twiceFile : SourceFile :=
  { Decls := some [.FuncDecl (rootTest 100 "TestWeb" [tRun 130, tRun 170])], Uses := [],
    matchesTRunStringLiteral :=
      [stringLiteralMatch "TestWeb" "works", stringLiteralMatch "TestWeb" "works"],
    matchesTRunStructLiteral := [] }

/-- The file
```
func TestSuite(t *testing.T) {
	suite.Run(t, &S{})
	t.Run("TestA", func(t *testing.T) {})
}
func (s S) TestA() {}
```
-/
def overlapFile : SourceFile :=
  { Decls := some
      [ .FuncDecl (rootTest 100 "TestSuite"
          [suiteRun 130 (UnaryExpr (CompositeLit (.Ident ⟨144, "S"⟩) [])), tRun 150]),
        .FuncDecl (method 200 (.Ident ⟨202, "S"⟩) "TestA" []) ],
    Uses := [],
    matchesTRunStringLiteral := [stringLiteralMatch "TestSuite" "TestA"],
    matchesTRunStructLiteral := [] }

/-- The file
```
func TestSuite(t *testing.T) { suite.Run(t, &S{}) }
func TestSuite2(t *testing.T) { suite.Run(t, &S{}); suite.Run(t, &S{}) }
func (s S) TestA() {}
func (s *S) TestA() {}
func TestSuite(t *testing.T) { suite.Run(t, &S{}) }
```
in which a root test and a suite method are declared twice and two root tests run the same
suite. -/
def repeatedFile : SourceFile :=
  { Decls := some
      [ .FuncDecl (rootTest 100 "TestSuite"
          [suiteRun 130 (UnaryExpr (CompositeLit (.Ident ⟨144, "S"⟩) []))]),
        .FuncDecl (rootTest 200 "TestSuite2"
          [suiteRun 230 (UnaryExpr (CompositeLit (.Ident ⟨244, "S"⟩) [])),
           suiteRun 250 (UnaryExpr (CompositeLit (.Ident ⟨264, "S"⟩) []))]),
        .FuncDecl (method 300 (.Ident ⟨302, "S"⟩) "TestA" []),
        .FuncDecl (method 400 (.StarExpr (.Ident ⟨403, "S"⟩)) "TestA" []),
        .FuncDecl (rootTest 500 "TestSuite"
          [suiteRun 530 (UnaryExpr (CompositeLit (.Ident ⟨544, "S"⟩) []))]) ],
    Uses := [], matchesTRunStringLiteral := [], matchesTRunStructLiteral := [] }

/-- A walk over a directory with the files `a_test.go` (`webFile`), `b_test.go`
(`twiceFile`) and `main.go`. -/
def walkAB : List WalkEntry :=
  [ ⟨".", none, exampleFile⟩, ⟨"a_test.go", none, webFile⟩, ⟨"b_test.go", none, twiceFile⟩,
    ⟨"main.go", none, exampleFile⟩ ]

/-- The files of `walkAB`, visited in another order. -/
def walkBA : List WalkEntry :=
  [ ⟨".", none, exampleFile⟩, ⟨"b_test.go", none, twiceFile⟩, ⟨"main.go", none, exampleFile⟩,
    ⟨"a_test.go", none, webFile⟩ ]

/-- The flags at their default values: `maxFiles` 10000, `maxExecution` one second. -/
def defaultFlags : Flags := { maxFiles := 10000, maxExecution := 1000000000 }

/-- The function of `TestFindSuiteRunTypes`:
```
func TestAggregatorStarSuite(t *testing.T) {
	rand.Seed(0)
	suite.Run(t, &aggregatorStarSuite{})
	suite.Run(t, new(aggregatorSuite))
	suite.Run(t, &aggregatorSuite{})
	suite.Run(t, &aggregatorStarSuite{})
	suite.Run(t)
	other.Run(t, &otherSuite{})
}
```
-/
def fourSuiteRuns : FuncDecl :=
  rootTest 100 "TestAggregatorStarSuite"
    [ ExprStmt (.CallExpr (.SelectorExpr (.Ident ⟨130, "rand"⟩) ⟨135, "Seed"⟩) [BasicLit]),
      suiteRun 150 (UnaryExpr (CompositeLit (.Ident ⟨164, "aggregatorStarSuite"⟩) [])),
      suiteRun 200 (.CallExpr (.Ident ⟨213, "new"⟩) [.Ident ⟨217, "aggregatorSuite"⟩]),
      suiteRun 250 (UnaryExpr (CompositeLit (.Ident ⟨264, "aggregatorSuite"⟩) [])),
      suiteRun 300 (UnaryExpr (CompositeLit (.Ident ⟨314, "aggregatorStarSuite"⟩) [])),
      ExprStmt (.CallExpr (.SelectorExpr (.Ident ⟨350, "suite"⟩) ⟨356, "Run"⟩)
        [.Ident ⟨360, "t"⟩]),
      ExprStmt (.CallExpr (.SelectorExpr (.Ident ⟨400, "other"⟩) ⟨406, "Run"⟩)
        [.Ident ⟨410, "t"⟩, UnaryExpr (CompositeLit (.Ident ⟨414, "otherSuite"⟩) [])]) ]

/-- The file
```
func (s S) TestA() {}
func TestSuite(t *testing.T) { suite.Run(t, &S{}) }
```
in which the suite method comes before the root test that runs its suite. -/
def methodFirstDecls : List Decl :=
  [ .FuncDecl (method 100 (.Ident ⟨102, "S"⟩) "TestA" []),
    .FuncDecl (rootTest 200 "TestSuite"
      [suiteRun 230 (UnaryExpr (CompositeLit (.Ident ⟨244, "S"⟩) []))]) ]

/-- The match of the struct-literal query on a call `t.Run(field.name, ...)` in a loop
`for _, loop := range ...` over struct literals with the name `name`, in the function
`func`. -/
def structLiteralMatch (func loop field name : String) : QueryMatch :=
  { PatternIndex := 0,
    Captures := [⟨0, func⟩, ⟨1, loop⟩, ⟨2, field⟩, ⟨3, "Run"⟩, ⟨4, quoted name⟩] }

/-- A file in which the string-literal query hits `t.Run("works", ...)`, `t.Skip("now")` and
`t.Run("a b", ...)` in `TestWeb`, and the struct-literal query hits two calls in loops over
`tc` in `TestTable`: `t.Run(tc.name, ...)` for the name `device event`, and
`t.Run(other.name, ...)` for the name `lost`. -/
def hitsFile : SourceFile :=
  { Decls := some [], Uses := [],
    matchesTRunStringLiteral :=
      [ stringLiteralMatch "TestWeb" "works",
        ⟨0, [⟨0, "TestWeb"⟩, ⟨1, "Skip"⟩, ⟨2, quoted "now"⟩]⟩,
        stringLiteralMatch "TestWeb" "a b" ],
    matchesTRunStructLiteral :=
      [ structLiteralMatch "TestTable" "tc" "tc" "device event",
        structLiteralMatch "TestTable" "tc" "other" "lost" ] }

/-- A query whose pattern carries `(#eq? @a @b)` and then `(#not-eq? @a @c)`. -/
def notEqQuery : Query :=
  { CaptureNames := ["a", "b", "c"],
    StringValues := ["eq?", "not-eq?"],
    Predicates := [[⟨.String_, 0⟩, ⟨.Capture, 0⟩, ⟨.Capture, 1⟩, ⟨.Done, 0⟩,
                    ⟨.String_, 1⟩, ⟨.Capture, 0⟩, ⟨.Capture, 2⟩, ⟨.Done, 0⟩]] }

/-- A hit of `notEqQuery` in which `@a` and `@b` capture the same text. -/
def notEqMatch : QueryMatch :=
  { PatternIndex := 0, Captures := [⟨0, "tc"⟩, ⟨1, "tc"⟩, ⟨2, "other"⟩] }

/-- A walk over a directory with the two test files `a_test.go` (`webFile`) and `b_test.go`
(`overlapFile`). -/
def walkTwo : List WalkEntry :=
  [ ⟨".", none, exampleFile⟩, ⟨"a_test.go", none, webFile⟩, ⟨"b_test.go", none, overlapFile⟩ ]

/-- A budget of `numFiles` files whose deadline, one second after the start, is not reached
by a walk that takes no time. -/
def budget (numFiles : Int) : Deadliner := .Limited { expiry := 1000000000, numFiles := numFiles }

/-- The file
```
func TestRoot(t *testing.T) { suite.Run(t, &S{}) }
func (s *S) TestX() { suite.Run(s.T(), &Inner{}) }
func (i *Inner) TestY() {}
```
in which a suite method runs a suite of its own. -/
def chainedDecls : List Decl :=
  [ .FuncDecl (rootTest 100 "TestRoot"
      [suiteRun 130 (UnaryExpr (CompositeLit (.Ident ⟨144, "S"⟩) []))]),
    .FuncDecl
      { Recv := some [⟨[⟨206, "s"⟩], .StarExpr (.Ident ⟨209, "S"⟩)⟩], Name := ⟨212, "TestX"⟩,
        Params := [], Results := [],
        Body := [ExprStmt (.CallExpr (.SelectorExpr (.Ident ⟨222, "suite"⟩) ⟨228, "Run"⟩)
          [.CallExpr (.SelectorExpr (.Ident ⟨232, "s"⟩) ⟨234, "T"⟩) [],
            UnaryExpr (CompositeLit (.Ident ⟨240, "Inner"⟩) [])])] },
    .FuncDecl (method 300 (.StarExpr (.Ident ⟨303, "Inner"⟩)) "TestY" []) ]

/-- A query whose pattern carries `(#eq? @a @b)`. -/
def eqQuery : Query :=
  { CaptureNames := ["a", "b"],
    StringValues := ["eq?"],
    Predicates := [[⟨.String_, 0⟩, ⟨.Capture, 0⟩, ⟨.Capture, 1⟩, ⟨.Done, 0⟩]] }

/-- A query whose pattern carries `(#match? @a "(")`: the pattern `(` does not compile. -/
def badPatternQuery : Query :=
  { CaptureNames := ["a"],
    StringValues := ["match?", "("],
    Predicates := [[⟨.String_, 0⟩, ⟨.Capture, 0⟩, ⟨.String_, 1⟩, ⟨.Done, 0⟩]] }

/-- A hit in which `@a` is captured and `@b` is not. -/
def onlyAMatch : QueryMatch :=
  { PatternIndex := 0, Captures := [⟨0, "tc"⟩] }

/-- The walk of `walkTwo` with a subdirectory between the two test files that the walker
cannot read: it passes the error to the callback. -/
def walkErr : List WalkEntry :=
  [ ⟨".", none, exampleFile⟩, ⟨"a_test.go", none, webFile⟩,
    ⟨"sub", some "open sub: permission denied", exampleFile⟩,
    ⟨"b_test.go", none, overlapFile⟩ ]

/-! ## Lemmas: Go maps -/

theorem mapGet_mapPut_same {V : Type} (m : GoMap V) (k : String) (v : V) :
    mapGet (mapPut m k v) k = some v := by
  induction m with
  | nil => simp [mapPut, mapGet]
  | cons e rest ih =>
    obtain ⟨k0, v0⟩ := e
    by_cases h : k0 = k
    · simp [mapPut, mapGet, h]
    · simp [mapPut, mapGet, h, ih]

theorem mapGet_mapPut_of_ne {V : Type} (m : GoMap V) (k k1 : String) (v : V) (hne : k1 ≠ k) :
    mapGet (mapPut m k v) k1 = mapGet m k1 := by
  induction m with
  | nil => simp [mapPut, mapGet, Ne.symm hne]
  | cons e rest ih =>
    obtain ⟨k0, v0⟩ := e
    by_cases h : k0 = k
    · subst h
      simp [mapPut, mapGet, Ne.symm hne]
    · by_cases h1 : k0 = k1
      · subst h1
        simp [mapPut, mapGet, h]
      · simp [mapPut, mapGet, h, h1, ih]

theorem mem_mapKeys_iff {V : Type} (m : GoMap V) (k : String) :
    k ∈ mapKeys m ↔ (mapGet m k).isSome = true := by
  induction m with
  | nil => simp [mapKeys, mapGet]
  | cons e rest ih =>
    obtain ⟨k0, v0⟩ := e
    by_cases h : k0 = k
    · simp [mapKeys, mapGet, h]
    · have ih1 : k ∈ List.map Prod.fst rest ↔ (mapGet rest k).isSome = true := ih
      simp [mapKeys, mapGet, h, Ne.symm h, ih1]

theorem mem_mapKeys_mapPut {V : Type} (m : GoMap V) (k k1 : String) (v : V) :
    k1 ∈ mapKeys (mapPut m k v) ↔ k1 = k ∨ k1 ∈ mapKeys m := by
  rw [mem_mapKeys_iff, mem_mapKeys_iff]
  by_cases h : k1 = k
  · subst h
    simp [mapGet_mapPut_same]
  · simp [mapGet_mapPut_of_ne _ _ _ _ h, h]

theorem mapGet_isNone_iff {V : Type} (m : GoMap V) (k : String) :
    (mapGet m k).isNone = true ↔ k ∉ mapKeys m := by
  rw [mem_mapKeys_iff]
  cases mapGet m k <;> simp

/-! ## Lemmas: sorting -/

theorem strLE_iff (a b : String) : strLE a b ↔ a ≤ b := String.le_iff_toList_le.symm

instance strLE.isTotal : IsTotal String strLE :=
  ⟨fun a b => by simpa [strLE_iff] using le_total a b⟩

instance strLE.isTrans : IsTrans String strLE :=
  ⟨fun a b c hab hbc => by
    rw [strLE_iff] at *
    exact le_trans hab hbc⟩

instance strLE.isAntisymm : IsAntisymm String strLE :=
  ⟨fun a b hab hba => by
    rw [strLE_iff] at *
    exact le_antisymm hab hba⟩

theorem sortStrings_perm (l : List String) : (sortStrings l).Perm l :=
  List.perm_insertionSort strLE l

theorem sortStrings_sorted (l : List String) : (sortStrings l).Sorted strLE :=
  List.sorted_insertionSort strLE l

theorem mem_sortStrings (l : List String) (n : String) : n ∈ sortStrings l ↔ n ∈ l :=
  (sortStrings_perm l).mem_iff

/-- Two duplicate-free lists with the same elements sort to the same list. -/
theorem sortStrings_eq_of_mem_iff {l1 l2 : List String} (h1 : l1.Nodup) (h2 : l2.Nodup)
    (h : ∀ n, n ∈ l1 ↔ n ∈ l2) : sortStrings l1 = sortStrings l2 := by
  have hp : l1.Perm l2 := (List.perm_ext_iff_of_nodup h1 h2).2 h
  exact List.eq_of_perm_of_sorted
    (((sortStrings_perm l1).trans hp).trans (sortStrings_perm l2).symm)
    (sortStrings_sorted l1) (sortStrings_sorted l2)

/-! ## Lemmas: tracker -/

theorem NewTracker_inv : NewTracker.Inv := by
  simp [Tracker.Inv, NewTracker, mapKeys]

theorem NewTracker_not_bound (T r : String) : ¬ NewTracker.Bound T r := by
  simp [Tracker.Bound, NewTracker, mapGet]

theorem AddTest_suites (t : Tracker) (x : String) :
    (t.AddTest x).suiteTypesAndTestsWhoRanThem = t.suiteTypesAndTestsWhoRanThem := by
  unfold Tracker.AddTest
  split <;> rfl

theorem AddTest_bound (t : Tracker) (x T r : String) :
    (t.AddTest x).Bound T r ↔ t.Bound T r := by
  simp [Tracker.Bound, AddTest_suites]

theorem AddTest_inv (t : Tracker) (x : String) (h : t.Inv) : (t.AddTest x).Inv := by
  unfold Tracker.AddTest
  split
  · rename_i hnone
    have hx : x ∉ t.result := by
      rw [h.1 x]
      exact (mapGet_isNone_iff _ _).1 hnone
    constructor
    · intro n
      simp only [List.mem_append, List.mem_singleton, mem_mapKeys_mapPut, h.1 n]
      tauto
    · simpa [List.nodup_append, h.2] using hx
  · exact h

theorem mem_AddTest_result (t : Tracker) (x n : String) (h : t.Inv) :
    n ∈ (t.AddTest x).result ↔ n = x ∨ n ∈ t.result := by
  unfold Tracker.AddTest
  split
  · simp only [List.mem_append, List.mem_singleton]
    tauto
  · rename_i hsome
    have hx : x ∈ t.result := by
      rw [h.1 x]
      by_contra hc
      exact hsome ((mapGet_isNone_iff _ _).2 hc)
    constructor
    · intro hn
      exact Or.inr hn
    · rintro (rfl | hn)
      · exact hx
      · exact hn

theorem SuiteRanByTest_result (t : Tracker) (T r : String) :
    (t.SuiteRanByTest T r).result = t.result := rfl

theorem SuiteRanByTest_seenTests (t : Tracker) (T r : String) :
    (t.SuiteRanByTest T r).seenTests = t.seenTests := rfl

theorem SuiteRanByTest_inv (t : Tracker) (T r : String) (h : t.Inv) :
    (t.SuiteRanByTest T r).Inv := h

theorem SuiteRanByTest_bound (t : Tracker) (T r T1 r1 : String) :
    (t.SuiteRanByTest T r).Bound T1 r1 ↔ (T1 = T ∧ r1 = r) ∨ t.Bound T1 r1 := by
  unfold Tracker.Bound Tracker.SuiteRanByTest
  simp only
  by_cases hT : T1 = T
  · subst hT
    simp only [mapGet_mapPut_same, Option.some.injEq, exists_eq_left', mem_mapKeys_mapPut, true_and]
    cases hget : mapGet t.suiteTypesAndTestsWhoRanThem T1 with
    | none => simp [mapGet_mapPut_same, mapKeys]
    | some tests => simp [hget]
  · simp only [mapGet_mapPut_of_ne _ _ _ _ hT, hT, false_and, false_or]
    split
    · simp [mapGet_mapPut_of_ne _ _ _ _ hT]
    · rfl

theorem mem_WhoRanSuiteType (order : List String → List String)
    (horder : ∀ l, (order l).Perm l) (t : Tracker) (T r : String) :
    r ∈ t.WhoRanSuiteType order T ↔ t.Bound T r := by
  unfold Tracker.WhoRanSuiteType Tracker.Bound
  cases mapGet t.suiteTypesAndTestsWhoRanThem T with
  | none => simp
  | some tests => simp [(horder (mapKeys tests)).mem_iff]

theorem bindSuites_result (resolver : TypeResolver) (testName : String) (idents : List Ident)
    (t : Tracker) : (bindSuites resolver testName idents t).result = t.result := by
  unfold bindSuites
  induction idents generalizing t with
  | nil => rfl
  | cons id rest ih =>
    simp only [List.foldl_cons]
    rw [ih]
    split <;> rfl

theorem bindSuites_inv (resolver : TypeResolver) (testName : String) (idents : List Ident)
    (t : Tracker) (h : t.Inv) : (bindSuites resolver testName idents t).Inv := by
  unfold bindSuites
  induction idents generalizing t with
  | nil => exact h
  | cons id rest ih =>
    simp only [List.foldl_cons]
    apply ih
    split
    · exact SuiteRanByTest_inv _ _ _ h
    · exact h

theorem bindSuites_bound (resolver : TypeResolver) (testName : String) (idents : List Ident)
    (t : Tracker) (T r : String) :
    (bindSuites resolver testName idents t).Bound T r ↔
      t.Bound T r ∨ (r = testName ∧ T ≠ "" ∧ ∃ id ∈ idents, resolver.Resolve id = T) := by
  unfold bindSuites
  induction idents generalizing t with
  | nil => simp
  | cons id rest ih =>
    simp only [List.foldl_cons]
    rw [ih]
    by_cases hne : resolver.Resolve id = ""
    · simp only [hne, ne_eq, not_true_eq_false, ↓reduceIte, List.mem_cons, exists_eq_or_imp]
      constructor
      · rintro (h | ⟨h1, h2, h3⟩)
        · exact Or.inl h
        · exact Or.inr ⟨h1, h2, Or.inr h3⟩
      · rintro (h | ⟨h1, h2, h3 | h3⟩)
        · exact Or.inl h
        · exact absurd h3.symm h2
        · exact Or.inr ⟨h1, h2, h3⟩
    · simp only [ne_eq, hne, not_false_eq_true, ↓reduceIte, SuiteRanByTest_bound, List.mem_cons,
        exists_eq_or_imp]
      constructor
      · rintro ((⟨h1, h2⟩ | h) | ⟨h1, h2, h3⟩)
        · subst h1
          exact Or.inr ⟨h2, hne, Or.inl rfl⟩
        · exact Or.inl h
        · exact Or.inr ⟨h1, h2, Or.inr h3⟩
      · rintro (h | ⟨h1, h2, h3 | h3⟩)
        · exact Or.inl (Or.inr h)
        · exact Or.inl (Or.inl ⟨h3.symm, h1⟩)
        · exact Or.inr ⟨h1, h2, h3⟩

theorem addSuiteTests_suites (testName : String) (whoRan : List String) (t : Tracker) :
    (addSuiteTests testName whoRan t).suiteTypesAndTestsWhoRanThem
      = t.suiteTypesAndTestsWhoRanThem := by
  unfold addSuiteTests
  induction whoRan generalizing t with
  | nil => rfl
  | cons r rest ih =>
    simp only [List.foldl_cons]
    rw [ih, AddTest_suites]

theorem addSuiteTests_bound (testName : String) (whoRan : List String) (t : Tracker)
    (T r : String) : (addSuiteTests testName whoRan t).Bound T r ↔ t.Bound T r := by
  simp [Tracker.Bound, addSuiteTests_suites]

theorem addSuiteTests_inv (testName : String) (whoRan : List String) (t : Tracker)
    (h : t.Inv) : (addSuiteTests testName whoRan t).Inv := by
  unfold addSuiteTests
  induction whoRan generalizing t with
  | nil => exact h
  | cons r rest ih =>
    simp only [List.foldl_cons]
    exact ih _ (AddTest_inv _ _ h)

theorem mem_addSuiteTests_result (testName : String) (whoRan : List String) (t : Tracker)
    (h : t.Inv) (n : String) :
    n ∈ (addSuiteTests testName whoRan t).result ↔
      n ∈ t.result ∨ ∃ r ∈ whoRan, n = r ++ "/" ++ testName := by
  unfold addSuiteTests
  induction whoRan generalizing t with
  | nil => simp
  | cons r rest ih =>
    simp only [List.foldl_cons]
    rw [ih _ (AddTest_inv _ _ h), mem_AddTest_result _ _ _ h]
    simp only [List.mem_cons, exists_eq_or_imp]
    tauto

/-! ## Lemmas: one pass of `scan` -/

theorem IsPossibleSuiteTest_of_IsSimpleTest (fn : FuncDecl) (h : IsSimpleTest fn = true) :
    IsPossibleSuiteTest fn = false := by
  unfold IsSimpleTest at h
  unfold IsPossibleSuiteTest HasReceiverAndNoArguments
  simp only [Bool.and_eq_true, Bool.not_eq_true'] at h
  simp [h.1.2]

theorem scanDecl_root (resolver : TypeResolver) (order : Nat → List String → List String)
    (st : Tracker × Nat) (fn : FuncDecl) (h : IsSimpleTest fn = true) :
    scanDecl resolver order st (.FuncDecl fn) =
      (FindSuiteRunTypes fn).map
        (fun idents =>
          (bindSuites resolver fn.Name.Name idents (st.1.AddTest fn.Name.Name), st.2)) := by
  unfold scanDecl
  simp only [h, ↓reduceIte, IsPossibleSuiteTest_of_IsSimpleTest fn h]
  cases FindSuiteRunTypes fn <;> simp

theorem scanDecl_suite (resolver : TypeResolver) (order : Nat → List String → List String)
    (st : Tracker × Nat) (fn : FuncDecl) (h : IsSimpleTest fn = false)
    (hs : IsPossibleSuiteTest fn = true) :
    scanDecl resolver order st (.FuncDecl fn) =
      (GetReceiverTypeNoStar fn).map
        (fun receiverTypeName =>
          (addSuiteTests fn.Name.Name (st.1.WhoRanSuiteType (order st.2) receiverTypeName) st.1,
            st.2 + 1)) := by
  unfold scanDecl
  simp [h, hs]

theorem scanDecl_other (resolver : TypeResolver) (order : Nat → List String → List String)
    (st : Tracker × Nat) (fn : FuncDecl) (h : IsSimpleTest fn = false)
    (hs : IsPossibleSuiteTest fn = false) :
    scanDecl resolver order st (.FuncDecl fn) = some st := by
  unfold scanDecl
  simp [h, hs]

theorem scanDecl_eq_none_iff (resolver : TypeResolver)
    (order : Nat → List String → List String) (st : Tracker × Nat) (f : Decl) :
    scanDecl resolver order st f = none ↔ declPanics f = true := by
  cases f with
  | GenDecl => simp [scanDecl, declPanics]
  | FuncDecl fn =>
    cases h : IsSimpleTest fn with
    | true =>
      rw [scanDecl_root _ _ _ _ h]
      simp [declPanics, h, IsPossibleSuiteTest_of_IsSimpleTest fn h]
    | false =>
      cases hs : IsPossibleSuiteTest fn with
      | true =>
        rw [scanDecl_suite _ _ _ _ h hs]
        simp [declPanics, h, hs]
      | false =>
        rw [scanDecl_other _ _ _ _ h hs]
        simp [declPanics, h, hs]

/-- What one step of `scan` does to the tracker. -/
theorem scanDecl_spec (resolver : TypeResolver) (order : Nat → List String → List String)
    (horder : ValidOrder order) (st st1 : Tracker × Nat) (f : Decl)
    (h : scanDecl resolver order st f = some st1) (hinv : st.1.Inv) :
    st1.1.Inv ∧
    (∀ T r, st1.1.Bound T r ↔ st.1.Bound T r ∨ DeclBinds resolver f T r) ∧
    (∀ n, n ∈ st1.1.result ↔
      n ∈ st.1.result ∨ DeclRoot f n ∨ DeclSuite st.1.Bound f n) := by
  cases f with
  | GenDecl =>
    simp only [scanDecl, Option.some.injEq] at h
    subst h
    simp [hinv, DeclBinds, DeclRoot, DeclSuite]
  | FuncDecl fn =>
    cases hr : IsSimpleTest fn with
    | true =>
      have hs := IsPossibleSuiteTest_of_IsSimpleTest fn hr
      rw [scanDecl_root _ _ _ _ hr] at h
      cases hf : FindSuiteRunTypes fn with
      | none => simp [hf] at h
      | some idents =>
        simp only [hf, Option.map_some', Option.some.injEq] at h
        subst h
        refine ⟨bindSuites_inv _ _ _ _ (AddTest_inv _ _ hinv), ?_, ?_⟩
        · intro T r
          rw [bindSuites_bound, AddTest_bound]
          constructor
          · rintro (hb | ⟨h1, h2, h3⟩)
            · exact Or.inl hb
            · exact Or.inr ⟨fn, rfl, hr, h1.symm, h2, idents, hf, h3⟩
          · rintro (hb | ⟨fn1, h0, -, h1, h2, idents1, hf1, h3⟩)
            · exact Or.inl hb
            · cases h0
              rw [hf] at hf1
              cases hf1
              exact Or.inr ⟨h1.symm, h2, h3⟩
        · intro n
          rw [bindSuites_result, mem_AddTest_result _ _ _ hinv]
          constructor
          · rintro (h1 | h1)
            · exact Or.inr (Or.inl ⟨fn, rfl, hr, h1.symm⟩)
            · exact Or.inl h1
          · rintro (h1 | ⟨fn1, h0, -, h1⟩ | ⟨fn1, T, r, h0, h1, -⟩)
            · exact Or.inr h1
            · cases h0
              exact Or.inl h1.symm
            · cases h0
              rw [hs] at h1
              exact absurd h1 (by simp)
    | false =>
      cases hs : IsPossibleSuiteTest fn with
      | true =>
        rw [scanDecl_suite _ _ _ _ hr hs] at h
        cases hg : GetReceiverTypeNoStar fn with
        | none => simp [hg] at h
        | some T =>
          simp only [hg, Option.map_some', Option.some.injEq] at h
          subst h
          refine ⟨addSuiteTests_inv _ _ _ hinv, ?_, ?_⟩
          · intro T1 r
            rw [addSuiteTests_bound]
            constructor
            · intro hb
              exact Or.inl hb
            · rintro (hb | ⟨fn1, h0, h1, -⟩)
              · exact hb
              · cases h0
                rw [hr] at h1
                exact absurd h1 (by simp)
          · intro n
            rw [mem_addSuiteTests_result _ _ _ hinv]
            simp only [mem_WhoRanSuiteType _ (horder st.2)]
            constructor
            · rintro (h1 | ⟨r, hb, hn⟩)
              · exact Or.inl h1
              · exact Or.inr (Or.inr ⟨fn, T, r, rfl, hs, hg, hb, hn⟩)
            · rintro (h1 | ⟨fn1, h0, h1, -⟩ | ⟨fn1, T1, r, h0, -, h2, hb, hn⟩)
              · exact Or.inl h1
              · cases h0
                rw [hr] at h1
                exact absurd h1 (by simp)
              · cases h0
                rw [hg] at h2
                cases h2
                exact Or.inr ⟨r, hb, hn⟩
      | false =>
        rw [scanDecl_other _ _ _ _ hr hs] at h
        cases h
        refine ⟨hinv, ?_, ?_⟩
        · intro T r
          constructor
          · intro hb
            exact Or.inl hb
          · rintro (hb | ⟨fn1, h0, h1, -⟩)
            · exact hb
            · cases h0
              rw [hr] at h1
              exact absurd h1 (by simp)
        · intro n
          constructor
          · intro h1
            exact Or.inl h1
          · rintro (h1 | ⟨fn1, h0, h1, -⟩ | ⟨fn1, T1, r, h0, h1, -⟩)
            · exact h1
            · cases h0
              rw [hr] at h1
              exact absurd h1 (by simp)
            · cases h0
              rw [hs] at h1
              exact absurd h1 (by simp)

theorem DeclSuite_mono {B1 B2 : String → String → Prop} (hB : ∀ T r, B1 T r → B2 T r)
    (f : Decl) (n : String) (h : DeclSuite B1 f n) : DeclSuite B2 f n := by
  obtain ⟨fn, T, r, h0, h1, h2, h3, h4⟩ := h
  exact ⟨fn, T, r, h0, h1, h2, hB T r h3, h4⟩

theorem scan_eq_none_iff (resolver : TypeResolver) (order : Nat → List String → List String)
    (decls : List Decl) (st : Tracker × Nat) :
    scan resolver order decls st = none ↔ ∃ f ∈ decls, declPanics f = true := by
  induction decls generalizing st with
  | nil => simp [scan]
  | cons f rest ih =>
    simp only [scan, List.mem_cons, exists_eq_or_imp]
    cases hstep : scanDecl resolver order st f with
    | none =>
      have hp := (scanDecl_eq_none_iff resolver order st f).1 hstep
      simp [hp]
    | some st0 =>
      have hp : declPanics f ≠ true := fun hc =>
        by simpa [hstep] using (scanDecl_eq_none_iff resolver order st f).2 hc
      simp [hp, ih]

/-- What one pass of `scan` does to the tracker. -/
theorem scan_spec (resolver : TypeResolver) (order : Nat → List String → List String)
    (horder : ValidOrder order) (decls : List Decl) (st st1 : Tracker × Nat)
    (h : scan resolver order decls st = some st1) (hinv : st.1.Inv) :
    st1.1.Inv ∧
    (∀ T r, st1.1.Bound T r ↔ st.1.Bound T r ∨ ∃ g ∈ decls, DeclBinds resolver g T r) ∧
    (∀ n, n ∈ st.1.result → n ∈ st1.1.result) ∧
    (∀ n, (∃ f ∈ decls, DeclRoot f n ∨ DeclSuite st.1.Bound f n) → n ∈ st1.1.result) ∧
    (∀ n, n ∈ st1.1.result → n ∈ st.1.result ∨ ∃ f ∈ decls, DeclRoot f n ∨
      DeclSuite (fun T r => st.1.Bound T r ∨ ∃ g ∈ decls, DeclBinds resolver g T r) f n) := by
  induction decls generalizing st with
  | nil =>
    simp only [scan, Option.some.injEq] at h
    subst h
    simp [hinv]
  | cons f rest ih =>
    simp only [scan] at h
    cases hstep : scanDecl resolver order st f with
    | none => simp [hstep] at h
    | some st0 =>
      simp only [hstep, Option.some_bind] at h
      obtain ⟨hinv0, hb0, hr0⟩ := scanDecl_spec resolver order horder st st0 f hstep hinv
      obtain ⟨hinv1, hb1, hmono1, hlow1, hup1⟩ := ih st0 h hinv0
      refine ⟨hinv1, ?_, ?_, ?_, ?_⟩
      · intro T r
        rw [hb1, hb0]
        simp only [List.mem_cons, exists_eq_or_imp]
        tauto
      · intro n hn
        exact hmono1 n ((hr0 n).2 (Or.inl hn))
      · rintro n ⟨f1, hf1, hn⟩
        rcases List.mem_cons.1 hf1 with rfl | hf1
        · exact hmono1 n ((hr0 n).2 (Or.inr hn))
        · apply hlow1 n
          refine ⟨f1, hf1, ?_⟩
          rcases hn with hn | hn
          · exact Or.inl hn
          · exact Or.inr (DeclSuite_mono (fun T r hb => (hb0 T r).2 (Or.inl hb)) _ _ hn)
      · intro n hn
        rcases hup1 n hn with hn | ⟨f1, hf1, hn⟩
        · rcases (hr0 n).1 hn with hn | hn | hn
          · exact Or.inl hn
          · exact Or.inr ⟨f, List.mem_cons_self _ _, Or.inl hn⟩
          · exact Or.inr ⟨f, List.mem_cons_self _ _,
              Or.inr (DeclSuite_mono (fun T r hb => Or.inl hb) _ _ hn)⟩
        · refine Or.inr ⟨f1, List.mem_cons_of_mem _ hf1, ?_⟩
          rcases hn with hn | hn
          · exact Or.inl hn
          · refine Or.inr (DeclSuite_mono ?_ _ _ hn)
            rintro T r (hb | ⟨g, hg, hb⟩)
            · rcases (hb0 T r).1 hb with hb | hb
              · exact Or.inl hb
              · exact Or.inr ⟨f, List.mem_cons_self _ _, hb⟩
            · exact Or.inr ⟨g, List.mem_cons_of_mem _ hg, hb⟩

theorem scanTwice_eq_none_iff (resolver : TypeResolver)
    (order : Nat → List String → List String) (decls : List Decl) :
    scanTwice resolver order decls = none ↔ ∃ f ∈ decls, declPanics f = true := by
  unfold scanTwice
  cases h1 : scan resolver order decls (NewTracker, 0) with
  | none =>
    simp only [Option.none_bind, Option.map_none', true_iff]
    exact (scan_eq_none_iff _ _ _ _).1 h1
  | some st1 =>
    cases h2 : scan resolver order decls st1 with
    | none =>
      simp only [Option.some_bind, h2, Option.map_none', true_iff]
      exact (scan_eq_none_iff _ _ _ _).1 h2
    | some st2 =>
      simp only [Option.some_bind, h2, Option.map_some']
      constructor
      · intro hc
        cases hc
      · intro hc
        have := (scan_eq_none_iff resolver order decls st1).2 hc
        simp [h2] at this

/-- The two passes return the sorted list of a duplicate-free list of the expected names. -/
theorem scanTwice_spec (resolver : TypeResolver) (order : Nat → List String → List String)
    (horder : ValidOrder order) (decls : List Decl) (names : List String)
    (h : scanTwice resolver order decls = some names) :
    ∃ L : List String, L.Nodup ∧ (∀ n, n ∈ L ↔ Expected resolver decls n) ∧
      names = sortStrings L := by
  unfold scanTwice at h
  cases h1 : scan resolver order decls (NewTracker, 0) with
  | none => simp [h1] at h
  | some st1 =>
    cases h2 : scan resolver order decls st1 with
    | none => simp [h1, h2] at h
    | some st2 =>
      simp only [h1, Option.some_bind, h2, Option.map_some', Option.some.injEq] at h
      obtain ⟨hinv1, hb1, -, -, hup1⟩ :=
        scan_spec resolver order horder decls _ st1 h1 NewTracker_inv
      obtain ⟨hinv2, -, hmono2, hlow2, hup2⟩ :=
        scan_spec resolver order horder decls st1 st2 h2 hinv1
      have hbound : ∀ T r, st1.1.Bound T r ↔ ∃ g ∈ decls, DeclBinds resolver g T r := by
        intro T r
        rw [hb1]
        simp [NewTracker_not_bound]
      have hexp1 : ∀ n, n ∈ st1.1.result → Expected resolver decls n := by
        intro n hn
        rcases hup1 n hn with hn | ⟨f, hf, hn⟩
        · simp [NewTracker] at hn
        · refine ⟨f, hf, ?_⟩
          rcases hn with hn | hn
          · exact Or.inl hn
          · refine Or.inr (DeclSuite_mono ?_ _ _ hn)
            rintro T r (hb | hb)
            · exact absurd hb (NewTracker_not_bound T r)
            · exact hb
      refine ⟨st2.1.result, hinv2.2, ?_, h.symm⟩
      intro n
      constructor
      · intro hn
        rcases hup2 n hn with hn | ⟨f, hf, hn⟩
        · exact hexp1 n hn
        · refine ⟨f, hf, ?_⟩
          rcases hn with hn | hn
          · exact Or.inl hn
          · refine Or.inr (DeclSuite_mono ?_ _ _ hn)
            rintro T r (hb | hb)
            · exact (hbound T r).1 hb
            · exact hb
      · rintro ⟨f, hf, hn⟩
        apply hlow2 n
        refine ⟨f, hf, ?_⟩
        rcases hn with hn | hn
        · exact Or.inl hn
        · exact Or.inr (DeclSuite_mono (fun T r hb => (hbound T r).2 hb) _ _ hn)

theorem Expected_perm (resolver : TypeResolver) {decls1 decls2 : List Decl}
    (hp : decls1.Perm decls2) (n : String) :
    Expected resolver decls1 n ↔ Expected resolver decls2 n := by
  unfold Expected
  simp only [hp.mem_iff]

/-- The result of the two passes is the same for every order of the declarations and every
order in which the maps are ranged over. -/
theorem scanTwice_perm (resolver : TypeResolver) (order1 order2 : Nat → List String → List String)
    (horder1 : ValidOrder order1) (horder2 : ValidOrder order2) {decls1 decls2 : List Decl}
    (hp : decls1.Perm decls2) :
    scanTwice resolver order1 decls1 = scanTwice resolver order2 decls2 := by
  cases h1 : scanTwice resolver order1 decls1 with
  | none =>
    obtain ⟨f, hf, hpanic⟩ := (scanTwice_eq_none_iff _ _ _).1 h1
    exact ((scanTwice_eq_none_iff resolver order2 decls2).2 ⟨f, hp.mem_iff.1 hf, hpanic⟩).symm
  | some names1 =>
    cases h2 : scanTwice resolver order2 decls2 with
    | none =>
      obtain ⟨f, hf, hpanic⟩ := (scanTwice_eq_none_iff _ _ _).1 h2
      have := (scanTwice_eq_none_iff resolver order1 decls1).2 ⟨f, hp.mem_iff.2 hf, hpanic⟩
      simp [h1] at this
    | some names2 =>
      obtain ⟨L1, hnd1, hmem1, rfl⟩ := scanTwice_spec resolver order1 horder1 decls1 _ h1
      obtain ⟨L2, hnd2, hmem2, rfl⟩ := scanTwice_spec resolver order2 horder2 decls2 _ h2
      congr 1
      apply sortStrings_eq_of_mem_iff hnd1 hnd2
      intro n
      rw [hmem1, hmem2, Expected_perm resolver hp]

/-! ## Lemmas: the classifier -/

theorem IsIdentifierText.not_mem {s : String} (h : IsIdentifierText s) (c : Char)
    (hc : c.isAlphanum = false ∧ c ≠ '_' ∧ c.toNat < 128) : c ∉ s.toList := by
  intro hmem
  rcases h.2 c hmem with h1 | h1 | h1
  · rw [hc.1] at h1
    cases h1
  · exact hc.2.1 h1
  · omega

theorem braces_toList (a b : String) :
    ("&\x7b" ++ a ++ " " ++ b ++ "\x7d").toList
      = "&\x7b".toList ++ (a.toList ++ ' ' :: (b.toList ++ "\x7d".toList)) := by
  simp [String.toList, String.data_append]

theorem append_cons_inj_of_not_mem {α : Type} (c : α) :
    ∀ (x1 x2 z1 z2 : List α), c ∉ x1 → c ∉ x2 → x1 ++ c :: z1 = x2 ++ c :: z2 →
      x1 = x2 ∧ z1 = z2
  | [], [], _, _, _, _, h => by simpa using h
  | [], y :: x2, _, _, _, h2, h => by
    simp only [List.nil_append, List.cons_append, List.cons.injEq] at h
    exact absurd h.1 (fun hc => h2 (by simp [hc]))
  | y :: x1, [], _, _, h1, _, h => by
    simp only [List.nil_append, List.cons_append, List.cons.injEq] at h
    exact absurd h.1 (fun hc => h1 (by simp [hc]))
  | y :: x1, y1 :: x2, z1, z2, h1, h2, h => by
    simp only [List.cons_append, List.cons.injEq] at h
    have := append_cons_inj_of_not_mem c x1 x2 z1 z2
      (fun hc => h1 (List.mem_cons_of_mem _ hc)) (fun hc => h2 (List.mem_cons_of_mem _ hc)) h.2
    simp [h.1, this.1, this.2]

/-- The text `&{a b}` determines `a` and `b` when `a` holds no space. -/
theorem braces_inj (a b a1 b1 : String) (ha : ' ' ∉ a.toList) (ha1 : ' ' ∉ a1.toList) :
    "&\x7b" ++ a ++ " " ++ b ++ "\x7d" = "&\x7b" ++ a1 ++ " " ++ b1 ++ "\x7d"
      ↔ a = a1 ∧ b = b1 := by
  constructor
  · intro h
    have h1 := congrArg String.toList h
    rw [braces_toList, braces_toList] at h1
    have h2 := List.append_cancel_left h1
    obtain ⟨h3, h4⟩ := append_cons_inj_of_not_mem _ _ _ _ _ ha ha1 h2
    have h5 := List.append_cancel_right h4
    exact ⟨String.ext h3, String.ext h5⟩
  · rintro ⟨rfl, rfl⟩
    rfl

theorem braces_ne_identifier (a b s : String) (hs : IsIdentifierText s) :
    s ≠ "&\x7b" ++ a ++ " " ++ b ++ "\x7d" := by
  intro h
  have hmem : '&' ∈ s.toList := by
    rw [h, braces_toList]
    simp [String.toList]
  exact hs.not_mem '&' (by decide) hmem

theorem braces_ne_badVerb (a b : String) :
    badVerb ≠ "&\x7b" ++ a ++ " " ++ b ++ "\x7d" := by
  intro h
  have h1 := congrArg String.toList h
  rw [braces_toList] at h1
  simp [badVerb, String.toList] at h1

/-- On well-formed expressions, `Sprintf` prints `&{a b}` for the selector `a.b` only. -/
theorem Sprintf_eq_braces_iff (X : Node) (hX : X.WellFormed) (a b : String)
    (ha : ' ' ∉ a.toList) :
    Sprintf X = "&\x7b" ++ a ++ " " ++ b ++ "\x7d"
      ↔ ∃ p q, X = .SelectorExpr (.Ident ⟨p, a⟩) ⟨q, b⟩ := by
  cases X with
  | Ident id =>
    have hid : IsIdentifierText id.Name := hX id (by simp [Node.Inspect])
    simp only [Sprintf, reduceCtorEq, exists_false, iff_false]
    exact braces_ne_identifier a b _ hid
  | SelectorExpr X Sel =>
    cases X with
    | Ident x =>
      have hx : IsIdentifierText x.Name := hX x (by simp [Node.Inspect])
      have hsp : ' ' ∉ x.Name.toList := hx.not_mem ' ' (by decide)
      simp only [Sprintf, braces_inj _ _ _ _ hsp ha, Node.SelectorExpr.injEq, Node.Ident.injEq]
      constructor
      · rintro ⟨h1, h2⟩
        refine ⟨x.NamePos, Sel.NamePos, ?_, ?_⟩
        · cases x
          simp_all
        · cases Sel
          simp_all
      · rintro ⟨p, q, h1, h2⟩
        subst h1 h2
        exact ⟨rfl, rfl⟩
    | SelectorExpr _ _ => simpa [Sprintf] using braces_ne_badVerb a b
    | StarExpr _ => simpa [Sprintf] using braces_ne_badVerb a b
    | CallExpr _ _ => simpa [Sprintf] using braces_ne_badVerb a b
    | Other _ => simpa [Sprintf] using braces_ne_badVerb a b
  | StarExpr _ => simpa [Sprintf] using braces_ne_badVerb a b
  | CallExpr _ _ => simpa [Sprintf] using braces_ne_badVerb a b
  | Other _ => simpa [Sprintf] using braces_ne_badVerb a b

theorem one_le_fieldCount (f : Field) :
    1 ≤ (if f.Names.length = 0 then 1 else f.Names.length) := by
  split <;> omega

theorem NumFields_eq_zero_iff (fields : List Field) : NumFields fields = 0 ↔ fields = [] := by
  cases fields with
  | nil => simp [NumFields]
  | cons f rest =>
    have := one_le_fieldCount f
    simp only [NumFields, List.map_cons, List.sum_cons, reduceCtorEq, iff_false]
    omega

theorem length_le_NumFields (fields : List Field) : fields.length ≤ NumFields fields := by
  induction fields with
  | nil => simp [NumFields]
  | cons f rest ih =>
    have := one_le_fieldCount f
    simp only [NumFields, List.map_cons, List.sum_cons, List.length_cons] at ih ⊢
    omega

theorem NumFields_eq_one (fields : List Field) (h : NumFields fields = 1) :
    ∃ f, fields = [f] := by
  have hlen := length_le_NumFields fields
  match fields, h, hlen with
  | [], h, _ => simp [NumFields] at h
  | [f], _, _ => exact ⟨f, rfl⟩
  | f :: g :: rest, h, hlen =>
    simp only [List.length_cons] at hlen
    omega

theorem IsSingleArgumentTestingT_single (fn : FuncDecl) (f : Field) (h : fn.Params = [f]) :
    IsSingleArgumentTestingT fn =
      match f.Type_ with
      | .StarExpr X => "&\x7btesting T\x7d" == Sprintf X
      | _ => false := by
  unfold IsSingleArgumentTestingT
  simp [h]

theorem ptrTestingT_wellFormed (p q : Nat) : (ptrTestingT p q).WellFormed := by
  intro id hid
  simp only [ptrTestingT, Node.Inspect, List.mem_cons, reduceCtorEq, Node.Ident.injEq,
    List.cons_append, List.nil_append, List.mem_singleton, List.not_mem_nil, or_false,
    false_or] at hid
  rcases hid with rfl | rfl
  · show IsIdentifierText "testing"
    decide
  · show IsIdentifierText "T"
    decide

/-! ## C3 to C6: the classifier -/

/-- C3. A function declaration with no receiver whose name starts with `Test` is a root test
when it declares exactly one parameter, of type `*testing.T`; it is none when it declares no
parameter, or one parameter of any other type.  A declaration whose name does not start
with `Test`, or that has a receiver, is never a root test. -/
theorem IsSimpleTest_classifies (fn : FuncDecl) :
    (IsTestName fn.Name.Name = true → fn.Recv = none →
      (NumFields fn.Params = 1 → (∀ f ∈ fn.Params, ∃ p q, f.Type_ = ptrTestingT p q) →
        IsSimpleTest fn = true) ∧
      (NumFields fn.Params = 0 → IsSimpleTest fn = false) ∧
      (NumFields fn.Params = 1 →
        (∀ f ∈ fn.Params, f.Type_.WellFormed ∧ ∀ p q, f.Type_ ≠ ptrTestingT p q) →
        IsSimpleTest fn = false)) ∧
    (IsTestName fn.Name.Name = false ∨ fn.Recv ≠ none → IsSimpleTest fn = false) := by
  refine ⟨fun hname hrecv => ⟨?_, ?_, ?_⟩, ?_⟩
  · intro hnum hty
    obtain ⟨f, hf⟩ := NumFields_eq_one _ hnum
    obtain ⟨p, q, hpq⟩ := hty f (by simp [hf])
    unfold IsSimpleTest
    rw [IsSingleArgumentTestingT_single fn f hf, hpq]
    simp [hname, HasReceiver, hrecv, ptrTestingT, Sprintf]
  · intro hnum
    have hnil := (NumFields_eq_zero_iff _).1 hnum
    simp [IsSimpleTest, IsSingleArgumentTestingT, hnil]
  · intro hnum hty
    obtain ⟨f, hf⟩ := NumFields_eq_one _ hnum
    obtain ⟨hwf, hne⟩ := hty f (by simp [hf])
    unfold IsSimpleTest
    rw [IsSingleArgumentTestingT_single fn f hf]
    cases hT : f.Type_ with
    | StarExpr X =>
      have hXwf : X.WellFormed := by
        intro id hid
        apply hwf id
        rw [hT]
        simp [Node.Inspect, hid]
      have hiff := Sprintf_eq_braces_iff X hXwf "testing" "T" (by decide)
      have hX : Sprintf X ≠ "&\x7btesting T\x7d" := by
        intro hc
        obtain ⟨p, q, hpq⟩ := hiff.1 hc
        exact hne p q (by rw [hT, hpq]; rfl)
      simp [Ne.symm hX]
    | Ident _ => simp
    | SelectorExpr _ _ => simp
    | CallExpr _ _ => simp
    | Other _ => simp
  · rintro (hname | hrecv)
    · simp [IsSimpleTest, hname]
    · cases hr : fn.Recv with
      | none => exact absurd hr hrecv
      | some r => simp [IsSimpleTest, HasReceiver, hr]

/-- C3, witness: `func TestSimple3(t *something.T) {}` is not a root test, nor is
`func TestBench(b *testing.B) {}`; `func TestValue(t *testing.T) {}` is one. -/
theorem IsSimpleTest_classifies_witness :
    IsTestName testSomethingT.Name.Name = true ∧ testSomethingT.Recv = none ∧
    NumFields testSomethingT.Params = 1 ∧
    (∀ f ∈ testSomethingT.Params, f.Type_.WellFormed ∧ ∀ p q, f.Type_ ≠ ptrTestingT p q) ∧
    IsSimpleTest testSomethingT = false ∧ IsSimpleTest testTestingB = false ∧
    IsSimpleTest testByPointer = true := by
  have hty : ∀ f ∈ testSomethingT.Params,
      f.Type_.WellFormed ∧ ∀ p q, f.Type_ ≠ ptrTestingT p q := by
    intro f hf
    simp only [testSomethingT, List.mem_singleton] at hf
    subst hf
    refine ⟨?_, ?_⟩
    · intro id hid
      simp only [Node.Inspect, List.mem_cons, reduceCtorEq, Node.Ident.injEq,
        List.cons_append, List.nil_append, List.mem_singleton, List.not_mem_nil, or_false,
        false_or] at hid
      rcases hid with rfl | rfl
      · show IsIdentifierText "something"
        decide
      · show IsIdentifierText "T"
        decide
    · intro p q hc
      simp [ptrTestingT] at hc
  have htyB : ∀ f ∈ testTestingB.Params,
      f.Type_.WellFormed ∧ ∀ p q, f.Type_ ≠ ptrTestingT p q := by
    intro f hf
    simp only [testTestingB, List.mem_singleton] at hf
    subst hf
    refine ⟨?_, ?_⟩
    · intro id hid
      simp only [Node.Inspect, List.mem_cons, reduceCtorEq, Node.Ident.injEq,
        List.cons_append, List.nil_append, List.mem_singleton, List.not_mem_nil, or_false,
        false_or] at hid
      rcases hid with rfl | rfl
      · show IsIdentifierText "testing"
        decide
      · show IsIdentifierText "B"
        decide
    · intro p q hc
      simp [ptrTestingT] at hc
  exact ⟨by decide, rfl, by decide, hty,
    ((IsSimpleTest_classifies testSomethingT).1 (by decide) rfl).2.2 (by decide) hty,
    ((IsSimpleTest_classifies testTestingB).1 (by decide) rfl).2.2 (by decide) htyB,
    ((IsSimpleTest_classifies testByPointer).1 (by decide) rfl).1 (by decide)
      (fun f hf => ⟨18, 26, by
        simp only [testByPointer, List.mem_singleton] at hf
        subst hf
        rfl⟩)⟩

/-- A declaration with two or more parameter groups is not a root test. -/
theorem IsSimpleTest_two_groups (fn : FuncDecl) (h : 2 ≤ fn.Params.length) :
    IsSimpleTest fn = false ∧ IsSingleArgumentTestingT fn = false := by
  have h1 : fn.Params.length ≠ 1 := by omega
  simp [IsSimpleTest, IsSingleArgumentTestingT, h1]

/-- C4, at the failing input: `func TestPair(a, b *testing.T) {}` declares two parameters,
and `IsSingleArgumentTestingT` and `IsSimpleTest` return true for it, while they return
false for `func TestSimple(t *testing.T, more bool) {}`. -/
theorem IsSimpleTest_testPair :
    HasReceiver testPair = false ∧ IsTestName testPair.Name.Name = true ∧
    NumFields testPair.Params = 2 ∧
    IsSingleArgumentTestingT testPair = true ∧ IsSimpleTest testPair = true ∧
    NumFields testTwoGroups.Params = 2 ∧ IsSimpleTest testTwoGroups = false := by
  decide

/-- C5, as stated, fails: with the handle passed by value, `func TestValue(t testing.T) {}`
is not a root test, while the pointer form is. -/
theorem IsSimpleTest_testByValue :
    IsTestName testByValue.Name.Name = true ∧ HasReceiver testByValue = false ∧
    NumFields testByValue.Params = 1 ∧
    ¬ (IsSimpleTest testByValue = true ∧ IsSimpleTest testByPointer = true) := by
  decide

/-- C5, amended.  A function with no receiver whose name starts with `Test` and that
declares exactly one parameter is a root test when the type of the parameter is the pointer
`*testing.T`, and is none when the parameter is passed by value (its type is not a pointer
type, as in `t testing.T`). -/
theorem IsSimpleTest_pointer_only (fn : FuncDecl) (hname : IsTestName fn.Name.Name = true)
    (hrecv : fn.Recv = none) (hparams : NumFields fn.Params = 1) :
    ((∀ f ∈ fn.Params, ∃ p q, f.Type_ = ptrTestingT p q) → IsSimpleTest fn = true) ∧
    ((∀ f ∈ fn.Params, ∀ X, f.Type_ ≠ .StarExpr X) → IsSimpleTest fn = false) := by
  obtain ⟨f, hf⟩ := NumFields_eq_one _ hparams
  unfold IsSimpleTest
  rw [IsSingleArgumentTestingT_single fn f hf]
  constructor
  · intro hty
    obtain ⟨p, q, hpq⟩ := hty f (by simp [hf])
    rw [hpq]
    simp [hname, HasReceiver, hrecv, ptrTestingT, Sprintf]
  · intro hty
    have hne := hty f (by simp [hf])
    cases hT : f.Type_ with
    | StarExpr X => exact absurd hT (hne X)
    | Ident _ => simp
    | SelectorExpr _ _ => simp
    | CallExpr _ _ => simp
    | Other _ => simp

/-- C5, amended, witness: with one parameter, the by-value form is not a root test, the
pointer form is. -/
theorem IsSimpleTest_pointer_only_witness :
    NumFields testByPointer.Params = 1 ∧ NumFields testByValue.Params = 1 ∧
    IsSimpleTest testByPointer = true ∧ IsSimpleTest testByValue = false :=
  ⟨by decide, by decide,
    (IsSimpleTest_pointer_only testByPointer (by decide) rfl (by decide)).1
      (fun f hf => by
        simp only [testByPointer, List.mem_singleton] at hf
        subst hf
        exact ⟨18, 26, rfl⟩),
    (IsSimpleTest_pointer_only testByValue (by decide) rfl (by decide)).2
      (fun f hf X hc => by
        simp only [testByValue, List.mem_singleton] at hf
        subst hf
        simp at hc)⟩

/-- C6. `IsPossibleSuiteTest` holds exactly for the declarations that have a receiver, no
parameter and a name that starts with `Test`; and `GetReceiverTypeNoStar` returns the type
name `T` both for a value receiver `(p T)` and for a pointer receiver `(p *T)`. -/
theorem IsPossibleSuiteTest_iff (fn : FuncDecl) :
    (IsPossibleSuiteTest fn = true ↔
      fn.Recv.isSome = true ∧ NumFields fn.Params = 0 ∧ IsTestName fn.Name.Name = true) ∧
    (∀ names p T rest, fn.Recv = some (⟨names, .Ident ⟨p, T⟩⟩ :: rest) →
      GetReceiverTypeNoStar fn = some T) ∧
    (∀ names p T rest, fn.Recv = some (⟨names, .StarExpr (.Ident ⟨p, T⟩)⟩ :: rest) →
      GetReceiverTypeNoStar fn = some T) := by
  refine ⟨?_, ?_, ?_⟩
  · rw [NumFields_eq_zero_iff]
    unfold IsPossibleSuiteTest HasReceiverAndNoArguments HasReceiver
    cases hp : fn.Params with
    | nil => simp [and_comm]
    | cons f rest => simp
  · intro names p T rest h
    simp [GetReceiverTypeNoStar, h]
  · intro names p T rest h
    simp [GetReceiverTypeNoStar, h, Sprintf]

/-- C6, witness: `(p int)` and `(p *int)` are suite methods on the same receiver type. -/
theorem IsPossibleSuiteTest_iff_witness :
    IsPossibleSuiteTest methodValueReceiver = true ∧
    IsPossibleSuiteTest methodPointerReceiver = true ∧
    GetReceiverTypeNoStar methodValueReceiver = some "int" ∧
    GetReceiverTypeNoStar methodPointerReceiver = some "int" :=
  ⟨(IsPossibleSuiteTest_iff methodValueReceiver).1.2 (by decide),
    (IsPossibleSuiteTest_iff methodPointerReceiver).1.2 (by decide),
    (IsPossibleSuiteTest_iff methodValueReceiver).2.1 _ _ _ _ rfl,
    (IsPossibleSuiteTest_iff methodPointerReceiver).2.2 _ _ _ _ rfl⟩

theorem validOrder_insertionOrder : ValidOrder insertionOrder :=
  fun _ l => List.Perm.refl l

theorem validOrder_reverseOrder : ValidOrder reverseOrder :=
  fun _ l => List.reverse_perm l

theorem Expected_iff (resolver : TypeResolver) (decls : List Decl) (n : String) :
    Expected resolver decls n ↔
      (∃ fn, Decl.FuncDecl fn ∈ decls ∧ IsSimpleTest fn = true ∧ n = fn.Name.Name) ∨
      (∃ r m T, Decl.FuncDecl r ∈ decls ∧ Decl.FuncDecl m ∈ decls ∧ IsSimpleTest r = true ∧
        IsPossibleSuiteTest m = true ∧ GetReceiverTypeNoStar m = some T ∧
        RunsSuite resolver r T ∧ n = r.Name.Name ++ "/" ++ m.Name.Name) := by
  constructor
  · rintro ⟨f, hf, ⟨fn, rfl, h1, h2⟩ | ⟨m, T, r, rfl, h1, h2, ⟨g, hg, fr, rfl, h3, h4, h5⟩, h6⟩⟩
    · exact Or.inl ⟨fn, hf, h1, h2.symm⟩
    · exact Or.inr ⟨fr, m, T, hg, hf, h3, h1, h2, h5, by rw [h4]; exact h6⟩
  · rintro (⟨fn, hf, h1, h2⟩ | ⟨r, m, T, hr, hm, h1, h2, h3, h4, h5⟩)
    · exact ⟨_, hf, Or.inl ⟨fn, rfl, h1, h2.symm⟩⟩
    · exact ⟨_, hm, Or.inr ⟨m, T, r.Name.Name, rfl, h2, h3, ⟨_, hr, r, rfl, h1, rfl, h4⟩, h5⟩⟩

/-! ## C1 and C2: the two passes -/

/-- C1, as stated, fails: in `shadowFile` the root test `TestSuite` calls `suite.Run` on two
variables named `s`, of the types `*A` and `*B`.  `FindSuiteRunTypes` keeps one identifier
for each name, so the suite `B` is never bound: `TestSuite/TestB` is a name by the words of
the claim and is not in the result. -/
theorem ParseTestNamesGolangAST_shadowFile :
    ParseTestNamesGolangAST insertionOrder shadowFile = some ["TestSuite", "TestSuite/TestA"] ∧
    ¬ (∀ n, n ∈ ["TestSuite", "TestSuite/TestA"] ↔
        ClaimedName (NewTypeResolver shadowFile) shadowDecls n) := by
  refine ⟨by decide, fun hall => ?_⟩
  have hclaimed : ClaimedName (NewTypeResolver shadowFile) shadowDecls "TestSuite/TestB" := by
    refine Or.inr ⟨shadowSuite, method 300 (.StarExpr (.Ident ⟨303, "B"⟩)) "TestB" [], "B",
      by simp [shadowDecls], by simp [shadowDecls], by decide, by decide, by decide, ?_,
      by decide⟩
    refine ⟨.SelectorExpr (.Ident ⟨170, "suite"⟩) ⟨176, "Run"⟩,
      [.Ident ⟨180, "t"⟩, .Ident ⟨183, "s"⟩], .Ident ⟨183, "s"⟩, ⟨183, "s"⟩, ?_, rfl,
      by decide, rfl, by decide, by decide⟩
    simp [shadowSuite, rootTest, suiteRun, ExprStmt, AssignStmt, UnaryExpr, CompositeLit,
      InspectList, Node.Inspect]
  have hmem := (hall "TestSuite/TestB").2 hclaimed
  revert hmem
  decide

/-- C1, amended.  `ParseTestNamesGolangAST` panics exactly when a declaration makes a pass
panic; when it returns, a name is in its result if and only if it is the name of a root
test, or `r/m` for a suite method `m` whose receiver type with the pointer stripped is `T`
and a root test `r` for which `FindSuiteRunTypes` returns an identifier that resolves to the
non-empty name `T`.  This holds for every order in which the maps are ranged over.  For the
declarations `exampleDecls` the result is `TestSimple1`, `TestSuite`, `TestSuite/TestA`,
`TestSuite/TestB`. -/
theorem ParseTestNamesGolangAST_names (order : Nat → List String → List String)
    (horder : ValidOrder order) (file : SourceFile) (decls : List Decl)
    (hdecls : file.Decls = some decls) :
    (ParseTestNamesGolangAST order file = none ↔ ∃ f ∈ decls, declPanics f = true) ∧
    (∀ names, ParseTestNamesGolangAST order file = some names → ∀ n, n ∈ names ↔
      (∃ fn, Decl.FuncDecl fn ∈ decls ∧ IsSimpleTest fn = true ∧ n = fn.Name.Name) ∨
      (∃ r m T, Decl.FuncDecl r ∈ decls ∧ Decl.FuncDecl m ∈ decls ∧ IsSimpleTest r = true ∧
        IsPossibleSuiteTest m = true ∧ GetReceiverTypeNoStar m = some T ∧
        RunsSuite (NewTypeResolver file) r T ∧ n = r.Name.Name ++ "/" ++ m.Name.Name)) ∧
    ParseTestNamesGolangAST order exampleFile
      = some ["TestSimple1", "TestSuite", "TestSuite/TestA", "TestSuite/TestB"] := by
  refine ⟨?_, ?_, ?_⟩
  · simp only [ParseTestNamesGolangAST, hdecls]
    exact scanTwice_eq_none_iff _ _ _
  · intro names hnames n
    simp only [ParseTestNamesGolangAST, hdecls] at hnames
    obtain ⟨L, -, hmem, rfl⟩ := scanTwice_spec _ order horder decls names hnames
    rw [mem_sortStrings, hmem, Expected_iff]
  · have h := scanTwice_perm (NewTypeResolver exampleFile) order insertionOrder horder
      validOrder_insertionOrder (List.Perm.refl exampleDecls)
    simp only [ParseTestNamesGolangAST, exampleFile] at h ⊢
    rw [h]
    decide

/-- C1, amended, witness: the theorem at `exampleFile`, with the maps ranged over in the
reverse order of insertion. -/
theorem ParseTestNamesGolangAST_names_witness :
    ValidOrder reverseOrder ∧ exampleFile.Decls = some exampleDecls ∧
    ¬ (∃ f ∈ exampleDecls, declPanics f = true) ∧
    ParseTestNamesGolangAST reverseOrder exampleFile
      = some ["TestSimple1", "TestSuite", "TestSuite/TestA", "TestSuite/TestB"] :=
  ⟨validOrder_reverseOrder, rfl, by decide,
    (ParseTestNamesGolangAST_names reverseOrder validOrder_reverseOrder exampleFile
      exampleDecls rfl).2.2⟩

/-- C2.  For two files with the same type information whose declaration lists are
permutations of each other, `ParseTestNamesGolangAST` does the same: it returns the
identical list of names (and it does return one when no declaration makes a pass panic),
whatever the order in which the maps are ranged over. -/
theorem ParseTestNamesGolangAST_perm (order1 order2 : Nat → List String → List String)
    (horder1 : ValidOrder order1) (horder2 : ValidOrder order2) (file1 file2 : SourceFile)
    (decls1 decls2 : List Decl) (hdecls1 : file1.Decls = some decls1)
    (hdecls2 : file2.Decls = some decls2) (huses : file1.Uses = file2.Uses)
    (hperm : decls1.Perm decls2) :
    ParseTestNamesGolangAST order1 file1 = ParseTestNamesGolangAST order2 file2 ∧
    ((∀ f ∈ decls1, declPanics f = false) →
      ∃ names, ParseTestNamesGolangAST order1 file1 = some names ∧
        ParseTestNamesGolangAST order2 file2 = some names) := by
  have heq : ParseTestNamesGolangAST order1 file1 = ParseTestNamesGolangAST order2 file2 := by
    simp only [ParseTestNamesGolangAST, hdecls1, hdecls2, NewTypeResolver, huses]
    exact scanTwice_perm _ order1 order2 horder1 horder2 hperm
  refine ⟨heq, fun hno => ?_⟩
  cases h1 : ParseTestNamesGolangAST order1 file1 with
  | none =>
    simp only [ParseTestNamesGolangAST, hdecls1] at h1
    obtain ⟨f, hf, hp⟩ := (scanTwice_eq_none_iff _ _ _).1 h1
    rw [hno f hf] at hp
    cases hp
  | some names => exact ⟨names, rfl, by rw [← heq, h1]⟩

/-- C2, witness: the declarations of `exampleFile` in the reverse order, with the maps
ranged over in another order, give the same list. -/
theorem ParseTestNamesGolangAST_perm_witness :
    ValidOrder insertionOrder ∧ ValidOrder reverseOrder ∧
    exampleDecls.Perm exampleDecls.reverse ∧
    ParseTestNamesGolangAST insertionOrder exampleFile
      = ParseTestNamesGolangAST reverseOrder exampleFileReversed ∧
    ParseTestNamesGolangAST reverseOrder exampleFileReversed
      = some ["TestSimple1", "TestSuite", "TestSuite/TestA", "TestSuite/TestB"] :=
  ⟨validOrder_insertionOrder, validOrder_reverseOrder, (List.reverse_perm _).symm,
    (ParseTestNamesGolangAST_perm insertionOrder reverseOrder validOrder_insertionOrder
      validOrder_reverseOrder exampleFile exampleFileReversed exampleDecls exampleDecls.reverse
      rfl rfl rfl (List.reverse_perm _).symm).1, by decide⟩

/-! ## C7 and C8: resolving the suite type -/

theorem firstIdent_foldl_some (l : List Node) (x : Ident) :
    l.foldl
      (fun result node =>
        match node with
        | .Ident ident =>
          if ident.Name ∈ skipIdents then result
          else if result.isNone then some ident else result
        | _ => result)
      (some x) = some x := by
  induction l with
  | nil => rfl
  | cons n rest ih =>
    simp only [List.foldl_cons]
    cases n with
    | Ident ident =>
      by_cases hs : ident.Name ∈ skipIdents
      · simpa [hs] using ih
      · simpa [hs] using ih
    | SelectorExpr _ _ => simpa using ih
    | StarExpr _ => simpa using ih
    | CallExpr _ _ => simpa using ih
    | Other _ => simpa using ih

theorem Resolve_of_all (resolver : TypeResolver) (ident : Ident) (ty : GoType)
    (hex : ∃ e ∈ resolver.Uses, e.2.Name = ident.Name ∧ e.1.NamePos = ident.NamePos)
    (hall : ∀ e ∈ resolver.Uses, e.2.Name = ident.Name → e.1.NamePos = ident.NamePos →
      e.2.Type_ = ty) :
    resolver.Resolve ident = ty.elemString := by
  unfold TypeResolver.Resolve
  cases hfind : resolver.Uses.find?
      (fun e => ident.Name == e.2.Name && ident.NamePos == e.1.NamePos) with
  | none =>
    obtain ⟨e, he, h1, h2⟩ := hex
    have := List.find?_eq_none.1 hfind e he
    simp [h1, h2] at this
  | some e =>
    have hmem := List.mem_of_find?_eq_some hfind
    have hp := List.find?_some hfind
    simp only [Bool.and_eq_true, beq_iff_eq] at hp
    simp only [hall e hmem hp.1.symm hp.2.symm]
    cases ty <;> rfl

theorem Resolve_of_none (resolver : TypeResolver) (ident : Ident)
    (hno : ∀ e ∈ resolver.Uses, ¬ (e.2.Name = ident.Name ∧ e.1.NamePos = ident.NamePos)) :
    resolver.Resolve ident = ident.Name := by
  unfold TypeResolver.Resolve
  cases hfind : resolver.Uses.find?
      (fun e => ident.Name == e.2.Name && ident.NamePos == e.1.NamePos) with
  | none => rfl
  | some e =>
    have hmem := List.mem_of_find?_eq_some hfind
    have hp := List.find?_some hfind
    simp only [Bool.and_eq_true, beq_iff_eq] at hp
    exact absurd ⟨hp.1.symm, hp.2.symm⟩ (hno e hmem)

/-- C7, as stated, fails for a variable named `new`: after `new := Env{}`, the argument of
`suite.Run(t, new)` (and of `suite.Run(t, &new)`) has no identifier that `GetFirstIdent`
keeps, so the function panics and no suite type is computed. -/
theorem GetFirstIdent_variable_new :
    (∃ e ∈ resolverNew.Uses, e.2.Name = "new" ∧ e.1.NamePos = 153 ∧ e.2.Type_ = .Named "Env") ∧
    (GetFirstIdent (.Ident ⟨153, "new"⟩)).map resolverNew.Resolve = none ∧
    (GetFirstIdent (UnaryExpr (.Ident ⟨153, "new"⟩))).map resolverNew.Resolve = none ∧
    ¬ ((GetFirstIdent (.Ident ⟨153, "new"⟩)).map resolverNew.Resolve = some "Env") := by
  refine ⟨⟨_, List.mem_singleton.2 rfl, rfl, rfl, rfl⟩, by decide, by decide, by decide⟩

/-- C7, amended.  For every type identifier `T` and every variable name `v`, both other
than `new`: when the type checker binds the type name `T` (at its use) to the type `T`,
`GetFirstIdent` followed by `Resolve` gives `T` for `&T{...}` and for `new(T)`; and when
the type checker binds the variable `v` (at its use) to the type `T` or to the type `*T`,
it gives `T` for `v` and for `&v`. -/
theorem suiteType_forms (resolver : TypeResolver) (T v : String) (hT : T ≠ "new")
    (hv : v ≠ "new") (pT pv pn : Nat) (elts : List Node)
    (htype : ∀ e ∈ resolver.Uses, e.2.Name = T → e.1.NamePos = pT → e.2.Type_ = .Named T) :
    (GetFirstIdent (UnaryExpr (CompositeLit (.Ident ⟨pT, T⟩) elts))).map resolver.Resolve
      = some T ∧
    (GetFirstIdent (.CallExpr (.Ident ⟨pn, "new"⟩) [.Ident ⟨pT, T⟩])).map resolver.Resolve
      = some T ∧
    (∀ ty, ty = .Named T ∨ ty = .Pointer (.Named T) →
      (∃ e ∈ resolver.Uses, e.2.Name = v ∧ e.1.NamePos = pv) →
      (∀ e ∈ resolver.Uses, e.2.Name = v → e.1.NamePos = pv → e.2.Type_ = ty) →
      (GetFirstIdent (.Ident ⟨pv, v⟩)).map resolver.Resolve = some T ∧
      (GetFirstIdent (UnaryExpr (.Ident ⟨pv, v⟩))).map resolver.Resolve = some T) := by
  have hTs : T ∉ skipIdents := by simpa [skipIdents] using hT
  have hvs : v ∉ skipIdents := by simpa [skipIdents] using hv
  have hresT : resolver.Resolve ⟨pT, T⟩ = T := by
    unfold TypeResolver.Resolve
    cases hfind : resolver.Uses.find?
        (fun e => (⟨pT, T⟩ : Ident).Name == e.2.Name && (⟨pT, T⟩ : Ident).NamePos == e.1.NamePos)
      with
    | none => rfl
    | some e =>
      have hmem := List.mem_of_find?_eq_some hfind
      have hp := List.find?_some hfind
      simp only [Bool.and_eq_true, beq_iff_eq] at hp
      simp only [htype e hmem hp.1.symm hp.2.symm, GoType.TypeString]
  refine ⟨?_, ?_, ?_⟩
  · simp only [GetFirstIdent, UnaryExpr, CompositeLit, Node.Inspect, InspectList,
      List.append_nil, List.cons_append, List.nil_append, List.foldl_cons, hTs, ↓reduceIte,
      Option.isNone_none, firstIdent_foldl_some, Option.map_some', hresT]
  · simp [GetFirstIdent, Node.Inspect, InspectList, skipIdents, hT, hresT]
  · intro ty hty hex hall
    have hres : resolver.Resolve ⟨pv, v⟩ = T := by
      rw [Resolve_of_all resolver ⟨pv, v⟩ ty hex hall]
      rcases hty with rfl | rfl <;> rfl
    constructor
    · simp [GetFirstIdent, Node.Inspect, hvs, hres]
    · simp [GetFirstIdent, UnaryExpr, Node.Inspect, InspectList, hvs, hres]

/-- C7, amended, witness: `&Env{}`, `new(Env)`, `env` and `&env` all give `Env`. -/
theorem suiteType_forms_witness :
    (GetFirstIdent (UnaryExpr (CompositeLit (.Ident ⟨130, "Env"⟩) []))).map resolverEnv.Resolve
      = some "Env" ∧
    (GetFirstIdent (.CallExpr (.Ident ⟨126, "new"⟩) [.Ident ⟨130, "Env"⟩])).map
      resolverEnv.Resolve = some "Env" ∧
    (GetFirstIdent (.Ident ⟨153, "env"⟩)).map resolverEnv.Resolve = some "Env" ∧
    (GetFirstIdent (UnaryExpr (.Ident ⟨153, "env"⟩))).map resolverEnv.Resolve = some "Env" := by
  have h := suiteType_forms resolverEnv "Env" "env" (by decide) (by decide) 130 153 126 []
    (by
      intro e he h1 h2
      simp only [resolverEnv, List.mem_cons, List.mem_singleton, List.not_mem_nil,
        or_false] at he
      rcases he with rfl | rfl
      · rfl
      · simp at h1)
  refine ⟨h.1, h.2.1, ?_⟩
  exact h.2.2 (.Pointer (.Named "Env")) (Or.inr rfl)
    ⟨_, List.mem_cons_of_mem _ (List.mem_singleton.2 rfl), rfl, rfl⟩
    (by
      intro e he h1 h2
      simp only [resolverEnv, List.mem_cons, List.mem_singleton, List.not_mem_nil,
        or_false] at he
      rcases he with rfl | rfl
      · simp at h1
      · rfl)

/-- C8.  When the type information holds no use-site entry with the name of the identifier
at its position, `Resolve` returns the name of the identifier, which is not empty when
the identifier is not; and a root test for which `FindSuiteRunTypes` returns such an
identifier is bound by `scan` to the suite type named after the identifier. -/
theorem Resolve_fallback (resolver : TypeResolver) (ident : Ident)
    (hno : ∀ e ∈ resolver.Uses, ¬ (e.2.Name = ident.Name ∧ e.1.NamePos = ident.NamePos)) :
    resolver.Resolve ident = ident.Name ∧
    (ident.Name ≠ "" → resolver.Resolve ident ≠ "") ∧
    (∀ order st fn idents, ValidOrder order → IsSimpleTest fn = true →
      FindSuiteRunTypes fn = some idents → ident ∈ idents → ident.Name ≠ "" →
      ∃ st1, scanDecl resolver order st (.FuncDecl fn) = some st1 ∧
        ∀ k, fn.Name.Name ∈ st1.1.WhoRanSuiteType (order k) ident.Name) := by
  have hres := Resolve_of_none resolver ident hno
  refine ⟨hres, fun hne => by rw [hres]; exact hne, ?_⟩
  intro order st fn idents horder hroot hfind hmem hne
  rw [scanDecl_root _ _ _ _ hroot, hfind]
  refine ⟨_, rfl, fun k => ?_⟩
  rw [mem_WhoRanSuiteType _ (horder k), bindSuites_bound]
  exact Or.inr ⟨rfl, hne, ident, hmem, hres⟩

/-- C8, witness: in `exampleFile` nothing is resolved; the identifier `S` of
`suite.Run(t, &S{})` resolves to `S`, and `TestSuite` is bound to the suite type `S`. -/
theorem Resolve_fallback_witness :
    (NewTypeResolver exampleFile).Resolve ⟨244, "S"⟩ = "S" ∧
    ∃ st1, scanDecl (NewTypeResolver exampleFile) insertionOrder (NewTracker, 0)
        (.FuncDecl (rootTest 200 "TestSuite"
          [suiteRun 230 (UnaryExpr (CompositeLit (.Ident ⟨244, "S"⟩) []))])) = some st1 ∧
      ∀ k, "TestSuite" ∈ st1.1.WhoRanSuiteType (insertionOrder k) "S" := by
  have h := Resolve_fallback (NewTypeResolver exampleFile) ⟨244, "S"⟩
    (by simp [NewTypeResolver, exampleFile])
  exact ⟨h.1, h.2.2 insertionOrder (NewTracker, 0) _ [⟨244, "S"⟩] validOrder_insertionOrder
    (by decide) (by decide) (List.mem_singleton.2 rfl) (by decide)⟩

/-! ## C9 and C10: the driver -/

theorem ParseTestNames_eq_ret_iff (e : Engine) (order : Nat → List String → List String)
    (file : SourceFile) (names : List String) :
    ParseTestNames e order file = .ret names ↔
      ∃ result1 result2, ParseTestNamesGolangAST order file = some result1 ∧
        ParseTestNamesTreeSitter e file = .ret result2 ∧ names = result1 ++ result2 := by
  unfold ParseTestNames
  cases h1 : ParseTestNamesGolangAST order file with
  | none => simp
  | some result1 =>
    cases h2 : ParseTestNamesTreeSitter e file with
    | ret result2 => simp [eq_comm]
    | panic => simp
    | hang => simp

theorem ParseTestNamesGolangAST_nodup (order : Nat → List String → List String)
    (horder : ValidOrder order) (file : SourceFile) (names : List String)
    (h : ParseTestNamesGolangAST order file = some names) : names.Nodup := by
  unfold ParseTestNamesGolangAST at h
  cases hd : file.Decls with
  | none =>
    simp only [hd, Option.some.injEq] at h
    subst h
    exact List.nodup_nil
  | some decls =>
    simp only [hd] at h
    obtain ⟨L, hnd, -, rfl⟩ := scanTwice_spec _ order horder decls names h
    exact (sortStrings_perm L).nodup_iff.2 hnd

/-- C9.  When both strategies return, `ParseTestNames` returns the list of the AST strategy
followed by the list of the pattern strategy, whose names are those of the one or of the
other; and `ParseTestNames` returns in no other case. -/
theorem ParseTestNames_append (e : Engine) (order : Nat → List String → List String)
    (file : SourceFile) :
    (∀ result1 result2, ParseTestNamesGolangAST order file = some result1 →
      ParseTestNamesTreeSitter e file = .ret result2 →
      ∃ names, ParseTestNames e order file = .ret names ∧ names = result1 ++ result2 ∧
        ∀ n, n ∈ names ↔ n ∈ result1 ∨ n ∈ result2) ∧
    (∀ names, ParseTestNames e order file = .ret names →
      ∃ result1 result2, ParseTestNamesGolangAST order file = some result1 ∧
        ParseTestNamesTreeSitter e file = .ret result2 ∧ names = result1 ++ result2) := by
  constructor
  · intro result1 result2 h1 h2
    exact ⟨result1 ++ result2,
      (ParseTestNames_eq_ret_iff e order file _).2 ⟨result1, result2, h1, h2, rfl⟩, rfl,
      fun n => List.mem_append⟩
  · intro names h
    exact (ParseTestNames_eq_ret_iff e order file names).1 h

/-- C9, witness: the file of `TestTreeSitterTRunStringLiteral` gives `TestWeb` from the AST
strategy, then `TestWeb/works` from the pattern strategy. -/
theorem ParseTestNames_append_witness :
    ParseTestNamesGolangAST insertionOrder webFile = some ["TestWeb"] ∧
    ParseTestNamesTreeSitter exampleEngine webFile = .ret ["TestWeb/works"] ∧
    ∃ names, ParseTestNames exampleEngine insertionOrder webFile = .ret names ∧
      names = ["TestWeb"] ++ ["TestWeb/works"] ∧
      ∀ n, n ∈ names ↔ n ∈ ["TestWeb"] ∨ n ∈ ["TestWeb/works"] :=
  ⟨by decide, by decide,
    (ParseTestNames_append exampleEngine insertionOrder webFile).1 _ _ (by decide)
      (by decide)⟩

/-- C10, as stated, fails: `ParseTestNames` keeps a sub-test name that the pattern strategy
reports twice (`twiceFile`), and a name that both strategies report (`overlapFile`). -/
theorem ParseTestNames_duplicates :
    ParseTestNames exampleEngine insertionOrder twiceFile
      = .ret ["TestWeb", "TestWeb/works", "TestWeb/works"] ∧
    ¬ ["TestWeb", "TestWeb/works", "TestWeb/works"].Nodup ∧
    ParseTestNames exampleEngine insertionOrder overlapFile
      = .ret ["TestSuite", "TestSuite/TestA", "TestSuite/TestA"] ∧
    ¬ ["TestSuite", "TestSuite/TestA", "TestSuite/TestA"].Nodup := by
  refine ⟨by decide, by decide, by decide, by decide⟩

/-- C10, amended.  The result of `ParseTestNames` is the list of the AST strategy, which
holds no name twice, followed by the list of the pattern strategy as it is: it holds no
name twice exactly when the pattern strategy reports no name twice and no name that the
AST strategy reports. -/
theorem ParseTestNames_nodup_iff (e : Engine) (order : Nat → List String → List String)
    (horder : ValidOrder order) (file : SourceFile) (names : List String)
    (h : ParseTestNames e order file = .ret names) :
    ∃ result1 result2, ParseTestNamesGolangAST order file = some result1 ∧
      ParseTestNamesTreeSitter e file = .ret result2 ∧ names = result1 ++ result2 ∧
      result1.Nodup ∧
      (names.Nodup ↔ result2.Nodup ∧ ∀ n ∈ result1, n ∉ result2) := by
  obtain ⟨result1, result2, h1, h2, rfl⟩ := (ParseTestNames_eq_ret_iff e order file names).1 h
  have hnd := ParseTestNamesGolangAST_nodup order horder file result1 h1
  refine ⟨result1, result2, h1, h2, rfl, hnd, ?_⟩
  rw [List.nodup_append]
  constructor
  · rintro ⟨-, h3, h4⟩
    exact ⟨h3, fun n hn hc => h4 hn hc⟩
  · rintro ⟨h3, h4⟩
    exact ⟨hnd, h3, fun n hn hc => h4 n hn hc⟩

/-- C10, amended, witness: for the file of `TestTreeSitterTRunStringLiteral` the two lists
share no name and the result holds no name twice. -/
theorem ParseTestNames_nodup_iff_witness :
    ValidOrder insertionOrder ∧
    ParseTestNames exampleEngine insertionOrder webFile = .ret ["TestWeb", "TestWeb/works"] ∧
    ∃ result1 result2, ParseTestNamesGolangAST insertionOrder webFile = some result1 ∧
      ParseTestNamesTreeSitter exampleEngine webFile = .ret result2 ∧
      ["TestWeb", "TestWeb/works"] = result1 ++ result2 ∧ result1.Nodup ∧
      (["TestWeb", "TestWeb/works"].Nodup ↔ result2.Nodup ∧ ∀ n ∈ result1, n ∉ result2) :=
  ⟨validOrder_insertionOrder, by decide,
    ParseTestNames_nodup_iff exampleEngine insertionOrder validOrder_insertionOrder webFile _
      (by decide)⟩

/-! ## Lemmas: `SlicerSortUniq` -/

theorem strLT_iff (a b : String) : strLT a b ↔ a < b := String.lt_iff_toList_lt.symm

theorem sorted_strLT_of_sorted_of_nodup {l : List String} (hs : l.Sorted strLE)
    (hn : l.Nodup) : l.Sorted strLT := by
  have h1 : l.Sorted (· ≤ ·) := List.Pairwise.imp (fun h => (strLE_iff _ _).1 h) hs
  exact List.Pairwise.imp (fun h => (strLT_iff _ _).2 h) (List.Sorted.lt_of_le h1 hn)

theorem nodup_of_sorted_strLT {l : List String} (hs : l.Sorted strLT) : l.Nodup :=
  List.Pairwise.imp (fun h => ne_of_lt ((strLT_iff _ _).1 h)) hs

/-- The loop of `SlicerSortUniq` appends to `result` a sublist of the lines, in which no
line occurs twice, with the same lines. -/
theorem SlicerSortUniq_fold (l : List String) (seen : GoMap Bool) (result : List String)
    (hseen : ∀ n, n ∈ mapKeys seen ↔ n ∈ result) (hnd : result.Nodup) :
    (∀ n, n ∈ (l.foldl SlicerSortUniq.step (seen, result)).2 ↔ n ∈ result ∨ n ∈ l) ∧
    (l.foldl SlicerSortUniq.step (seen, result)).2.Nodup ∧
    ∃ added, added.Sublist l ∧
      (l.foldl SlicerSortUniq.step (seen, result)).2 = result ++ added := by
  induction l generalizing seen result with
  | nil => exact ⟨by simp, hnd, [], List.Sublist.refl _, by simp⟩
  | cons line rest ih =>
    simp only [List.foldl_cons]
    by_cases hin : line ∈ result
    · have hstep : SlicerSortUniq.step (seen, result) line = (seen, result) := by
        have : (mapGet seen line).isNone = false := by
          cases hg : (mapGet seen line).isNone with
          | false => rfl
          | true => exact absurd ((hseen line).2 hin) ((mapGet_isNone_iff seen line).1 hg)
        simp [SlicerSortUniq.step, this]
      rw [hstep]
      obtain ⟨h1, h2, added, h3, h4⟩ := ih seen result hseen hnd
      refine ⟨?_, h2, added, h3.cons _, h4⟩
      intro n
      rw [h1, List.mem_cons]
      constructor
      · rintro (h | h)
        · exact Or.inl h
        · exact Or.inr (Or.inr h)
      · rintro (h | rfl | h)
        · exact Or.inl h
        · exact Or.inl hin
        · exact Or.inr h
    · have hstep : SlicerSortUniq.step (seen, result) line
          = (mapPut seen line true, result ++ [line]) := by
        have : (mapGet seen line).isNone = true :=
          (mapGet_isNone_iff seen line).2 (fun hc => hin ((hseen line).1 hc))
        simp [SlicerSortUniq.step, this]
      rw [hstep]
      have hseen1 : ∀ n, n ∈ mapKeys (mapPut seen line true) ↔ n ∈ result ++ [line] := by
        intro n
        rw [mem_mapKeys_mapPut, hseen n, List.mem_append, List.mem_singleton]
        tauto
      have hnd1 : (result ++ [line]).Nodup := by
        simpa [List.nodup_append, hnd] using hin
      obtain ⟨h1, h2, added, h3, h4⟩ := ih _ _ hseen1 hnd1
      refine ⟨?_, h2, line :: added, h3.cons₂ _, by rw [h4]; simp⟩
      intro n
      rw [h1, List.mem_append, List.mem_singleton, List.mem_cons]
      tauto

theorem SlicerSortUniq_spec (l : List String) :
    (SlicerSortUniq l).Sorted strLT ∧ ∀ n, n ∈ SlicerSortUniq l ↔ n ∈ l := by
  obtain ⟨h1, h2, added, h3, h4⟩ :=
    SlicerSortUniq_fold (sortStrings l) [] [] (by simp [mapKeys]) List.nodup_nil
  have heq : SlicerSortUniq l = added := by
    simpa [SlicerSortUniq] using h4
  have h2a : added.Nodup := by
    rw [h4] at h2
    simpa using h2
  constructor
  · rw [heq]
    exact sorted_strLT_of_sorted_of_nodup ((sortStrings_sorted l).sublist h3) h2a
  · intro n
    have := h1 n
    simp only [List.not_mem_nil, false_or] at this
    rw [← mem_sortStrings l n]
    exact this

/-- Two strictly ascending lists with the same elements are equal. -/
theorem eq_of_sorted_strLT {l1 l2 : List String} (h1 : l1.Sorted strLT) (h2 : l2.Sorted strLT)
    (h : ∀ n, n ∈ l1 ↔ n ∈ l2) : l1 = l2 := by
  have hp : l1.Perm l2 :=
    (List.perm_ext_iff_of_nodup (nodup_of_sorted_strLT h1) (nodup_of_sorted_strLT h2)).2 h
  have hle : ∀ {l : List String}, l.Sorted strLT → l.Sorted strLE := fun hl =>
    List.Pairwise.imp (fun hab => (strLE_iff _ _).2 (le_of_lt ((strLT_iff _ _).1 hab))) hl
  exact List.eq_of_perm_of_sorted hp (hle h1) (hle h2)

theorem SlicerSortUniq_congr {l1 l2 : List String} (h : ∀ n, n ∈ l1 ↔ n ∈ l2) :
    SlicerSortUniq l1 = SlicerSortUniq l2 := by
  apply eq_of_sorted_strLT (SlicerSortUniq_spec l1).1 (SlicerSortUniq_spec l2).1
  intro n
  rw [(SlicerSortUniq_spec l1).2, (SlicerSortUniq_spec l2).2, h]

/-! ## C11 to C13: sorting, de-duplication, sanitising -/

/-- C11.  `SlicerSortUniq` returns a strictly ascending list with the elements of its input,
so it returns the same list for two inputs with the same elements; and `ListTestNames`
returns `SlicerSortUniq` of the names collected, so two walks that collect the same set of
names return the same list. -/
theorem SlicerSortUniq_sorted_uniq (input : List String) :
    (SlicerSortUniq input).Sorted strLT ∧
    (∀ n, n ∈ SlicerSortUniq input ↔ n ∈ input) ∧
    (∀ input2, (∀ n, n ∈ input ↔ n ∈ input2) → SlicerSortUniq input = SlicerSortUniq input2) ∧
    (∀ e1 e2 order1 order2 flags1 flags2 now1 now2 entries1 entries2 limit1 limit2 result2
        err1 err2,
      ListTestNames.walk e1 order1 flags1 now1 entries1 0 limit1 [] = .ret (input, err1) →
      ListTestNames.walk e2 order2 flags2 now2 entries2 0 limit2 [] = .ret (result2, err2) →
      (∀ n, n ∈ input ↔ n ∈ result2) →
      ∃ names, ListTestNames e1 order1 flags1 now1 entries1 limit1 = .ret (names, err1) ∧
        ListTestNames e2 order2 flags2 now2 entries2 limit2 = .ret (names, err2)) := by
  refine ⟨(SlicerSortUniq_spec input).1, (SlicerSortUniq_spec input).2,
    fun input2 h => SlicerSortUniq_congr h, ?_⟩
  intro e1 e2 order1 order2 flags1 flags2 now1 now2 entries1 entries2 limit1 limit2 result2
    err1 err2 h1 h2 h
  refine ⟨SlicerSortUniq input, ?_, ?_⟩
  · simp [ListTestNames, h1]
  · simp [ListTestNames, h2, SlicerSortUniq_congr h]

/-- C11, witness: the names of `walkAB` and of `walkBA` are collected in different orders
and the two walks return the same list. -/
theorem SlicerSortUniq_sorted_uniq_witness :
    ListTestNames.walk exampleEngine (fun _ => insertionOrder) defaultFlags (fun _ => 0)
        walkAB 0 .Unlimited []
      = .ret (["TestWeb", "TestWeb/works", "TestWeb", "TestWeb/works", "TestWeb/works"],
          none) ∧
    ListTestNames.walk exampleEngine (fun _ => insertionOrder) defaultFlags (fun _ => 0)
        walkBA 0 .Unlimited []
      = .ret (["TestWeb", "TestWeb/works", "TestWeb/works", "TestWeb", "TestWeb/works"],
          none) ∧
    SlicerSortUniq ["TestWeb", "TestWeb/works", "TestWeb", "TestWeb/works", "TestWeb/works"]
      = ["TestWeb", "TestWeb/works"] ∧
    ∃ names,
      ListTestNames exampleEngine (fun _ => insertionOrder) defaultFlags (fun _ => 0)
          walkAB .Unlimited = .ret (names, none) ∧
      ListTestNames exampleEngine (fun _ => insertionOrder) defaultFlags (fun _ => 0)
          walkBA .Unlimited = .ret (names, none) :=
  ⟨by decide, by decide, by decide,
    (SlicerSortUniq_sorted_uniq
      ["TestWeb", "TestWeb/works", "TestWeb", "TestWeb/works", "TestWeb/works"]).2.2.2
      exampleEngine exampleEngine (fun _ => insertionOrder) (fun _ => insertionOrder)
      defaultFlags defaultFlags (fun _ => 0) (fun _ => 0) walkAB walkBA .Unlimited .Unlimited
      ["TestWeb", "TestWeb/works", "TestWeb/works", "TestWeb", "TestWeb/works"] none none
      (by decide) (by decide) (by intro n; simp)⟩

/-- C12.  The list that `ParseTestNamesGolangAST` returns is strictly ascending: it is
sorted and holds no string twice; and the function returns a list when no declaration makes
a pass panic. -/
theorem ParseTestNamesGolangAST_sorted (order : Nat → List String → List String)
    (horder : ValidOrder order) (file : SourceFile) :
    (∀ names, ParseTestNamesGolangAST order file = some names →
      names.Sorted strLE ∧ names.Nodup ∧ names.Sorted strLT) ∧
    (∀ decls, file.Decls = some decls → (∀ f ∈ decls, declPanics f = false) →
      ∃ names, ParseTestNamesGolangAST order file = some names) := by
  constructor
  · intro names h
    have hnd := ParseTestNamesGolangAST_nodup order horder file names h
    have hs : names.Sorted strLE := by
      unfold ParseTestNamesGolangAST at h
      cases hd : file.Decls with
      | none =>
        simp only [hd, Option.some.injEq] at h
        subst h
        exact List.sorted_nil
      | some decls =>
        simp only [hd] at h
        obtain ⟨L, -, -, rfl⟩ := scanTwice_spec _ order horder decls names h
        exact sortStrings_sorted L
    exact ⟨hs, hnd, sorted_strLT_of_sorted_of_nodup hs hnd⟩
  · intro decls hd hno
    cases h : ParseTestNamesGolangAST order file with
    | some names => exact ⟨names, rfl⟩
    | none =>
      simp only [ParseTestNamesGolangAST, hd] at h
      obtain ⟨f, hf, hp⟩ := (scanTwice_eq_none_iff _ _ _).1 h
      rw [hno f hf] at hp
      cases hp

/-- C12, witness: in `repeatedFile` the root test `TestSuite` and the method `TestA` are
declared twice and two root tests run the suite `S`; each name is returned once. -/
theorem ParseTestNamesGolangAST_sorted_witness :
    ValidOrder reverseOrder ∧
    ParseTestNamesGolangAST reverseOrder repeatedFile
      = some ["TestSuite", "TestSuite/TestA", "TestSuite2", "TestSuite2/TestA"] ∧
    ["TestSuite", "TestSuite/TestA", "TestSuite2", "TestSuite2/TestA"].Sorted strLT :=
  ⟨validOrder_reverseOrder, by decide,
    ((ParseTestNamesGolangAST_sorted reverseOrder validOrder_reverseOrder repeatedFile).1 _
      (by decide)).2.2⟩

theorem clear_toList (l : List Char) :
    (clear (String.mk l)).toList
      = l.filterMap fun c =>
          if c = Char.ofNat 34 then none else if c = ' ' then some '_' else some c := by
  induction l with
  | nil => rfl
  | cons c rest ih =>
    simp only [clear, ReplaceAll, String.toList, List.flatMap_cons, String.data_append,
      List.filterMap_cons] at ih ⊢
    by_cases h1 : c = ' '
    · subst h1
      simpa using ih
    · by_cases h2 : c = Char.ofNat 34
      · subst h2
        simpa using ih
      · simpa [h1, h2] using ih

/-- C13.  `clear(s)` is `s` with every space replaced by an underscore and every double
quote removed, the other characters kept in order; it holds no space and no double quote;
and `clear` of the literal `"device event"`, quotes included, is `device_event`. -/
theorem clear_eq_clearSpec (s : String) :
    clear s = clearSpec s ∧ ' ' ∉ (clear s).toList ∧ Char.ofNat 34 ∉ (clear s).toList ∧
    clear (quoted "device event") = "device_event" := by
  have h := clear_toList s.toList
  have hs : String.mk s.toList = s := rfl
  rw [hs] at h
  refine ⟨?_, ?_, ?_, by decide⟩
  · apply String.ext
    exact h
  · rw [h]
    simp only [List.mem_filterMap, not_exists, not_and]
    intro c _ hc
    split_ifs at hc <;> simp_all
  · rw [h]
    simp only [List.mem_filterMap, not_exists, not_and]
    intro c _ hc
    split_ifs at hc <;> simp_all

/-! ## C19: `FindSuiteRunTypes` -/

theorem firstIdent_foldl_none (l : List Node) :
    l.foldl
      (fun result node =>
        match node with
        | .Ident ident =>
          if ident.Name ∈ skipIdents then result
          else if result.isNone then some ident else result
        | _ => result)
      none
    = (l.filterMap fun node =>
        match node with
        | .Ident id => some id
        | _ => none).find? (fun id => decide (id.Name ∉ skipIdents)) := by
  induction l with
  | nil => rfl
  | cons n rest ih =>
    simp only [List.foldl_cons]
    cases n with
    | Ident ident =>
      by_cases hs : ident.Name ∈ skipIdents
      · simpa [hs] using ih
      · have hf := firstIdent_foldl_some rest ident
        simp only [hs, ↓reduceIte, Option.isNone_none]
        rw [hf]
        simp [hs]
    | SelectorExpr _ _ => simpa using ih
    | StarExpr _ => simpa using ih
    | CallExpr _ _ => simpa using ih
    | Other _ => simpa using ih

theorem GetFirstIdent_eq_find (expr : Node) :
    GetFirstIdent expr = expr.idents.find? (fun id => decide (id.Name ∉ skipIdents)) :=
  firstIdent_foldl_none expr.Inspect

theorem visitAll_eq_none_iff (nodes : List Node) (st : List String × List Ident) :
    FindSuiteRunTypes.visitAll nodes st = none ↔
      ∃ arg ∈ nodes.filterMap (fun node =>
          match node with
          | .CallExpr Fun Args =>
            if Args.length = 2 ∧ Sprintf Fun = "&\x7bsuite Run\x7d" then Args.get? 1 else none
          | _ => none),
        GetFirstIdent arg = none := by
  induction nodes generalizing st with
  | nil => simp [FindSuiteRunTypes.visitAll]
  | cons node rest ih =>
    simp only [FindSuiteRunTypes.visitAll, List.filterMap_cons]
    cases node with
    | CallExpr Fun Args =>
      simp only [FindSuiteRunTypes.visit]
      by_cases hlen : Args.length = 2
      · by_cases hfun : Sprintf Fun = "&\x7bsuite Run\x7d"
        · obtain ⟨a0, a1, rfl⟩ : ∃ a0 a1, Args = [a0, a1] := by
            match Args, hlen with
            | [a0, a1], _ => exact ⟨a0, a1, rfl⟩
          cases hg : GetFirstIdent a1 with
          | none => simp [hfun, hg]
          | some ident =>
            by_cases hin : ident.Name ∈ st.1
            · simp [hfun, hg, hin, ih]
            · simp [hfun, hg, hin, ih]
        · simp [hlen, hfun, ih]
      · simp [hlen, ih]
    | Ident _ => simp [FindSuiteRunTypes.visit, ih]
    | SelectorExpr _ _ => simp [FindSuiteRunTypes.visit, ih]
    | StarExpr _ => simp [FindSuiteRunTypes.visit, ih]
    | Other _ => simp [FindSuiteRunTypes.visit, ih]

theorem visitAll_eq_some (nodes : List Node) (st st1 : List String × List Ident)
    (h : FindSuiteRunTypes.visitAll nodes st = some st1) :
    st1 = ((nodes.filterMap (fun node =>
          match node with
          | .CallExpr Fun Args =>
            if Args.length = 2 ∧ Sprintf Fun = "&\x7bsuite Run\x7d" then Args.get? 1 else none
          | _ => none)).filterMap GetFirstIdent).foldl keepIdent st := by
  induction nodes generalizing st with
  | nil =>
    simp only [FindSuiteRunTypes.visitAll, Option.some.injEq] at h
    simp [h]
  | cons node rest ih =>
    simp only [FindSuiteRunTypes.visitAll] at h
    simp only [List.filterMap_cons]
    cases node with
    | CallExpr Fun Args =>
      simp only [FindSuiteRunTypes.visit] at h
      by_cases hlen : Args.length = 2
      · by_cases hfun : Sprintf Fun = "&\x7bsuite Run\x7d"
        · obtain ⟨a0, a1, rfl⟩ : ∃ a0 a1, Args = [a0, a1] := by
            match Args, hlen with
            | [a0, a1], _ => exact ⟨a0, a1, rfl⟩
          cases hg : GetFirstIdent a1 with
          | none => simp [hfun, hg] at h
          | some ident =>
            by_cases hin : ident.Name ∈ st.1
            · simp only [List.length_cons, List.length_singleton, Nat.reduceAdd, ne_eq,
                not_true_eq_false, ↓reduceIte, hfun, List.get?_cons_succ, List.get?_cons_zero,
                hg, hin, Option.some_bind] at h
              simpa [hfun, hg, keepIdent, hin] using ih _ h
            · simp only [List.length_cons, List.length_singleton, Nat.reduceAdd, ne_eq,
                not_true_eq_false, ↓reduceIte, hfun, List.get?_cons_succ, List.get?_cons_zero,
                hg, hin, Option.some_bind] at h
              simpa [hfun, hg, keepIdent, hin] using ih _ h
        · simp only [ne_eq, hlen, not_true_eq_false, ↓reduceIte, hfun, not_false_eq_true,
            Option.some_bind] at h
          simpa [hlen, hfun] using ih _ h
      · simp only [ne_eq, hlen, not_false_eq_true, ↓reduceIte, Option.some_bind] at h
        simpa [hlen] using ih _ h
    | Ident _ =>
      simp only [FindSuiteRunTypes.visit, Option.some_bind] at h
      simpa using ih _ h
    | SelectorExpr _ _ =>
      simp only [FindSuiteRunTypes.visit, Option.some_bind] at h
      simpa using ih _ h
    | StarExpr _ =>
      simp only [FindSuiteRunTypes.visit, Option.some_bind] at h
      simpa using ih _ h
    | Other _ =>
      simp only [FindSuiteRunTypes.visit, Option.some_bind] at h
      simpa using ih _ h

/-- The identifiers kept by `keepIdent`: a sublist of the identifiers offered, with pairwise
different names, that holds the first identifier of each name. -/
theorem keepIdent_fold (ids : List Ident) (seen : List String) (result : List Ident)
    (hseen : seen = result.map (·.Name)) (hnd : (result.map (·.Name)).Nodup) :
    ∃ added, added.Sublist ids ∧ (ids.foldl keepIdent (seen, result)).2 = result ++ added ∧
      (((ids.foldl keepIdent (seen, result)).2).map (·.Name)).Nodup ∧
      ∀ x ∈ result ++ ids, ∃ y ∈ (ids.foldl keepIdent (seen, result)).2,
        (result ++ ids).find? (fun z => z.Name == x.Name) = some y := by
  induction ids generalizing seen result with
  | nil =>
    refine ⟨[], List.Sublist.refl _, by simp, by simpa using hnd, ?_⟩
    intro x hx
    simp only [List.append_nil] at hx ⊢
    simp only [List.foldl_nil]
    cases hf : result.find? (fun z => z.Name == x.Name) with
    | none =>
      have := List.find?_eq_none.1 hf x hx
      simp at this
    | some y => exact ⟨y, List.mem_of_find?_eq_some hf, rfl⟩
  | cons id rest ih =>
    simp only [List.foldl_cons]
    by_cases hin : id.Name ∈ seen
    · have hstep : keepIdent (seen, result) id = (seen, result) := by simp [keepIdent, hin]
      rw [hstep]
      obtain ⟨added, h1, h2, h3, h4⟩ := ih seen result hseen hnd
      refine ⟨added, h1.cons _, h2, h3, ?_⟩
      have hres : ∃ y ∈ result, y.Name = id.Name := by
        rw [hseen] at hin
        simpa using hin
      have hfind : ∀ x : Ident, (result ++ id :: rest).find? (fun z => z.Name == x.Name)
          = (result ++ rest).find? (fun z => z.Name == x.Name) := by
        intro x
        rw [List.find?_append, List.find?_append]
        cases hf : result.find? (fun z => z.Name == x.Name) with
        | some y => rfl
        | none =>
          simp only [Option.none_or, List.find?_cons]
          have hne : (id.Name == x.Name) = false := by
            obtain ⟨y, hy, hyn⟩ := hres
            have := List.find?_eq_none.1 hf y hy
            simp only [beq_iff_eq] at this
            simp only [beq_eq_false_iff_ne, ne_eq]
            rw [← hyn]
            exact this
          simp [hne]
      intro x hx
      rw [hfind x]
      rcases List.mem_append.1 hx with hx | hx
      · exact h4 x (List.mem_append_left _ hx)
      · rcases List.mem_cons.1 hx with rfl | hx
        · obtain ⟨y, hy, hyn⟩ := hres
          obtain ⟨y1, hy1, hy2⟩ := h4 y (List.mem_append_left _ hy)
          exact ⟨y1, hy1, by rw [← hyn]; exact hy2⟩
        · exact h4 x (List.mem_append_right _ hx)
    · have hstep : keepIdent (seen, result) id = (seen ++ [id.Name], result ++ [id]) := by
        simp [keepIdent, hin]
      rw [hstep]
      have hseen1 : seen ++ [id.Name] = (result ++ [id]).map (·.Name) := by
        simp [hseen]
      have hnd1 : ((result ++ [id]).map (·.Name)).Nodup := by
        rw [hseen] at hin
        simp only [List.map_append, List.map_cons, List.map_nil]
        rw [List.nodup_append]
        refine ⟨hnd, List.nodup_singleton _, ?_⟩
        intro a ha hb
        rw [List.mem_singleton] at hb
        exact hin (hb ▸ ha)
      obtain ⟨added, h1, h2, h3, h4⟩ := ih _ _ hseen1 hnd1
      refine ⟨id :: added, h1.cons₂ _, by rw [h2]; simp, h3, ?_⟩
      intro x hx
      have happ : result ++ id :: rest = (result ++ [id]) ++ rest := by simp
      rw [happ] at hx ⊢
      exact h4 x hx

theorem FindSuiteRunTypes_eq_none_iff (fn : FuncDecl) :
    FindSuiteRunTypes fn = none ↔ ∃ arg ∈ suiteRunArgs fn, GetFirstIdent arg = none := by
  unfold FindSuiteRunTypes suiteRunArgs
  rw [Option.map_eq_none', visitAll_eq_none_iff]

theorem FindSuiteRunTypes_eq_some (fn : FuncDecl) (idents : List Ident)
    (h : FindSuiteRunTypes fn = some idents) :
    idents = (((suiteRunArgs fn).filterMap GetFirstIdent).foldl keepIdent ([], [])).2 := by
  unfold FindSuiteRunTypes at h
  cases hv : FindSuiteRunTypes.visitAll fn.Inspect ([], []) with
  | none => simp [hv] at h
  | some st1 =>
    simp only [hv, Option.map_some', Option.some.injEq] at h
    rw [← h, visitAll_eq_some _ _ _ hv]
    rfl

/-- C19.  `FindSuiteRunTypes` panics exactly when the second argument of a two-argument call
of `suite.Run` holds no identifier other than `new`.  When it returns, its result is a
sublist of the first identifiers (`new` apart) of the second arguments of these calls, in
the order in which the calls are visited; the names in it are pairwise different; and it
holds the first identifier of each name.  It is empty when the function has no such call,
and `IsSuiteRunner` is then false.  On well-formed syntax the callee test holds for the
selector `suite.Run` only. -/
theorem FindSuiteRunTypes_spec (fn : FuncDecl) :
    (FindSuiteRunTypes fn = none ↔ ∃ arg ∈ suiteRunArgs fn, GetFirstIdent arg = none) ∧
    (∀ idents, FindSuiteRunTypes fn = some idents →
      idents.Sublist ((suiteRunArgs fn).filterMap GetFirstIdent) ∧
      (idents.map (·.Name)).Nodup ∧
      ∀ x ∈ (suiteRunArgs fn).filterMap GetFirstIdent, ∃ y ∈ idents,
        ((suiteRunArgs fn).filterMap GetFirstIdent).find? (fun z => z.Name == x.Name)
          = some y) ∧
    (suiteRunArgs fn = [] → FindSuiteRunTypes fn = some [] ∧ IsSuiteRunner fn = some false) ∧
    (∀ arg, GetFirstIdent arg = arg.idents.find? (fun id => decide (id.Name ∉ skipIdents))) ∧
    (∀ Fun : Node, Fun.WellFormed →
      (Sprintf Fun = "&\x7bsuite Run\x7d" ↔
        ∃ p q, Fun = .SelectorExpr (.Ident ⟨p, "suite"⟩) ⟨q, "Run"⟩)) := by
  refine ⟨FindSuiteRunTypes_eq_none_iff fn, ?_, ?_, GetFirstIdent_eq_find, ?_⟩
  · intro idents h
    have heq := FindSuiteRunTypes_eq_some fn idents h
    obtain ⟨added, h1, h2, h3, h4⟩ :=
      keepIdent_fold ((suiteRunArgs fn).filterMap GetFirstIdent) [] [] rfl List.nodup_nil
    simp only [List.nil_append] at h2 h4
    rw [← heq] at h2 h3 h4
    subst h2
    exact ⟨h1, h3, h4⟩
  · intro hnil
    have hsome : FindSuiteRunTypes fn = some [] := by
      cases h : FindSuiteRunTypes fn with
      | none =>
        obtain ⟨arg, harg, -⟩ := (FindSuiteRunTypes_eq_none_iff fn).1 h
        rw [hnil] at harg
        cases harg
      | some idents =>
        have heq := FindSuiteRunTypes_eq_some fn idents h
        rw [hnil] at heq
        rw [heq]
        rfl
    refine ⟨hsome, ?_⟩
    unfold IsSuiteRunner
    split
    · simp [hsome]
    · rfl
  · intro Fun hwf
    have h := Sprintf_eq_braces_iff Fun hwf "suite" "Run" (by decide)
    have hs : "&\x7b" ++ "suite" ++ " " ++ "Run" ++ "\x7d" = "&\x7bsuite Run\x7d" := by decide
    rw [hs] at h
    exact h

/-- C19, witness: the function of `TestFindSuiteRunTypes`, with two more calls that do not
count. -/
theorem FindSuiteRunTypes_spec_witness :
    FindSuiteRunTypes fourSuiteRuns
      = some [⟨164, "aggregatorStarSuite"⟩, ⟨217, "aggregatorSuite"⟩] ∧
    (suiteRunArgs fourSuiteRuns).filterMap GetFirstIdent
      = [⟨164, "aggregatorStarSuite"⟩, ⟨217, "aggregatorSuite"⟩, ⟨264, "aggregatorSuite"⟩,
          ⟨314, "aggregatorStarSuite"⟩] ∧
    ([⟨164, "aggregatorStarSuite"⟩, ⟨217, "aggregatorSuite"⟩] : List Ident).Sublist
      ((suiteRunArgs fourSuiteRuns).filterMap GetFirstIdent) ∧
    suiteRunArgs (rootTest 100 "TestSimple1" []) = [] ∧
    IsSuiteRunner (rootTest 100 "TestSimple1" []) = some false :=
  ⟨by decide, by decide,
    ((FindSuiteRunTypes_spec fourSuiteRuns).2.1 _ (by decide)).1, rfl,
    ((FindSuiteRunTypes_spec (rootTest 100 "TestSimple1" [])).2.2.1 rfl).2⟩

/-! ## C20: the fixed point of the passes -/

theorem mapPut_eq_self {V : Type} (m : GoMap V) (k : String) (v : V)
    (h : mapGet m k = some v) : mapPut m k v = m := by
  induction m with
  | nil => simp [mapGet] at h
  | cons e rest ih =>
    obtain ⟨k0, v0⟩ := e
    by_cases hk : k0 = k
    · simp only [mapGet, hk, ↓reduceIte, Option.some.injEq] at h
      simp [mapPut, hk, h]
    · simp only [mapGet, hk, ↓reduceIte] at h
      simp [mapPut, hk, ih h]

theorem NewTracker_allTrue : NewTracker.AllTrue := by
  intro T tests r v h
  simp [NewTracker, mapGet] at h

theorem AddTest_allTrue (t : Tracker) (x : String) (h : t.AllTrue) : (t.AddTest x).AllTrue := by
  unfold Tracker.AllTrue
  rw [AddTest_suites]
  exact h

theorem SuiteRanByTest_allTrue (t : Tracker) (T r : String) (h : t.AllTrue) :
    (t.SuiteRanByTest T r).AllTrue := by
  intro T1 tests1 r1 v1 hT hr
  unfold Tracker.SuiteRanByTest at hT
  simp only at hT
  by_cases hTT : T1 = T
  · subst hTT
    rw [mapGet_mapPut_same] at hT
    simp only [Option.some.injEq] at hT
    subst hT
    by_cases hrr : r1 = r
    · subst hrr
      rw [mapGet_mapPut_same] at hr
      simp only [Option.some.injEq] at hr
      exact hr.symm
    · rw [mapGet_mapPut_of_ne _ _ _ _ hrr] at hr
      cases hget : mapGet t.suiteTypesAndTestsWhoRanThem T1 with
      | none =>
        simp only [hget, Option.isNone_none, ↓reduceIte, mapGet_mapPut_same,
          Option.getD_some] at hr
        simp [mapGet] at hr
      | some tests =>
        simp only [hget, Option.isNone_some, Bool.false_eq_true, ↓reduceIte,
          Option.getD_some] at hr
        exact h T1 tests r1 v1 hget hr
  · rw [mapGet_mapPut_of_ne _ _ _ _ hTT] at hT
    split at hT
    · rw [mapGet_mapPut_of_ne _ _ _ _ hTT] at hT
      exact h T1 tests1 r1 v1 hT hr
    · exact h T1 tests1 r1 v1 hT hr

theorem bindSuites_allTrue (resolver : TypeResolver) (testName : String) (idents : List Ident)
    (t : Tracker) (h : t.AllTrue) : (bindSuites resolver testName idents t).AllTrue := by
  unfold bindSuites
  induction idents generalizing t with
  | nil => exact h
  | cons id rest ih =>
    simp only [List.foldl_cons]
    apply ih
    split
    · exact SuiteRanByTest_allTrue _ _ _ h
    · exact h

theorem addSuiteTests_allTrue (testName : String) (whoRan : List String) (t : Tracker)
    (h : t.AllTrue) : (addSuiteTests testName whoRan t).AllTrue := by
  unfold Tracker.AllTrue
  rw [addSuiteTests_suites]
  exact h

theorem scanDecl_allTrue (resolver : TypeResolver) (order : Nat → List String → List String)
    (st st1 : Tracker × Nat) (f : Decl) (h : scanDecl resolver order st f = some st1)
    (htrue : st.1.AllTrue) : st1.1.AllTrue := by
  cases f with
  | GenDecl =>
    simp only [scanDecl, Option.some.injEq] at h
    subst h
    exact htrue
  | FuncDecl fn =>
    cases hr : IsSimpleTest fn with
    | true =>
      rw [scanDecl_root _ _ _ _ hr] at h
      cases hf : FindSuiteRunTypes fn with
      | none => simp [hf] at h
      | some idents =>
        simp only [hf, Option.map_some', Option.some.injEq] at h
        subst h
        exact bindSuites_allTrue _ _ _ _ (AddTest_allTrue _ _ htrue)
    | false =>
      cases hs : IsPossibleSuiteTest fn with
      | true =>
        rw [scanDecl_suite _ _ _ _ hr hs] at h
        cases hg : GetReceiverTypeNoStar fn with
        | none => simp [hg] at h
        | some T =>
          simp only [hg, Option.map_some', Option.some.injEq] at h
          subst h
          exact addSuiteTests_allTrue _ _ _ htrue
      | false =>
        rw [scanDecl_other _ _ _ _ hr hs] at h
        cases h
        exact htrue

theorem scan_allTrue (resolver : TypeResolver) (order : Nat → List String → List String)
    (decls : List Decl) (st st1 : Tracker × Nat) (h : scan resolver order decls st = some st1)
    (htrue : st.1.AllTrue) : st1.1.AllTrue := by
  induction decls generalizing st with
  | nil =>
    simp only [scan, Option.some.injEq] at h
    subst h
    exact htrue
  | cons f rest ih =>
    simp only [scan] at h
    cases hstep : scanDecl resolver order st f with
    | none => simp [hstep] at h
    | some st0 =>
      simp only [hstep, Option.some_bind] at h
      exact ih st0 h (scanDecl_allTrue _ _ _ _ _ hstep htrue)

theorem AddTest_eq_self (t : Tracker) (x : String) (hinv : t.Inv) (hx : x ∈ t.result) :
    t.AddTest x = t := by
  unfold Tracker.AddTest
  have : (mapGet t.seenTests x).isNone = false := by
    cases hg : (mapGet t.seenTests x).isNone with
    | false => rfl
    | true => exact absurd ((hinv.1 x).1 hx) ((mapGet_isNone_iff _ _).1 hg)
  simp [this]

theorem SuiteRanByTest_eq_self (t : Tracker) (T r : String) (htrue : t.AllTrue)
    (hb : t.Bound T r) : t.SuiteRanByTest T r = t := by
  obtain ⟨tests, hT, hr⟩ := hb
  have hr1 : mapGet tests r = some true := by
    rw [mem_mapKeys_iff] at hr
    cases hg : mapGet tests r with
    | none => simp [hg] at hr
    | some v => rw [htrue T tests r v hT hg]
  unfold Tracker.SuiteRanByTest
  simp only [hT, Option.isNone_some, Bool.false_eq_true, ↓reduceIte, Option.getD_some]
  rw [mapPut_eq_self tests r true hr1, mapPut_eq_self _ T tests hT]

theorem bindSuites_eq_self (resolver : TypeResolver) (testName : String)
    (idents : List Ident) (t : Tracker) (htrue : t.AllTrue)
    (hb : ∀ id ∈ idents, resolver.Resolve id ≠ "" → t.Bound (resolver.Resolve id) testName) :
    bindSuites resolver testName idents t = t := by
  unfold bindSuites
  induction idents with
  | nil => rfl
  | cons id rest ih =>
    simp only [List.foldl_cons]
    have hstep : (if resolver.Resolve id ≠ "" then
        t.SuiteRanByTest (resolver.Resolve id) testName else t) = t := by
      split
      · rename_i hne
        exact SuiteRanByTest_eq_self _ _ _ htrue (hb id (List.mem_cons_self _ _) hne)
      · rfl
    rw [hstep]
    exact ih (fun id1 h1 => hb id1 (List.mem_cons_of_mem _ h1))

theorem addSuiteTests_eq_self (testName : String) (whoRan : List String) (t : Tracker)
    (hinv : t.Inv) (hb : ∀ r ∈ whoRan, r ++ "/" ++ testName ∈ t.result) :
    addSuiteTests testName whoRan t = t := by
  unfold addSuiteTests
  induction whoRan with
  | nil => rfl
  | cons r rest ih =>
    simp only [List.foldl_cons]
    rw [AddTest_eq_self _ _ hinv (hb r (List.mem_cons_self _ _))]
    exact ih (fun r1 h1 => hb r1 (List.mem_cons_of_mem _ h1))

/-- A tracker that holds what a declaration adds is left as it is by `scanDecl`. -/
theorem scanDecl_eq_self (resolver : TypeResolver) (order : Nat → List String → List String)
    (horder : ValidOrder order) (st st1 : Tracker × Nat) (f : Decl)
    (h : scanDecl resolver order st f = some st1) (hinv : st.1.Inv) (htrue : st.1.AllTrue)
    (hroot : ∀ n, DeclRoot f n → n ∈ st.1.result)
    (hbinds : ∀ T r, DeclBinds resolver f T r → st.1.Bound T r)
    (hsuite : ∀ n, DeclSuite st.1.Bound f n → n ∈ st.1.result) : st1.1 = st.1 := by
  cases f with
  | GenDecl =>
    simp only [scanDecl, Option.some.injEq] at h
    subst h
    rfl
  | FuncDecl fn =>
    cases hr : IsSimpleTest fn with
    | true =>
      rw [scanDecl_root _ _ _ _ hr] at h
      cases hf : FindSuiteRunTypes fn with
      | none => simp [hf] at h
      | some idents =>
        simp only [hf, Option.map_some', Option.some.injEq] at h
        subst h
        simp only
        rw [AddTest_eq_self _ _ hinv (hroot _ ⟨fn, rfl, hr, rfl⟩)]
        apply bindSuites_eq_self _ _ _ _ htrue
        intro id hid hne
        exact hbinds _ _ ⟨fn, rfl, hr, rfl, hne, idents, hf, id, hid, rfl⟩
    | false =>
      cases hs : IsPossibleSuiteTest fn with
      | true =>
        rw [scanDecl_suite _ _ _ _ hr hs] at h
        cases hg : GetReceiverTypeNoStar fn with
        | none => simp [hg] at h
        | some T =>
          simp only [hg, Option.map_some', Option.some.injEq] at h
          subst h
          simp only
          apply addSuiteTests_eq_self _ _ _ hinv
          intro r hrmem
          rw [mem_WhoRanSuiteType _ (horder st.2)] at hrmem
          exact hsuite _ ⟨fn, T, r, rfl, hs, hg, hrmem, rfl⟩
      | false =>
        rw [scanDecl_other _ _ _ _ hr hs] at h
        cases h
        rfl

/-- A tracker that holds what the declarations add is left as it is by a pass. -/
theorem scan_eq_self (resolver : TypeResolver) (order : Nat → List String → List String)
    (horder : ValidOrder order) (decls : List Decl) (st st1 : Tracker × Nat)
    (h : scan resolver order decls st = some st1) (hinv : st.1.Inv) (htrue : st.1.AllTrue)
    (hroot : ∀ n, (∃ f ∈ decls, DeclRoot f n) → n ∈ st.1.result)
    (hbinds : ∀ T r, (∃ f ∈ decls, DeclBinds resolver f T r) → st.1.Bound T r)
    (hsuite : ∀ n, (∃ f ∈ decls, DeclSuite st.1.Bound f n) → n ∈ st.1.result) :
    st1.1 = st.1 := by
  induction decls generalizing st with
  | nil =>
    simp only [scan, Option.some.injEq] at h
    subst h
    rfl
  | cons f rest ih =>
    simp only [scan] at h
    cases hstep : scanDecl resolver order st f with
    | none => simp [hstep] at h
    | some st0 =>
      simp only [hstep, Option.some_bind] at h
      have h0 : st0.1 = st.1 :=
        scanDecl_eq_self resolver order horder st st0 f hstep hinv htrue
          (fun n hn => hroot n ⟨f, List.mem_cons_self _ _, hn⟩)
          (fun T r hb => hbinds T r ⟨f, List.mem_cons_self _ _, hb⟩)
          (fun n hn => hsuite n ⟨f, List.mem_cons_self _ _, hn⟩)
      have h1 := ih st0 h (h0 ▸ hinv) (h0 ▸ htrue)
        (fun n ⟨f1, hf1, hn⟩ => h0 ▸ hroot n ⟨f1, List.mem_cons_of_mem _ hf1, hn⟩)
        (fun T r ⟨f1, hf1, hb⟩ => h0 ▸ hbinds T r ⟨f1, List.mem_cons_of_mem _ hf1, hb⟩)
        (fun n ⟨f1, hf1, hn⟩ => by
          rw [h0] at hn ⊢
          exact hsuite n ⟨f1, List.mem_cons_of_mem _ hf1, hn⟩)
      rw [h1, h0]

/-- C20.  After the first pass the binding table holds every binding of the file: it binds
`r` to `T` exactly when `r` is a root test of the file that runs the suite type `T`.  The
second pass adds no binding, and a third pass after the second returns and leaves the
tracker (binding table, set and list of discovered names) as it is.  One pass is not enough:
for `methodFirstDecls` the names after one pass are `TestSuite`, and after two passes
`TestSuite` and `TestSuite/TestA`. -/
theorem scan_fixed_point (resolver : TypeResolver) (order : Nat → List String → List String)
    (horder : ValidOrder order) (decls : List Decl) (st1 st2 : Tracker × Nat)
    (h1 : scan resolver order decls (NewTracker, 0) = some st1)
    (h2 : scan resolver order decls st1 = some st2) :
    (∀ T r, st1.1.Bound T r ↔
      ∃ fn, Decl.FuncDecl fn ∈ decls ∧ IsSimpleTest fn = true ∧ fn.Name.Name = r ∧
        RunsSuite resolver fn T) ∧
    (∀ T r, st2.1.Bound T r ↔ st1.1.Bound T r) ∧
    (∃ st3, scan resolver order decls st2 = some st3 ∧ st3.1 = st2.1) ∧
    (scan (TypeResolver.mk []) insertionOrder methodFirstDecls (NewTracker, 0)).map
        (fun st => st.1.result) = some ["TestSuite"] ∧
    ((scan (TypeResolver.mk []) insertionOrder methodFirstDecls (NewTracker, 0)).bind
        (scan (TypeResolver.mk []) insertionOrder methodFirstDecls)).map
        (fun st => st.1.result) = some ["TestSuite", "TestSuite/TestA"] := by
  obtain ⟨hinv1, hb1, -, -, -⟩ := scan_spec resolver order horder decls _ st1 h1 NewTracker_inv
  obtain ⟨hinv2, hb2, -, hlow2, -⟩ := scan_spec resolver order horder decls st1 st2 h2 hinv1
  have htrue2 : st2.1.AllTrue :=
    scan_allTrue _ _ _ _ _ h2 (scan_allTrue _ _ _ _ _ h1 NewTracker_allTrue)
  have hbound1 : ∀ T r, st1.1.Bound T r ↔ ∃ g ∈ decls, DeclBinds resolver g T r := by
    intro T r
    rw [hb1]
    simp [NewTracker_not_bound]
  have hbound2 : ∀ T r, st2.1.Bound T r ↔ st1.1.Bound T r := by
    intro T r
    rw [hb2, hbound1]
    simp
  refine ⟨?_, hbound2, ?_, by decide, by decide⟩
  · intro T r
    rw [hbound1]
    constructor
    · rintro ⟨g, hg, fn, rfl, h3, h4, h5⟩
      exact ⟨fn, hg, h3, h4, h5⟩
    · rintro ⟨fn, hg, h3, h4, h5⟩
      exact ⟨_, hg, fn, rfl, h3, h4, h5⟩
  · cases h3 : scan resolver order decls st2 with
    | none =>
      have hp := (scan_eq_none_iff resolver order decls st2).1 h3
      have := (scan_eq_none_iff resolver order decls st1).2 hp
      simp [h2] at this
    | some st3 =>
      refine ⟨st3, rfl, ?_⟩
      apply scan_eq_self resolver order horder decls st2 st3 h3 hinv2 htrue2
      · rintro n ⟨f, hf, hn⟩
        exact hlow2 n ⟨f, hf, Or.inl hn⟩
      · rintro T r hb
        exact (hbound2 T r).2 ((hbound1 T r).2 hb)
      · rintro n ⟨f, hf, hn⟩
        exact hlow2 n ⟨f, hf,
          Or.inr (DeclSuite_mono (fun T r hb => (hbound2 T r).1 hb) _ _ hn)⟩

/-- C20, witness: the passes over `methodFirstDecls`; the third pass leaves the tracker of
the second as it is. -/
theorem scan_fixed_point_witness :
    ValidOrder insertionOrder ∧
    ∃ st1 st2, scan (TypeResolver.mk []) insertionOrder methodFirstDecls (NewTracker, 0)
        = some st1 ∧
      scan (TypeResolver.mk []) insertionOrder methodFirstDecls st1 = some st2 ∧
      st1.1.result = ["TestSuite"] ∧ st2.1.result = ["TestSuite", "TestSuite/TestA"] ∧
      ∃ st3, scan (TypeResolver.mk []) insertionOrder methodFirstDecls st2 = some st3 ∧
        st3.1 = st2.1 := by
  refine ⟨validOrder_insertionOrder, ?_⟩
  cases h1 : scan (TypeResolver.mk []) insertionOrder methodFirstDecls (NewTracker, 0) with
  | none =>
    have hp := (scan_eq_none_iff _ _ _ _).1 h1
    exact absurd hp (by decide)
  | some st1 =>
    cases h2 : scan (TypeResolver.mk []) insertionOrder methodFirstDecls st1 with
    | none =>
      have hp := (scan_eq_none_iff _ _ _ _).1 h2
      exact absurd hp (by decide)
    | some st2 =>
      have hr1 : st1.1.result = ["TestSuite"] := by
        have : (scan (TypeResolver.mk []) insertionOrder methodFirstDecls (NewTracker, 0)).map
            (fun st => st.1.result) = some ["TestSuite"] := by decide
        rw [h1] at this
        simpa using this
      have hr2 : st2.1.result = ["TestSuite", "TestSuite/TestA"] := by
        have : ((scan (TypeResolver.mk []) insertionOrder methodFirstDecls
            (NewTracker, 0)).bind (scan (TypeResolver.mk []) insertionOrder
              methodFirstDecls)).map (fun st => st.1.result)
            = some ["TestSuite", "TestSuite/TestA"] := by decide
        rw [h1] at this
        simp only [Option.some_bind, h2, Option.map_some', Option.some.injEq] at this
        exact this
      exact ⟨st1, st2, rfl, h2, hr1, hr2,
        (scan_fixed_point (TypeResolver.mk []) insertionOrder validOrder_insertionOrder
          methodFirstDecls st1 st2 h1 h2).2.2.1⟩

/-! ## Lemmas: the loop of `predicate.Match` -/

/-- `predicate.Match` is the loop: one run of the body, then the rest. -/
theorem Match_eq_of_body (regexp : String → String → Option Bool) (q : Query)
    (captures : CaptureValues) (p0 : QueryPredicateStep) (rest : List QueryPredicateStep) :
    predicate.Match regexp q captures (p0 :: rest) =
      match predicate.Match.body regexp q captures (p0 :: rest) with
      | .panic => .panic
      | .done b => .ret b
      | .next ps1 =>
        if ps1.length < (p0 :: rest).length then predicate.Match regexp q captures ps1
        else .hang := by
  match rest with
  | p1 :: p2 :: p3 :: rest4 =>
    rw [predicate.Match.eq_2, predicate.Match.body.eq_2]
    cases predicateMustString q p0 with
    | none => rfl
    | some name =>
      simp only
      by_cases hm : name = "match?"
      · simp only [hm, ↓reduceIte]
        cases predicateMustCapture q p1 <;> cases predicateMustString q p2 <;>
          cases predicateMustDone q p3 <;> try rfl
        simp only
        cases mapGet captures _ with
        | none => rfl
        | some value =>
          simp only
          cases regexp _ value with
          | none => rfl
          | some ok =>
            have hlt : rest4.length < rest4.length + 1 + 1 + 1 + 1 := by omega
            cases ok <;> simp [hlt]
      · by_cases he : name = "eq?"
        · simp only [he, ↓reduceIte]
          have hne : ¬ ("eq?" = "match?") := by decide
          simp only [hne, ↓reduceIte]
          cases predicateMustCapture q p1 <;> cases predicateMustCapture q p2 <;>
            cases predicateMustDone q p3 <;> try rfl
          simp only
          cases mapGet captures _ <;> cases mapGet captures _ <;> try rfl
          simp only
          have hlt : rest4.length < rest4.length + 1 + 1 + 1 + 1 := by omega
          split <;> simp [hlt]
        · simp [hm, he]
  | [] =>
    rw [predicate.Match.eq_3 _ _ _ _ _ (by simp), predicate.Match.body.eq_3 _ _ _ _ _ (by simp)]
    cases predicateMustString q p0 with
    | none => rfl
    | some name => simp only; split_ifs <;> simp
  | [_] =>
    rw [predicate.Match.eq_3 _ _ _ _ _ (by simp), predicate.Match.body.eq_3 _ _ _ _ _ (by simp)]
    cases predicateMustString q p0 with
    | none => rfl
    | some name => simp only; split_ifs <;> simp
  | [_, _] =>
    rw [predicate.Match.eq_3 _ _ _ _ _ (by simp), predicate.Match.body.eq_3 _ _ _ _ _ (by simp)]
    cases predicateMustString q p0 with
    | none => rfl
    | some name => simp only; split_ifs <;> simp

theorem body_next (regexp : String → String → Option Bool) (q : Query)
    (captures : CaptureValues) (ps ps1 : List QueryPredicateStep)
    (h : predicate.Match.body regexp q captures ps = .next ps1) :
    ps1.length < ps.length ∨ ps1 = ps := by
  unfold predicate.Match.body at h
  split at h
  · cases h
  · rename_i p0 rest
    split at h
    · cases h
    · split at h
      · split at h
        · split at h
          · split at h
            · cases h
            · split at h
              · cases h
              · split at h
                · cases h
                · cases h
                  left
                  simp only [List.length_cons]
                  omega
          · cases h
        · cases h
      · split at h
        · split at h
          · split at h
            · split at h
              · split at h
                · cases h
                · cases h
                  left
                  simp only [List.length_cons]
                  omega
              · cases h
            · cases h
          · cases h
        · cases h
          exact Or.inr rfl

theorem run_none_of_body_self (regexp : String → String → Option Bool) (q : Query)
    (captures : CaptureValues) (ps : List QueryPredicateStep) (hne : ps.length > 0)
    (h : predicate.Match.body regexp q captures ps = .next ps) (fuel : Nat) :
    predicate.Match.run regexp q captures fuel ps = none := by
  induction fuel with
  | zero => rfl
  | succ fuel ih => simp [predicate.Match.run, hne, h, ih]

/-- The outcome of `predicate.Match` is that of its loop: when the outcome is to run
forever the loop is still running after any number of steps; otherwise the loop ends with
the outcome within `len(ps) + 1` tests of its condition. -/
theorem run_eq_Match (regexp : String → String → Option Bool) (q : Query)
    (captures : CaptureValues) (ps : List QueryPredicateStep) :
    (predicate.Match regexp q captures ps = .hang →
      ∀ fuel, predicate.Match.run regexp q captures fuel ps = none) ∧
    (predicate.Match regexp q captures ps ≠ .hang →
      ∀ fuel, ps.length + 1 ≤ fuel →
        predicate.Match.run regexp q captures fuel ps
          = some (predicate.Match regexp q captures ps)) := by
  generalize hn : ps.length = n
  induction n using Nat.strong_induction_on generalizing ps with
  | _ n ih =>
    cases ps with
    | nil =>
      constructor
      · intro h
        simp [predicate.Match] at h
      · intro _ fuel hfuel
        cases fuel with
        | zero => omega
        | succ fuel => simp [predicate.Match.run, predicate.Match]
    | cons p0 rest =>
      have hM := Match_eq_of_body regexp q captures p0 rest
      have hlen : (p0 :: rest).length > 0 := by simp
      cases hb : predicate.Match.body regexp q captures (p0 :: rest) with
      | panic =>
        rw [hb] at hM
        simp only at hM
        constructor
        · intro h
          rw [hM] at h
          cases h
        · intro _ fuel hfuel
          cases fuel with
          | zero => omega
          | succ fuel => simp [predicate.Match.run, hb, hM]
      | done b =>
        rw [hb] at hM
        simp only at hM
        constructor
        · intro h
          rw [hM] at h
          cases h
        · intro _ fuel hfuel
          cases fuel with
          | zero => omega
          | succ fuel => simp [predicate.Match.run, hb, hM]
      | next ps1 =>
        rw [hb] at hM
        simp only at hM
        rcases body_next regexp q captures _ _ hb with hlt | heq
        · rw [if_pos hlt] at hM
          have ih1 := ih ps1.length (by rw [← hn]; exact hlt) ps1 rfl
          constructor
          · intro h fuel
            cases fuel with
            | zero => rfl
            | succ fuel =>
              simp only [predicate.Match.run, hlen, ↓reduceIte, hb]
              exact ih1.1 (hM ▸ h) fuel
          · intro h fuel hfuel
            cases fuel with
            | zero => omega
            | succ fuel =>
              simp only [predicate.Match.run, hlen, ↓reduceIte, hb, hM]
              exact ih1.2 (hM ▸ h) fuel (by omega)
        · subst heq
          rw [if_neg (lt_irrefl _)] at hM
          constructor
          · intro _ fuel
            exact run_none_of_body_self regexp q captures _ hlen hb fuel
          · intro h
            exact absurd hM h

/-! ## C14 to C16: the pattern strategy -/

theorem Scan_eq_ret_iff (regexp : String → String → Option Bool) (q : Query)
    (ms : List QueryMatch) (cs : List CaptureValues) :
    Scan regexp q ms = .ret cs ↔
      (∀ m ∈ ms, HitReturns regexp q m) ∧
        cs = (ms.filter (hitAccepted regexp q)).map (hitValues q) := by
  induction ms generalizing cs with
  | nil => simp [Scan, eq_comm]
  | cons m rest ih =>
    simp only [Scan, List.mem_cons, forall_eq_or_imp, List.filter_cons]
    cases hm : NewPredicate.Match regexp q m with
    | panic =>
      have hret : ¬ HitReturns regexp q m := by simp [HitReturns, hm]
      simp [hret]
    | hang =>
      have hret : ¬ HitReturns regexp q m := by simp [HitReturns, hm]
      simp [hret]
    | ret b =>
      cases b with
      | false =>
        have hret : HitReturns regexp q m := ⟨false, hm, by simp⟩
        have hacc : hitAccepted regexp q m = false := by simp [hitAccepted, hm]
        simp only [hret, true_and, hacc, Bool.false_eq_true, ↓reduceIte]
        exact ih cs
      | true =>
        have hacc : hitAccepted regexp q m = true := by simp [hitAccepted, hm]
        simp only [hacc, ↓reduceIte, List.map_cons]
        cases hc : CapturesToValues q m.Captures [] with
        | none =>
          have hret : ¬ HitReturns regexp q m := by simp [HitReturns, hm, hc]
          simp [hret]
        | some c =>
          have hret : HitReturns regexp q m := ⟨true, hm, by simp [hc]⟩
          have hval : hitValues q m = c := by simp [hitValues, hc]
          simp only [hret, true_and, hval]
          cases hrest : Scan regexp q rest with
          | panic =>
            simp only [reduceCtorEq, false_iff]
            intro h
            have h2 := (ih _).2 ⟨h.1, rfl⟩
            rw [hrest] at h2
            cases h2
          | hang =>
            simp only [reduceCtorEq, false_iff]
            intro h
            have h2 := (ih _).2 ⟨h.1, rfl⟩
            rw [hrest] at h2
            cases h2
          | ret cs1 =>
            obtain ⟨h1, h2⟩ := (ih cs1).1 hrest
            simp only [Outcome.ret.injEq]
            rw [h2]
            constructor
            · intro h
              exact ⟨h1, h.symm⟩
            · rintro ⟨-, h⟩
              exact h.symm

theorem CapturesToValues_get (q : Query) (captures : List QueryCapture)
    (acc c : CaptureValues) (h : CapturesToValues q captures acc = some c) (name : String) :
    mapGet c name =
      match captures.reverse.find? (fun cap => q.CaptureNameForId cap.Index == some name) with
      | some cap => some cap.Content
      | none => mapGet acc name := by
  induction captures generalizing acc with
  | nil =>
    simp only [CapturesToValues, Option.some.injEq] at h
    subst h
    rfl
  | cons cap rest ih =>
    simp only [CapturesToValues] at h
    cases hn : q.CaptureNameForId cap.Index with
    | none => simp [hn] at h
    | some n =>
      simp only [hn, Option.some_bind] at h
      rw [ih _ h]
      simp only [List.reverse_cons, List.find?_append]
      cases List.find? (fun cap => q.CaptureNameForId cap.Index == some name) rest.reverse with
      | some cap1 => rfl
      | none =>
        simp only [Option.none_or, List.find?_cons, hn, List.find?_nil]
        by_cases hnn : n = name
        · subst hnn
          simp [mapGet_mapPut_same]
        · have : (some n == some name) = false := by simpa using hnn
          simp [this, mapGet_mapPut_of_ne _ _ _ _ (Ne.symm hnn)]

theorem predicateMustDone_of_done (q : Query) (p : QueryPredicateStep) (h : p.Type_ = .Done) :
    predicateMustDone q p = some "" := by
  simp [predicateMustDone, h]

/-- `predicate.Match` on an instruction whose operands are there: it goes on with the rest
when the instruction holds, and returns false when it does not. -/
theorem Match_instruction (regexp : String → String → Option Bool) (q : Query)
    (captures : CaptureValues) (p0 p1 p2 p3 : QueryPredicateStep)
    (rest : List QueryPredicateStep) (i : Instruction) (hreads : i.Reads q p0 p1 p2 p3)
    (hdef : i.Defined regexp captures) :
    (i.Holds regexp captures →
      predicate.Match regexp q captures (p0 :: p1 :: p2 :: p3 :: rest)
        = predicate.Match regexp q captures rest) ∧
    (¬ i.Holds regexp captures →
      predicate.Match regexp q captures (p0 :: p1 :: p2 :: p3 :: rest) = .ret false) := by
  rw [predicate.Match.eq_2]
  cases i with
  | match_ capture pattern =>
    obtain ⟨h0, h1, h2, h3⟩ := hreads
    obtain ⟨value, ok, hv, hok⟩ := hdef
    simp only [h0, ↓reduceIte, h1, h2, predicateMustDone_of_done q p3 h3, hv, hok,
      Instruction.Holds]
    cases ok with
    | true => simp [hok]
    | false => simp [hok]
  | eq_ capture1 capture2 =>
    obtain ⟨h0, h1, h2, h3⟩ := hreads
    obtain ⟨value1, value2, hv1, hv2⟩ := hdef
    have hne : ¬ ("eq?" = "match?") := by decide
    simp only [h0, hne, ↓reduceIte, h1, h2, predicateMustDone_of_done q p3 h3, hv1, hv2,
      Instruction.Holds, Option.some.injEq, exists_eq_left']
    by_cases hvv : value1 = value2
    · simp [hvv]
    · simp [hvv, Ne.symm hvv]

theorem Match_of_spells (regexp : String → String → Option Bool) (q : Query)
    (captures : CaptureValues) (ps : List QueryPredicateStep) (prog : List Instruction)
    (hs : Spells q ps prog) (hdef : ∀ i ∈ prog, i.Defined regexp captures) :
    ∃ b, predicate.Match regexp q captures ps = .ret b ∧
      (b = true ↔ ∀ i ∈ prog, i.Holds regexp captures) := by
  induction hs with
  | nil => exact ⟨true, rfl, by simp⟩
  | @cons p0 p1 p2 p3 rest i prog hreads _ ih =>
    obtain ⟨b, hb, hiff⟩ := ih (fun j hj => hdef j (List.mem_cons_of_mem _ hj))
    have hstep := Match_instruction regexp q captures p0 p1 p2 p3 rest i hreads
      (hdef i (List.mem_cons_self _ _))
    by_cases hh : i.Holds regexp captures
    · refine ⟨b, by rw [hstep.1 hh, hb], ?_⟩
      rw [hiff]
      simp [hh]
    · refine ⟨false, hstep.2 hh, ?_⟩
      simp [hh]

theorem Match_prefix_holds (regexp : String → String → Option Bool) (q : Query)
    (captures : CaptureValues) (ps : List QueryPredicateStep) (prog : List Instruction)
    (hs : Spells q ps prog) (hholds : ∀ i ∈ prog, i.Holds regexp captures)
    (hdef : ∀ i ∈ prog, i.Defined regexp captures) (rest : List QueryPredicateStep) :
    predicate.Match regexp q captures (ps ++ rest) = predicate.Match regexp q captures rest := by
  induction hs with
  | nil => rfl
  | @cons p0 p1 p2 p3 rest1 i prog hreads _ ih =>
    have hstep := Match_instruction regexp q captures p0 p1 p2 p3 (rest1 ++ rest) i hreads
      (hdef i (List.mem_cons_self _ _))
    simp only [List.cons_append]
    rw [hstep.1 (hholds i (List.mem_cons_self _ _))]
    exact ih (fun j hj => hholds j (List.mem_cons_of_mem _ hj))
      (fun j hj => hdef j (List.mem_cons_of_mem _ hj))

theorem Instruction.Holds.defined {regexp : String → String → Option Bool} {captures : CaptureValues}
    {i : Instruction} (h : i.Holds regexp captures) : i.Defined regexp captures := by
  cases i with
  | match_ capture pattern =>
    obtain ⟨value, h1, h2⟩ := h
    exact ⟨value, true, h1, h2⟩
  | eq_ capture1 capture2 =>
    obtain ⟨value, h1, h2⟩ := h
    exact ⟨value, value, h1, h2⟩

/-- After instructions that hold, a step name other than `match?` and `eq?` makes
`predicate.Match` run forever. -/
theorem Match_unknown_name (regexp : String → String → Option Bool) (q : Query)
    (captures : CaptureValues) (ps : List QueryPredicateStep) (prog : List Instruction)
    (hs : Spells q ps prog) (hholds : ∀ i ∈ prog, i.Holds regexp captures)
    (p0 : QueryPredicateStep) (rest : List QueryPredicateStep) (name : String)
    (hname : predicateMustString q p0 = some name) (hm : name ≠ "match?") (he : name ≠ "eq?") :
    predicate.Match regexp q captures (ps ++ p0 :: rest) = .hang ∧
    ∀ fuel, predicate.Match.run regexp q captures fuel (ps ++ p0 :: rest) = none := by
  have hhang : predicate.Match regexp q captures (ps ++ p0 :: rest) = .hang := by
    rw [Match_prefix_holds regexp q captures ps prog hs hholds (fun i hi => (hholds i hi).defined)]
    have hM := Match_eq_of_body regexp q captures p0 rest
    have hb : predicate.Match.body regexp q captures (p0 :: rest) = .next (p0 :: rest) := by
      match rest with
      | p1 :: p2 :: p3 :: rest4 =>
        rw [predicate.Match.body.eq_2]
        simp [hname, hm, he]
      | [] =>
        rw [predicate.Match.body.eq_3 _ _ _ _ _ (by simp)]
        simp [hname, hm, he]
      | [_] =>
        rw [predicate.Match.body.eq_3 _ _ _ _ _ (by simp)]
        simp [hname, hm, he]
      | [_, _] =>
        rw [predicate.Match.body.eq_3 _ _ _ _ _ (by simp)]
        simp [hname, hm, he]
    rw [hb] at hM
    simpa using hM
  exact ⟨hhang, (run_eq_Match regexp q captures _).1 hhang⟩

/-- C14.  Each of the two scans returns exactly when the evaluation of every hit returns, and
then returns one name for each hit that its predicates accept and none for a hit they
reject, in the order of the hits; the name of a hit whose captures `func.name` and
`test.name` read `f` and `n` is `f/clear(n)`, where a capture reads the text of the last
node captured under its name; and `ScanTreeSitter` returns the names of the string-literal
scan followed by those of the struct-literal scan. -/
theorem ScanTreeSitter_names (e : Engine) (file : SourceFile) :
    (∀ names, ScanTRunStringLiteral e file = .ret names ↔
      (∀ m ∈ file.matchesTRunStringLiteral,
        HitReturns e.regexp e.queryTRunStringLiteral m) ∧
      names = (file.matchesTRunStringLiteral.filter
          (hitAccepted e.regexp e.queryTRunStringLiteral)).map
        (fun m => subTestName (hitValues e.queryTRunStringLiteral m))) ∧
    (∀ names, ScanTRunStructLiteral e file = .ret names ↔
      (∀ m ∈ file.matchesTRunStructLiteral,
        HitReturns e.regexp e.queryTRunStructLiteral m) ∧
      names = (file.matchesTRunStructLiteral.filter
          (hitAccepted e.regexp e.queryTRunStructLiteral)).map
        (fun m => subTestName (hitValues e.queryTRunStructLiteral m))) ∧
    (∀ names, ScanTreeSitter e file = .ret names ↔
      ∃ names1 names2, ScanTRunStringLiteral e file = .ret names1 ∧
        ScanTRunStructLiteral e file = .ret names2 ∧ names = names1 ++ names2) ∧
    (∀ c f n, mapGet c "func.name" = some f → mapGet c "test.name" = some n →
      subTestName c = f ++ "/" ++ clear n) ∧
    (∀ (q : Query) (m : QueryMatch) c name, CapturesToValues q m.Captures [] = some c →
      mapGet c name =
        (m.Captures.reverse.find?
          (fun cap => q.CaptureNameForId cap.Index == some name)).map (·.Content)) := by
  refine ⟨?_, ?_, ?_, ?_, ?_⟩
  · intro names
    unfold ScanTRunStringLiteral
    cases hs : Scan e.regexp e.queryTRunStringLiteral file.matchesTRunStringLiteral with
    | ret cs =>
      obtain ⟨h1, h2⟩ := (Scan_eq_ret_iff _ _ _ _).1 hs
      simp only [Outcome.ret.injEq, h2, List.map_map]
      constructor
      · intro h
        exact ⟨h1, h.symm⟩
      · rintro ⟨-, h⟩
        exact h.symm
    | panic =>
      simp only [reduceCtorEq, false_iff]
      intro h
      have := (Scan_eq_ret_iff _ _ _ _).2 ⟨h.1, rfl⟩
      rw [hs] at this
      cases this
    | hang =>
      simp only [reduceCtorEq, false_iff]
      intro h
      have := (Scan_eq_ret_iff _ _ _ _).2 ⟨h.1, rfl⟩
      rw [hs] at this
      cases this
  · intro names
    unfold ScanTRunStructLiteral
    cases hs : Scan e.regexp e.queryTRunStructLiteral file.matchesTRunStructLiteral with
    | ret cs =>
      obtain ⟨h1, h2⟩ := (Scan_eq_ret_iff _ _ _ _).1 hs
      simp only [Outcome.ret.injEq, h2, List.map_map]
      constructor
      · intro h
        exact ⟨h1, h.symm⟩
      · rintro ⟨-, h⟩
        exact h.symm
    | panic =>
      simp only [reduceCtorEq, false_iff]
      intro h
      have := (Scan_eq_ret_iff _ _ _ _).2 ⟨h.1, rfl⟩
      rw [hs] at this
      cases this
    | hang =>
      simp only [reduceCtorEq, false_iff]
      intro h
      have := (Scan_eq_ret_iff _ _ _ _).2 ⟨h.1, rfl⟩
      rw [hs] at this
      cases this
  · intro names
    unfold ScanTreeSitter
    cases ScanTRunStringLiteral e file with
    | ret names1 =>
      cases ScanTRunStructLiteral e file with
      | ret names2 => simp [eq_comm]
      | panic => simp
      | hang => simp
    | panic => simp
    | hang => simp
  · intro c f n hf hn
    simp [subTestName, hf, hn]
  · intro q m c name h
    rw [CapturesToValues_get q m.Captures [] c h name]
    cases List.find? (fun cap => q.CaptureNameForId cap.Index == some name) m.Captures.reverse with
    | some cap => rfl
    | none => rfl

/-- C14, witness: in `hitsFile` the string-literal scan accepts the first and the third hit
and rejects the second (`t.Skip`); the struct-literal scan accepts the first hit and rejects
the second (the field is read from another variable). -/
theorem ScanTreeSitter_names_witness :
    ScanTRunStringLiteral exampleEngine hitsFile = .ret ["TestWeb/works", "TestWeb/a_b"] ∧
    ScanTRunStructLiteral exampleEngine hitsFile = .ret ["TestTable/device_event"] ∧
    ScanTreeSitter exampleEngine hitsFile
      = .ret ["TestWeb/works", "TestWeb/a_b", "TestTable/device_event"] ∧
    (hitsFile.matchesTRunStringLiteral.map
      (hitAccepted exampleEngine.regexp exampleEngine.queryTRunStringLiteral))
      = [true, false, true] ∧
    ["TestWeb/works", "TestWeb/a_b"]
      = (hitsFile.matchesTRunStringLiteral.filter
          (hitAccepted exampleEngine.regexp exampleEngine.queryTRunStringLiteral)).map
        (fun m => subTestName (hitValues exampleEngine.queryTRunStringLiteral m)) :=
  ⟨by decide, by decide, by decide, by decide,
    (((ScanTreeSitter_names exampleEngine hitsFile).1 _).1 (by decide)).2⟩

theorem Match_instruction_undefined (regexp : String → String → Option Bool) (q : Query)
    (captures : CaptureValues) (p0 p1 p2 p3 : QueryPredicateStep)
    (rest : List QueryPredicateStep) (i : Instruction) (hreads : i.Reads q p0 p1 p2 p3)
    (hundef : ¬ i.Defined regexp captures) :
    predicate.Match regexp q captures (p0 :: p1 :: p2 :: p3 :: rest) = .panic := by
  rw [predicate.Match.eq_2]
  cases i with
  | match_ capture pattern =>
    obtain ⟨h0, h1, h2, h3⟩ := hreads
    simp only [h0, ↓reduceIte, h1, h2, predicateMustDone_of_done q p3 h3]
    cases hv : mapGet captures capture with
    | none => rfl
    | some value =>
      cases hok : regexp pattern value with
      | none => simp [hok]
      | some ok => exact absurd ⟨value, ok, hv, hok⟩ hundef
  | eq_ capture1 capture2 =>
    obtain ⟨h0, h1, h2, h3⟩ := hreads
    have hne : ¬ ("eq?" = "match?") := by decide
    simp only [h0, hne, ↓reduceIte, h1, h2, predicateMustDone_of_done q p3 h3]
    cases hv1 : mapGet captures capture1 with
    | none => rfl
    | some value1 =>
      cases hv2 : mapGet captures capture2 with
      | none => rfl
      | some value2 => exact absurd ⟨value1, value2, hv1, hv2⟩ hundef

theorem exists_first_failing {α : Type} (P : α → Prop) :
    ∀ l : List α, (¬ ∀ i ∈ l, P i) →
      ∃ pre i post, l = pre ++ i :: post ∧ (∀ j ∈ pre, P j) ∧ ¬ P i
  | [], h => absurd (fun i hi => absurd hi (List.not_mem_nil i)) h
  | a :: l, h => by
    by_cases ha : P a
    · have hl : ¬ ∀ i ∈ l, P i := by
        intro hall
        apply h
        intro i hi
        rcases List.mem_cons.1 hi with rfl | hi
        · exact ha
        · exact hall i hi
      obtain ⟨pre, i, post, heq, hpre, hi⟩ := exists_first_failing P l hl
      refine ⟨a :: pre, i, post, by simp [heq], ?_, hi⟩
      intro j hj
      rcases List.mem_cons.1 hj with rfl | hj
      · exact ha
      · exact hpre j hj
    · exact ⟨[], a, l, rfl, by simp, ha⟩

theorem Match_all_hold (regexp : String → String → Option Bool) (q : Query)
    (captures : CaptureValues) (ps : List QueryPredicateStep) (prog : List Instruction)
    (hs : Spells q ps prog) (hholds : ∀ i ∈ prog, i.Holds regexp captures) :
    predicate.Match regexp q captures ps = .ret true := by
  obtain ⟨b, hb, hiff⟩ := Match_of_spells regexp q captures ps prog hs
    (fun i hi => (hholds i hi).defined)
  rw [hb, hiff.2 hholds]

theorem Match_first_failing (regexp : String → String → Option Bool) (q : Query)
    (captures : CaptureValues) (ps : List QueryPredicateStep) (prog : List Instruction)
    (hs : Spells q ps prog) :
    ∀ (pre : List Instruction) (i : Instruction) (post : List Instruction),
      prog = pre ++ i :: post → (∀ j ∈ pre, j.Holds regexp captures) →
      (i.Defined regexp captures → ¬ i.Holds regexp captures →
        predicate.Match regexp q captures ps = .ret false) ∧
      (¬ i.Defined regexp captures → predicate.Match regexp q captures ps = .panic) := by
  induction hs with
  | nil =>
    intro pre i post heq
    simp at heq
  | @cons p0 p1 p2 p3 rest i0 prog0 hreads _ ih =>
    intro pre i post heq hpre
    cases pre with
    | nil =>
      simp only [List.nil_append, List.cons.injEq] at heq
      obtain ⟨rfl, -⟩ := heq
      exact ⟨fun hdef hnot =>
          (Match_instruction regexp q captures p0 p1 p2 p3 rest i0 hreads hdef).2 hnot,
        fun hundef =>
          Match_instruction_undefined regexp q captures p0 p1 p2 p3 rest i0 hreads hundef⟩
    | cons j pre1 =>
      simp only [List.cons_append, List.cons.injEq] at heq
      obtain ⟨rfl, heq1⟩ := heq
      have hj : i0.Holds regexp captures := hpre i0 (List.mem_cons_self _ _)
      rw [(Match_instruction regexp q captures p0 p1 p2 p3 rest i0 hreads hj.defined).1 hj]
      exact ih pre1 i post heq1 (fun k hk => hpre k (List.mem_cons_of_mem _ hk))

/-- C15, as stated, fails: `predicate.Match` does not return for every capture set.  The
program `eq? @a @b` of `eqQuery` is well formed; on a hit that captures `@a` only, reading
the text of `@b` panics.  So does the program `match? @a "("` of `badPatternQuery`, whose
pattern does not compile, on a hit that captures `@a`. -/
theorem predicate_Match_missing_capture :
    Spells eqQuery (eqQuery.PredicatesForPattern 0) [Instruction.eq_ "a" "b"] ∧
    mapGet (hitValues eqQuery onlyAMatch) "b" = none ∧
    predicate.Match literalRegexp eqQuery (hitValues eqQuery onlyAMatch)
      (eqQuery.PredicatesForPattern 0) = .panic ∧
    NewPredicate.Match literalRegexp eqQuery onlyAMatch = .panic ∧
    Spells badPatternQuery (badPatternQuery.PredicatesForPattern 0)
      [Instruction.match_ "a" "("] ∧
    literalRegexp "(" "tc" = none ∧
    predicate.Match literalRegexp badPatternQuery (hitValues badPatternQuery onlyAMatch)
      (badPatternQuery.PredicatesForPattern 0) = .panic ∧
    NewPredicate.Match literalRegexp badPatternQuery onlyAMatch = .panic :=
  ⟨Spells.cons ⟨by decide, by decide, by decide, rfl⟩ Spells.nil, by decide, by decide,
    by decide, Spells.cons ⟨by decide, by decide, by decide, rfl⟩ Spells.nil, by decide,
    by decide, by decide⟩

/-- C15, amended.  On a well-formed predicate program and any capture set, `predicate.Match`
ends, and its loop with it: it returns true if and only if every instruction holds (every
capture it names has a captured text, the two texts of an `eq?` are identical, the text of
a `match?` matches its pattern); it returns false if and only if the first instruction that
does not hold has its operands (its captures have a captured text and its pattern is a
regular expression); it panics if and only if the first instruction that does not hold
lacks a captured text or has a pattern that is no regular expression.  Either way it stops
at that first instruction, whatever follows.  A pattern with no predicate step accepts
every match. -/
theorem predicate_Match_wellFormed (regexp : String → String → Option Bool) (q : Query)
    (captures : CaptureValues) :
    (∀ ps prog, Spells q ps prog →
      (predicate.Match regexp q captures ps = .ret true ↔
        ∀ i ∈ prog, i.Holds regexp captures) ∧
      (predicate.Match regexp q captures ps = .ret false ↔
        ∃ pre i post, prog = pre ++ i :: post ∧ (∀ j ∈ pre, j.Holds regexp captures) ∧
          i.Defined regexp captures ∧ ¬ i.Holds regexp captures) ∧
      (predicate.Match regexp q captures ps = .panic ↔
        ∃ pre i post, prog = pre ++ i :: post ∧ (∀ j ∈ pre, j.Holds regexp captures) ∧
          ¬ i.Defined regexp captures) ∧
      predicate.Match regexp q captures ps ≠ .hang ∧
      ∃ fuel, predicate.Match.run regexp q captures fuel ps
        = some (predicate.Match regexp q captures ps)) ∧
    (∀ ps prog p0 p1 p2 p3 (i : Instruction) rest, Spells q ps prog →
      (∀ j ∈ prog, j.Holds regexp captures) → i.Reads q p0 p1 p2 p3 →
      (i.Defined regexp captures → ¬ i.Holds regexp captures →
        predicate.Match regexp q captures (ps ++ p0 :: p1 :: p2 :: p3 :: rest)
          = .ret false) ∧
      (¬ i.Defined regexp captures →
        predicate.Match regexp q captures (ps ++ p0 :: p1 :: p2 :: p3 :: rest) = .panic)) ∧
    (∀ m, q.PredicatesForPattern m.PatternIndex = [] →
      NewPredicate.Match regexp q m = .ret true) := by
  refine ⟨?_, ?_, ?_⟩
  · intro ps prog hs
    have hcases : (∀ i ∈ prog, i.Holds regexp captures) ∨
        ∃ pre i post, prog = pre ++ i :: post ∧ (∀ j ∈ pre, j.Holds regexp captures) ∧
          ¬ i.Holds regexp captures := by
      by_cases hall : ∀ i ∈ prog, i.Holds regexp captures
      · exact Or.inl hall
      · exact Or.inr (exists_first_failing _ prog hall)
    have htrue : predicate.Match regexp q captures ps = .ret true ↔
        ∀ i ∈ prog, i.Holds regexp captures := by
      constructor
      · intro hm
        rcases hcases with hall | ⟨pre, i, post, heq, hpre, hnot⟩
        · exact hall
        · obtain ⟨h1, h2⟩ := Match_first_failing regexp q captures ps prog hs pre i post heq hpre
          by_cases hdef : i.Defined regexp captures
          · rw [h1 hdef hnot] at hm
            simp at hm
          · rw [h2 hdef] at hm
            simp at hm
      · exact Match_all_hold regexp q captures ps prog hs
    have hfalse : predicate.Match regexp q captures ps = .ret false ↔
        ∃ pre i post, prog = pre ++ i :: post ∧ (∀ j ∈ pre, j.Holds regexp captures) ∧
          i.Defined regexp captures ∧ ¬ i.Holds regexp captures := by
      constructor
      · intro hm
        rcases hcases with hall | ⟨pre, i, post, heq, hpre, hnot⟩
        · rw [htrue.2 hall] at hm
          simp at hm
        · obtain ⟨-, h2⟩ := Match_first_failing regexp q captures ps prog hs pre i post heq hpre
          by_cases hdef : i.Defined regexp captures
          · exact ⟨pre, i, post, heq, hpre, hdef, hnot⟩
          · rw [h2 hdef] at hm
            simp at hm
      · rintro ⟨pre, i, post, heq, hpre, hdef, hnot⟩
        exact (Match_first_failing regexp q captures ps prog hs pre i post heq hpre).1 hdef hnot
    have hpanic : predicate.Match regexp q captures ps = .panic ↔
        ∃ pre i post, prog = pre ++ i :: post ∧ (∀ j ∈ pre, j.Holds regexp captures) ∧
          ¬ i.Defined regexp captures := by
      constructor
      · intro hm
        rcases hcases with hall | ⟨pre, i, post, heq, hpre, hnot⟩
        · rw [htrue.2 hall] at hm
          simp at hm
        · obtain ⟨h1, -⟩ := Match_first_failing regexp q captures ps prog hs pre i post heq hpre
          by_cases hdef : i.Defined regexp captures
          · rw [h1 hdef hnot] at hm
            simp at hm
          · exact ⟨pre, i, post, heq, hpre, hdef⟩
      · rintro ⟨pre, i, post, heq, hpre, hundef⟩
        exact (Match_first_failing regexp q captures ps prog hs pre i post heq hpre).2 hundef
    have hhang : predicate.Match regexp q captures ps ≠ .hang := by
      intro hm
      rcases hcases with hall | ⟨pre, i, post, heq, hpre, hnot⟩
      · rw [htrue.2 hall] at hm
        simp at hm
      · by_cases hdef : i.Defined regexp captures
        · rw [hfalse.2 ⟨pre, i, post, heq, hpre, hdef, hnot⟩] at hm
          simp at hm
        · rw [hpanic.2 ⟨pre, i, post, heq, hpre, hdef⟩] at hm
          simp at hm
    exact ⟨htrue, hfalse, hpanic, hhang, ps.length + 1,
      (run_eq_Match regexp q captures ps).2 hhang (ps.length + 1) (le_refl _)⟩
  · intro ps prog p0 p1 p2 p3 i rest hs hholds hreads
    rw [Match_prefix_holds regexp q captures ps prog hs hholds
      (fun j hj => (hholds j hj).defined)]
    exact ⟨fun hdef hnot =>
        (Match_instruction regexp q captures p0 p1 p2 p3 rest i hreads hdef).2 hnot,
      fun hundef =>
        Match_instruction_undefined regexp q captures p0 p1 p2 p3 rest i hreads hundef⟩
  · intro m hm
    simp [NewPredicate.Match, hm]

/-- C15, amended, witness: the program `eq? @loop.var @field.var`, `match? @run "Run"` of
the struct-literal query of `exampleEngine`, on a hit in which the two variables are `tc`
and the method is `Run`: `predicate.Match` returns true, and both instructions hold. -/
theorem predicate_Match_wellFormed_witness :
    predicate.Match exampleEngine.regexp exampleEngine.queryTRunStructLiteral
        (hitValues exampleEngine.queryTRunStructLiteral
          (structLiteralMatch "TestTable" "tc" "tc" "device event"))
        (exampleEngine.queryTRunStructLiteral.PredicatesForPattern 0) = .ret true ∧
      (predicate.Match exampleEngine.regexp exampleEngine.queryTRunStructLiteral
        (hitValues exampleEngine.queryTRunStructLiteral
          (structLiteralMatch "TestTable" "tc" "tc" "device event"))
        (exampleEngine.queryTRunStructLiteral.PredicatesForPattern 0) = .ret true ↔
      ∀ i ∈ [Instruction.eq_ "loop.var" "field.var", Instruction.match_ "run" "Run"],
        i.Holds exampleEngine.regexp
          (hitValues exampleEngine.queryTRunStructLiteral
            (structLiteralMatch "TestTable" "tc" "tc" "device event"))) :=
  ⟨by decide,
    ((predicate_Match_wellFormed exampleEngine.regexp exampleEngine.queryTRunStructLiteral
      (hitValues exampleEngine.queryTRunStructLiteral
        (structLiteralMatch "TestTable" "tc" "tc" "device event"))).1
      (exampleEngine.queryTRunStructLiteral.PredicatesForPattern 0)
      [Instruction.eq_ "loop.var" "field.var", Instruction.match_ "run" "Run"]
      (Spells.cons ⟨by decide, by decide, by decide, rfl⟩
        (Spells.cons ⟨by decide, by decide, by decide, rfl⟩ Spells.nil))).1⟩

/-- C16, at the failing input: the pattern of `notEqQuery` carries `(#eq? @a @b)` and
`(#not-eq? @a @c)`.  On a hit for which the first instruction holds, `predicate.Match`
reaches the step named `not-eq?`, takes no case of the `switch` and goes round the loop with
the same steps: it does not panic, its loop never ends. -/
theorem predicate_Match_notEq :
    predicateMustString notEqQuery ⟨.String_, 1⟩ = some "not-eq?" ∧
    NewPredicate.Match literalRegexp notEqQuery notEqMatch = .hang ∧
    NewPredicate.Match literalRegexp notEqQuery notEqMatch ≠ .panic ∧
    predicate.Match.body literalRegexp notEqQuery (hitValues notEqQuery notEqMatch)
        [⟨.String_, 1⟩, ⟨.Capture, 0⟩, ⟨.Capture, 2⟩, ⟨.Done, 0⟩]
      = .next [⟨.String_, 1⟩, ⟨.Capture, 0⟩, ⟨.Capture, 2⟩, ⟨.Done, 0⟩] ∧
    ∀ fuel, predicate.Match.run literalRegexp notEqQuery (hitValues notEqQuery notEqMatch) fuel
      (notEqQuery.PredicatesForPattern 0) = none := by
  refine ⟨by decide, by decide, by decide, by rfl, ?_⟩
  have h := Match_unknown_name literalRegexp notEqQuery (hitValues notEqQuery notEqMatch)
    [⟨.String_, 0⟩, ⟨.Capture, 0⟩, ⟨.Capture, 1⟩, ⟨.Done, 0⟩] [Instruction.eq_ "a" "b"]
    (Spells.cons ⟨by decide, by decide, by decide, rfl⟩ Spells.nil)
    (by
      intro i hi
      simp only [List.mem_singleton] at hi
      subst hi
      exact ⟨"tc", by decide, by decide⟩)
    ⟨.String_, 1⟩ [⟨.Capture, 0⟩, ⟨.Capture, 2⟩, ⟨.Done, 0⟩] "not-eq?" (by decide) (by decide)
    (by decide)
  exact h.2

/-! ## C17 and C18: the budget -/

theorem stops_zero_none {flags : Flags} {now : Nat → Int} {i : Nat} {limit : Deadliner}
    {entry : WalkEntry} {rest : List WalkEntry}
    (h : stops flags now i limit (entry :: rest) 0 = none) :
    entry.err = none ∧ (limit.Tick flags (now i)).1 = none := by
  simp only [stops, List.get?_cons_zero] at h
  cases he : entry.err with
  | some err => simp [he] at h
  | none =>
    simp only [he, ticks] at h
    exact ⟨rfl, h⟩

theorem stops_succ (flags : Flags) (now : Nat → Int) (i : Nat) (limit : Deadliner)
    (entry : WalkEntry) (rest : List WalkEntry) (j : Nat) :
    stops flags now i limit (entry :: rest) (j + 1)
      = stops flags now (i + 1) (limit.Tick flags (now i)).2 rest j := by
  simp only [stops, List.get?_cons_succ, ticks]

theorem ticks_unlimited (flags : Flags) (now : Nat → Int) :
    ∀ j i, ticks flags now i .Unlimited j = none
  | 0, i => by simp [ticks, Deadliner.Tick]
  | j + 1, i => by
    simp only [ticks, Deadliner.Tick]
    exact ticks_unlimited flags now j (i + 1)

theorem walk_first_stop (e : Engine) (order : Nat → Nat → List String → List String)
    (flags : Flags) (now : Nat → Int) (entries : List WalkEntry) (i : Nat) (limit : Deadliner)
    (result : List String) (k : Nat) (err : Error)
    (hnone : ∀ j < k, stops flags now i limit entries j = none)
    (hsome : stops flags now i limit entries k = some err)
    (hparse : ∀ j < k, ∀ entry, entries.get? j = some entry → IsTestFilename entry.path = true →
      ∃ names, ParseTestNames e (order (i + j)) entry.file = .ret names) :
    ListTestNames.walk e order flags now entries i limit result
      = .ret (result ++ collected e order (entries.take k) i, some err) := by
  induction entries generalizing i limit result k with
  | nil => simp [stops] at hsome
  | cons entry rest ih =>
    cases k with
    | zero =>
      simp only [stops, List.get?_cons_zero] at hsome
      cases he : entry.err with
      | some w =>
        simp only [he, Option.some.injEq] at hsome
        simp [ListTestNames.walk, he, hsome, collected]
      | none =>
        simp only [he, ticks] at hsome
        simp [ListTestNames.walk, he, hsome, collected]
    | succ k =>
      obtain ⟨he, h0⟩ := stops_zero_none (hnone 0 (Nat.succ_pos _))
      have hnone1 : ∀ j < k,
          stops flags now (i + 1) (limit.Tick flags (now i)).2 rest j = none := by
        intro j hj
        rw [← stops_succ]
        exact hnone (j + 1) (Nat.succ_lt_succ hj)
      have hsome1 : stops flags now (i + 1) (limit.Tick flags (now i)).2 rest k = some err := by
        rw [← stops_succ]
        exact hsome
      have hparse1 : ∀ j < k, ∀ entry1, rest.get? j = some entry1 →
          IsTestFilename entry1.path = true →
          ∃ names, ParseTestNames e (order (i + 1 + j)) entry1.file = .ret names := by
        intro j hj entry1 h1 h2
        have := hparse (j + 1) (Nat.succ_lt_succ hj) entry1 h1 h2
        have hidx : i + (j + 1) = i + 1 + j := by omega
        rw [hidx] at this
        exact this
      simp only [ListTestNames.walk, he, h0, List.take_succ_cons, collected, namesOf]
      by_cases ht : IsTestFilename entry.path = true
      · obtain ⟨names, hn⟩ := hparse 0 (Nat.succ_pos _) entry rfl ht
        simp only [Nat.add_zero] at hn
        simp only [ht, Bool.not_true, Bool.false_eq_true, ↓reduceIte, hn]
        rw [ih (i + 1) _ _ k hnone1 hsome1 hparse1]
        simp
      · simp only [Bool.not_eq_true] at ht
        simp only [ht, Bool.not_false, ↓reduceIte, Bool.false_eq_true, List.nil_append]
        exact ih (i + 1) _ _ k hnone1 hsome1 hparse1

theorem walk_no_stop (e : Engine) (order : Nat → Nat → List String → List String)
    (flags : Flags) (now : Nat → Int) (entries : List WalkEntry) (i : Nat) (limit : Deadliner)
    (result : List String)
    (hnone : ∀ j, stops flags now i limit entries j = none)
    (hparse : ∀ j, ∀ entry, entries.get? j = some entry → IsTestFilename entry.path = true →
      ∃ names, ParseTestNames e (order (i + j)) entry.file = .ret names) :
    ListTestNames.walk e order flags now entries i limit result
      = .ret (result ++ collected e order entries i, none) := by
  induction entries generalizing i limit result with
  | nil => simp [ListTestNames.walk, collected]
  | cons entry rest ih =>
    obtain ⟨he, h0⟩ := stops_zero_none (hnone 0)
    have hnone1 : ∀ j, stops flags now (i + 1) (limit.Tick flags (now i)).2 rest j = none := by
      intro j
      rw [← stops_succ]
      exact hnone (j + 1)
    have hparse1 : ∀ j, ∀ entry1, rest.get? j = some entry1 →
        IsTestFilename entry1.path = true →
        ∃ names, ParseTestNames e (order (i + 1 + j)) entry1.file = .ret names := by
      intro j entry1 h1 h2
      have := hparse (j + 1) entry1 h1 h2
      have hidx : i + (j + 1) = i + 1 + j := by omega
      rw [hidx] at this
      exact this
    simp only [ListTestNames.walk, he, h0, collected, namesOf]
    by_cases ht : IsTestFilename entry.path = true
    · obtain ⟨names, hn⟩ := hparse 0 entry rfl ht
      simp only [Nat.add_zero] at hn
      simp only [ht, Bool.not_true, Bool.false_eq_true, ↓reduceIte, hn]
      rw [ih (i + 1) _ _ hnone1 hparse1]
      simp
    · simp only [Bool.not_eq_true] at ht
      simp only [ht, Bool.not_false, ↓reduceIte, Bool.false_eq_true, List.nil_append]
      exact ih (i + 1) _ _ hnone1 hparse1

theorem walk_parse_fails (e : Engine) (order : Nat → Nat → List String → List String)
    (flags : Flags) (now : Nat → Int) (entries : List WalkEntry) (i : Nat) (limit : Deadliner)
    (result : List String) (k : Nat) (entry : WalkEntry)
    (hnone : ∀ j ≤ k, stops flags now i limit entries j = none)
    (hget : entries.get? k = some entry) (htest : IsTestFilename entry.path = true)
    (hparse : ∀ j < k, ∀ entry1, entries.get? j = some entry1 →
      IsTestFilename entry1.path = true →
      ∃ names, ParseTestNames e (order (i + j)) entry1.file = .ret names) :
    (ParseTestNames e (order (i + k)) entry.file = .panic →
      ListTestNames.walk e order flags now entries i limit result = .panic) ∧
    (ParseTestNames e (order (i + k)) entry.file = .hang →
      ListTestNames.walk e order flags now entries i limit result = .hang) := by
  induction entries generalizing i limit result k with
  | nil => simp at hget
  | cons entry0 rest ih =>
    obtain ⟨he, h0⟩ := stops_zero_none (hnone 0 (Nat.zero_le _))
    cases k with
    | zero =>
      simp only [List.get?_cons_zero, Option.some.injEq] at hget
      subst hget
      simp only [Nat.add_zero]
      constructor
      · intro hp
        simp [ListTestNames.walk, he, h0, htest, hp]
      · intro hp
        simp [ListTestNames.walk, he, h0, htest, hp]
    | succ k =>
      have hnone1 : ∀ j ≤ k,
          stops flags now (i + 1) (limit.Tick flags (now i)).2 rest j = none := by
        intro j hj
        rw [← stops_succ]
        exact hnone (j + 1) (Nat.succ_le_succ hj)
      have hparse1 : ∀ j < k, ∀ entry1, rest.get? j = some entry1 →
          IsTestFilename entry1.path = true →
          ∃ names, ParseTestNames e (order (i + 1 + j)) entry1.file = .ret names := by
        intro j hj entry1 h1 h2
        have := hparse (j + 1) (Nat.succ_lt_succ hj) entry1 h1 h2
        have hidx : i + (j + 1) = i + 1 + j := by omega
        rw [hidx] at this
        exact this
      have hidx : i + (k + 1) = i + 1 + k := by omega
      rw [hidx]
      simp only [ListTestNames.walk, he, h0]
      by_cases ht : IsTestFilename entry0.path = true
      · obtain ⟨names, hn⟩ := hparse 0 (Nat.succ_pos _) entry0 rfl ht
        simp only [Nat.add_zero] at hn
        simp only [ht, Bool.not_true, Bool.false_eq_true, ↓reduceIte, hn]
        exact ih (i + 1) _ _ k hnone1 hget hparse1
      · simp only [Bool.not_eq_true] at ht
        simp only [ht, Bool.not_false, ↓reduceIte]
        exact ih (i + 1) _ _ k hnone1 hget hparse1

/-- C17, at the failing input: with a file quota of 1 and the deadline not reached, over a
directory with the two test files `a_test.go` and `b_test.go`, the first `Tick` (at the root
directory, and just as well at the first file when the walk starts there) returns the
error: `ListTestNames` parses no file and returns no name with the error.  It returns the
names of the first file with the error for a quota of 3. -/
theorem ListTestNames_quota_one :
    ListTestNames exampleEngine (fun _ => insertionOrder) ⟨1, 1000000000⟩ (fun _ => 0) walkTwo
        (budget 1)
      = .ret ([], some (.numberOfFilesExceeded 1)) ∧
    ListTestNames exampleEngine (fun _ => insertionOrder) ⟨1, 1000000000⟩ (fun _ => 0)
        walkTwo.tail (budget 1)
      = .ret ([], some (.numberOfFilesExceeded 1)) ∧
    ParseTestNames exampleEngine insertionOrder webFile = .ret ["TestWeb", "TestWeb/works"] ∧
    ListTestNames exampleEngine (fun _ => insertionOrder) ⟨3, 1000000000⟩ (fun _ => 0) walkTwo
        (budget 3)
      = .ret (["TestWeb", "TestWeb/works"], some (.numberOfFilesExceeded 3)) := by
  refine ⟨by decide, by decide, by decide, by decide⟩

/-- C18, as stated, fails: over `walkErr`, whose third path is a subdirectory that the walker
cannot read, with the budget `Unlimited`, `Tick` never fails, yet `ListTestNames` returns
the error of the walker, with the names of the first test file alone; without that path
(`walkTwo`) it returns the names of the two test files and no error. -/
theorem ListTestNames_walk_error :
    (∀ j, ticks defaultFlags (fun _ => 0) 0 .Unlimited j = none) ∧
    ListTestNames exampleEngine (fun _ => insertionOrder) defaultFlags (fun _ => 0) walkErr
        .Unlimited
      = .ret (["TestWeb", "TestWeb/works"], some (.walk "open sub: permission denied")) ∧
    ListTestNames exampleEngine (fun _ => insertionOrder) defaultFlags (fun _ => 0) walkTwo
        .Unlimited
      = .ret (["TestSuite", "TestSuite/TestA", "TestWeb", "TestWeb/works"], none) :=
  ⟨fun j => ticks_unlimited _ _ j 0, by decide, by decide⟩

/-- C18, amended.  The walk ends at the first visit at which the walker passes an error to
the callback or, when it passes none, `Tick` fails (`stops`, visits counted from 0).  If
that is the visit `k` and parsing each test file among the `k` paths before it returns,
`ListTestNames` returns that error with `SlicerSortUniq` of the names of these test files, a
strictly ascending list of exactly these names.  If no visit ends the walk and parsing each
test file returns, it returns the names of all the test files and no error.  If parsing a
test file that the walk reaches panics or does not end, `ListTestNames` panics or does not
end. -/
theorem ListTestNames_budget (e : Engine) (order : Nat → Nat → List String → List String)
    (flags : Flags) (now : Nat → Int) (entries : List WalkEntry) (limit : Deadliner) :
    (∀ k err, (∀ j < k, stops flags now 0 limit entries j = none) →
      stops flags now 0 limit entries k = some err →
      (∀ j < k, ∀ entry, entries.get? j = some entry → IsTestFilename entry.path = true →
        ∃ names, ParseTestNames e (order j) entry.file = .ret names) →
      ∃ names, ListTestNames e order flags now entries limit = .ret (names, some err) ∧
        names = SlicerSortUniq (collected e order (entries.take k) 0) ∧
        names.Sorted strLT ∧ ∀ n, n ∈ names ↔ n ∈ collected e order (entries.take k) 0) ∧
    ((∀ j, stops flags now 0 limit entries j = none) →
      (∀ j, ∀ entry, entries.get? j = some entry → IsTestFilename entry.path = true →
        ∃ names, ParseTestNames e (order j) entry.file = .ret names) →
      ∃ names, ListTestNames e order flags now entries limit = .ret (names, none) ∧
        names = SlicerSortUniq (collected e order entries 0) ∧
        names.Sorted strLT ∧ ∀ n, n ∈ names ↔ n ∈ collected e order entries 0) ∧
    (∀ k entry, (∀ j ≤ k, stops flags now 0 limit entries j = none) →
      entries.get? k = some entry → IsTestFilename entry.path = true →
      (∀ j < k, ∀ entry1, entries.get? j = some entry1 → IsTestFilename entry1.path = true →
        ∃ names, ParseTestNames e (order j) entry1.file = .ret names) →
      (ParseTestNames e (order k) entry.file = .panic →
        ListTestNames e order flags now entries limit = .panic) ∧
      (ParseTestNames e (order k) entry.file = .hang →
        ListTestNames e order flags now entries limit = .hang)) := by
  refine ⟨?_, ?_, ?_⟩
  · intro k err hnone hsome hparse
    have hw := walk_first_stop e order flags now entries 0 limit [] k err hnone hsome
      (by simpa using hparse)
    refine ⟨_, ?_, rfl, (SlicerSortUniq_spec _).1, (SlicerSortUniq_spec _).2⟩
    simp [ListTestNames, hw]
  · intro hnone hparse
    have hw := walk_no_stop e order flags now entries 0 limit [] hnone (by simpa using hparse)
    refine ⟨_, ?_, rfl, (SlicerSortUniq_spec _).1, (SlicerSortUniq_spec _).2⟩
    simp [ListTestNames, hw]
  · intro k entry hnone hget htest hparse
    obtain ⟨h1, h2⟩ := walk_parse_fails e order flags now entries 0 limit [] k entry hnone hget
      htest (by simpa using hparse)
    simp only [Nat.zero_add] at h1 h2
    exact ⟨fun hp => by simp [ListTestNames, h1 hp], fun hp => by simp [ListTestNames, h2 hp]⟩

/-- C18, amended, witness: over `walkTwo` with a quota of 3, no path carries an error of the
walker and `Tick` first fails at the visit 2 (the second test file); the names are those of
the first test file. -/
theorem ListTestNames_budget_witness :
    (∀ j < 2, stops ⟨3, 1000000000⟩ (fun _ => 0) 0 (budget 3) walkTwo j = none) ∧
    stops ⟨3, 1000000000⟩ (fun _ => 0) 0 (budget 3) walkTwo 2
      = some (.numberOfFilesExceeded 3) ∧
    collected exampleEngine (fun _ => insertionOrder) (walkTwo.take 2) 0
      = ["TestWeb", "TestWeb/works"] ∧
    ∃ names, ListTestNames exampleEngine (fun _ => insertionOrder) ⟨3, 1000000000⟩ (fun _ => 0)
        walkTwo (budget 3) = .ret (names, some (.numberOfFilesExceeded 3)) ∧
      names = SlicerSortUniq (collected exampleEngine (fun _ => insertionOrder)
        (walkTwo.take 2) 0) ∧
      names.Sorted strLT ∧
      ∀ n, n ∈ names ↔ n ∈ collected exampleEngine (fun _ => insertionOrder)
        (walkTwo.take 2) 0 := by
  refine ⟨by decide, by decide, by decide, ?_⟩
  apply (ListTestNames_budget exampleEngine (fun _ => insertionOrder) ⟨3, 1000000000⟩
    (fun _ => 0) walkTwo (budget 3)).1 2 (.numberOfFilesExceeded 3) (by decide) (by decide)
  intro j hj entry h _
  interval_cases j
  · simp only [walkTwo, List.get?_cons_zero, Option.some.injEq] at h
    subst h
    exact ⟨_, rfl⟩
  · simp only [walkTwo, List.get?_cons_succ, List.get?_cons_zero, Option.some.injEq] at h
    subst h
    exact ⟨["TestWeb", "TestWeb/works"], by decide⟩

/-! ## C22: root tests and suite methods -/

theorem scan_third (resolver : TypeResolver) (order : Nat → List String → List String)
    (horder : ValidOrder order) (decls : List Decl) (st1 st2 : Tracker × Nat)
    (h1 : scan resolver order decls (NewTracker, 0) = some st1)
    (h2 : scan resolver order decls st1 = some st2) :
    (∀ T r, st2.1.Bound T r ↔ ∃ g ∈ decls, DeclBinds resolver g T r) ∧
    ∃ st3, scan resolver order decls st2 = some st3 ∧ st3.1 = st2.1 := by
  obtain ⟨hinv1, hb1, -, -, -⟩ := scan_spec resolver order horder decls _ st1 h1 NewTracker_inv
  obtain ⟨hinv2, hb2, -, hlow2, -⟩ := scan_spec resolver order horder decls st1 st2 h2 hinv1
  have htrue2 : st2.1.AllTrue :=
    scan_allTrue _ _ _ _ _ h2 (scan_allTrue _ _ _ _ _ h1 NewTracker_allTrue)
  have hbound1 : ∀ T r, st1.1.Bound T r ↔ ∃ g ∈ decls, DeclBinds resolver g T r := by
    intro T r
    rw [hb1]
    simp [NewTracker_not_bound]
  have hbound2 : ∀ T r, st2.1.Bound T r ↔ ∃ g ∈ decls, DeclBinds resolver g T r := by
    intro T r
    rw [hb2, hbound1]
    simp
  refine ⟨hbound2, ?_⟩
  cases h3 : scan resolver order decls st2 with
  | none =>
    have hp := (scan_eq_none_iff resolver order decls st2).1 h3
    have := (scan_eq_none_iff resolver order decls st1).2 hp
    simp [h2] at this
  | some st3 =>
    refine ⟨st3, rfl, ?_⟩
    apply scan_eq_self resolver order horder decls st2 st3 h3 hinv2 htrue2
    · rintro n ⟨f, hf, hn⟩
      exact hlow2 n ⟨f, hf, Or.inl hn⟩
    · rintro T r hb
      exact (hbound2 T r).2 hb
    · rintro n ⟨f, hf, hn⟩
      exact hlow2 n ⟨f, hf,
        Or.inr (DeclSuite_mono (fun T r hb => (hbound1 T r).2 ((hbound2 T r).1 hb)) _ _ hn)⟩

/-- C22.  No function declaration is both a root test and a suite method: `IsSimpleTest`
and `IsPossibleSuiteTest` are never both true.  So the step of `scan` for a suite method
leaves the binding table as it is, whatever its body calls; after two passes every binding
of the table is that of a root test, which is no suite method, and a third pass returns and
leaves the tracker as it is.  For `chainedDecls`, where the suite method `TestX` runs the
suite `Inner`, `FindSuiteRunTypes` does find `Inner` in `TestX`, and the names after two
passes and after three are `TestRoot` and `TestRoot/TestX`, none for `TestY`. -/
theorem IsSimpleTest_IsPossibleSuiteTest_exclusive :
    (∀ fn, ¬ (IsSimpleTest fn = true ∧ IsPossibleSuiteTest fn = true)) ∧
    (∀ fn resolver order st st1, IsPossibleSuiteTest fn = true →
      scanDecl resolver order st (.FuncDecl fn) = some st1 →
      st1.1.suiteTypesAndTestsWhoRanThem = st.1.suiteTypesAndTestsWhoRanThem) ∧
    (∀ resolver order decls st1 st2, ValidOrder order →
      scan resolver order decls (NewTracker, 0) = some st1 →
      scan resolver order decls st1 = some st2 →
      (∀ T r, st2.1.Bound T r → ∃ g, Decl.FuncDecl g ∈ decls ∧ IsSimpleTest g = true ∧
        IsPossibleSuiteTest g = false ∧ g.Name.Name = r) ∧
      ∃ st3, scan resolver order decls st2 = some st3 ∧ st3.1 = st2.1) ∧
    (chainedDecls.get? 1).map
        (fun f => match f with
          | .FuncDecl fn =>
            (IsSimpleTest fn, IsPossibleSuiteTest fn, (FindSuiteRunTypes fn).map IdentNames)
          | .GenDecl => (false, false, none))
      = some (false, true, some ["Inner"]) ∧
    scanTwice (TypeResolver.mk []) insertionOrder chainedDecls
      = some ["TestRoot", "TestRoot/TestX"] ∧
    (((scan (TypeResolver.mk []) insertionOrder chainedDecls (NewTracker, 0)).bind
        (scan (TypeResolver.mk []) insertionOrder chainedDecls)).bind
        (scan (TypeResolver.mk []) insertionOrder chainedDecls)).map
        (fun st => st.1.SeenTests)
      = some ["TestRoot", "TestRoot/TestX"] := by
  refine ⟨?_, ?_, ?_, by decide, by decide, by decide⟩
  · rintro fn ⟨h1, h2⟩
    rw [IsPossibleSuiteTest_of_IsSimpleTest fn h1] at h2
    exact Bool.false_ne_true h2
  · intro fn resolver order st st1 hs h
    have hsimple : IsSimpleTest fn = false := by
      cases hc : IsSimpleTest fn with
      | false => rfl
      | true =>
        rw [IsPossibleSuiteTest_of_IsSimpleTest fn hc] at hs
        exact absurd hs Bool.false_ne_true
    rw [scanDecl_suite resolver order st fn hsimple hs] at h
    cases hr : GetReceiverTypeNoStar fn with
    | none => simp [hr] at h
    | some T =>
      simp only [hr, Option.map_some', Option.some.injEq] at h
      rw [← h]
      exact addSuiteTests_suites _ _ _
  · intro resolver order decls st1 st2 horder h1 h2
    obtain ⟨hb, h3⟩ := scan_third resolver order horder decls st1 st2 h1 h2
    refine ⟨?_, h3⟩
    intro T r hbound
    obtain ⟨g, hg, fn, rfl, hsimple, hname, -⟩ := (hb T r).1 hbound
    exact ⟨fn, hg, hsimple, IsPossibleSuiteTest_of_IsSimpleTest fn hsimple, hname⟩

/-- C22, witness: the suite method `TestX` of `chainedDecls` is no root test, and the
passes over `chainedDecls` bind the root test `TestRoot` alone. -/
theorem IsSimpleTest_IsPossibleSuiteTest_exclusive_witness :
    ValidOrder insertionOrder ∧
    ∃ st1 st2, scan (TypeResolver.mk []) insertionOrder chainedDecls (NewTracker, 0)
        = some st1 ∧
      scan (TypeResolver.mk []) insertionOrder chainedDecls st1 = some st2 ∧
      (∀ T r, st2.1.Bound T r → ∃ g, Decl.FuncDecl g ∈ chainedDecls ∧ IsSimpleTest g = true ∧
        IsPossibleSuiteTest g = false ∧ g.Name.Name = r) ∧
      ∃ st3, scan (TypeResolver.mk []) insertionOrder chainedDecls st2 = some st3 ∧
        st3.1 = st2.1 := by
  refine ⟨validOrder_insertionOrder, ?_⟩
  cases h1 : scan (TypeResolver.mk []) insertionOrder chainedDecls (NewTracker, 0) with
  | none =>
    have hp := (scan_eq_none_iff _ _ _ _).1 h1
    exact absurd hp (by decide)
  | some st1 =>
    cases h2 : scan (TypeResolver.mk []) insertionOrder chainedDecls st1 with
    | none =>
      have hp := (scan_eq_none_iff _ _ _ _).1 h2
      exact absurd hp (by decide)
    | some st2 =>
      exact ⟨st1, st2, rfl, h2,
        IsSimpleTest_IsPossibleSuiteTest_exclusive.2.2.1 (TypeResolver.mk []) insertionOrder
          chainedDecls st1 st2 validOrder_insertionOrder h1 h2⟩

/-! ## C21: the parent of a sub-test name -/

theorem Before.append {l : List String} {a b : String} (h : Before l a b) (s : List String) :
    Before (l ++ s) a b := by
  obtain ⟨pre, post, hl, ha⟩ := h
  exact ⟨pre, post ++ s, by simp [hl], ha⟩

theorem Before.mem_left {l : List String} {a b : String} (h : Before l a b) : a ∈ l := by
  obtain ⟨pre, post, hl, ha⟩ := h
  rw [hl]
  exact List.mem_append_left _ ha

theorem AddTest_cases (t : Tracker) (x : String) (hinv : t.Inv) :
    (x ∈ t.result ∧ t.AddTest x = t) ∨
      (x ∉ t.result ∧ (t.AddTest x).result = t.result ++ [x]) := by
  by_cases hx : x ∈ t.result
  · exact Or.inl ⟨hx, AddTest_eq_self t x hinv hx⟩
  · refine Or.inr ⟨hx, ?_⟩
    have hk : x ∉ mapKeys t.seenTests := fun h => hx ((hinv.1 x).2 h)
    have hn : (mapGet t.seenTests x).isNone = true := (mapGet_isNone_iff _ _).2 hk
    simp [Tracker.AddTest, hn]

theorem NewTracker_parented (decls : List Decl) : NewTracker.Parented decls := by
  refine ⟨NewTracker_inv, ?_, ?_⟩
  · intro T r h
    exact absurd h (NewTracker_not_bound T r)
  · intro n hn
    simp [NewTracker] at hn

theorem Parented_addTest_mem {decls : List Decl} {t : Tracker} (h : t.Parented decls)
    (x : String) (hx : x ∈ t.result) : (t.AddTest x).Parented decls := by
  rw [AddTest_eq_self t x h.1 hx]
  exact h

theorem Parented_addTest_new {decls : List Decl} {t : Tracker} (h : t.Parented decls)
    (x : String) (hx : x ∉ t.result)
    (hnew : IsRootName decls x ∨
      ∃ r m, x = r ++ "/" ++ m ∧ IsRootName decls r ∧ IsMethodName decls m ∧ r ∈ t.result) :
    (t.AddTest x).Parented decls := by
  obtain ⟨hinv, hb, hn⟩ := h
  have hres : (t.AddTest x).result = t.result ++ [x] := by
    rcases AddTest_cases t x hinv with ⟨h1, -⟩ | ⟨-, h2⟩
    · exact absurd h1 hx
    · exact h2
  refine ⟨AddTest_inv t x hinv, ?_, ?_⟩
  · intro T r hbound
    obtain ⟨h1, h2⟩ := hb T r ((AddTest_bound t x T r).1 hbound)
    exact ⟨by rw [hres]; exact List.mem_append_left _ h1, h2⟩
  · intro n hmem
    rw [hres] at hmem ⊢
    rcases List.mem_append.1 hmem with h1 | h1
    · rcases hn n h1 with h2 | ⟨r, m, h2, h3, h4, h5⟩
      · exact Or.inl h2
      · exact Or.inr ⟨r, m, h2, h3, h4, h5.append _⟩
    · have hnx : n = x := by simpa using h1
      subst hnx
      rcases hnew with h2 | ⟨r, m, h2, h3, h4, h5⟩
      · exact Or.inl h2
      · exact Or.inr ⟨r, m, h2, h3, h4, t.result, [], rfl, h5⟩

theorem Parented_addTest_root {decls : List Decl} {t : Tracker} (h : t.Parented decls)
    (x : String) (hx : IsRootName decls x) : (t.AddTest x).Parented decls := by
  by_cases hmem : x ∈ t.result
  · exact Parented_addTest_mem h x hmem
  · exact Parented_addTest_new h x hmem (Or.inl hx)

theorem Parented_addTest_sub {decls : List Decl} {t : Tracker} (h : t.Parented decls)
    (T r m : String) (hb : t.Bound T r) (hm : IsMethodName decls m) :
    (t.AddTest (r ++ "/" ++ m)).Parented decls := by
  by_cases hmem : r ++ "/" ++ m ∈ t.result
  · exact Parented_addTest_mem h _ hmem
  · obtain ⟨h1, h2⟩ := h.2.1 T r hb
    exact Parented_addTest_new h _ hmem (Or.inr ⟨r, m, rfl, h2, hm, h1⟩)

theorem Parented_bindSuites {decls : List Decl} {t : Tracker} (h : t.Parented decls)
    (resolver : TypeResolver) (testName : String) (idents : List Ident)
    (hmem : testName ∈ t.result) (hroot : IsRootName decls testName) :
    (bindSuites resolver testName idents t).Parented decls := by
  obtain ⟨hinv, hb, hn⟩ := h
  refine ⟨bindSuites_inv resolver testName idents t hinv, ?_, ?_⟩
  · intro T r hbound
    rw [bindSuites_result]
    rcases (bindSuites_bound resolver testName idents t T r).1 hbound with h1 | ⟨rfl, -, -⟩
    · exact hb T r h1
    · exact ⟨hmem, hroot⟩
  · intro n hmem1
    rw [bindSuites_result] at hmem1 ⊢
    exact hn n hmem1

theorem addSuiteTests_cons (m r : String) (rest : List String) (t : Tracker) :
    addSuiteTests m (r :: rest) t = addSuiteTests m rest (t.AddTest (r ++ "/" ++ m)) := by
  simp [addSuiteTests]

theorem addSuiteTests_states_parented (decls : List Decl) (m T : String)
    (hm : IsMethodName decls m) :
    ∀ (whoRan : List String) (t : Tracker), t.Parented decls → (∀ r ∈ whoRan, t.Bound T r) →
      (∀ s ∈ addSuiteTests.states m whoRan t, s.Parented decls) ∧
        (addSuiteTests m whoRan t).Parented decls
  | [], t, h, _ => by
    refine ⟨?_, ?_⟩
    · intro s hs
      simp [addSuiteTests.states] at hs
    · simpa [addSuiteTests] using h
  | r :: rest, t, h, hb => by
    have h1 : (t.AddTest (r ++ "/" ++ m)).Parented decls :=
      Parented_addTest_sub h T r m (hb r (List.mem_cons_self _ _)) hm
    have hb1 : ∀ r1 ∈ rest, (t.AddTest (r ++ "/" ++ m)).Bound T r1 :=
      fun r1 hr1 => (AddTest_bound t _ T r1).2 (hb r1 (List.mem_cons_of_mem _ hr1))
    obtain ⟨ih1, ih2⟩ := addSuiteTests_states_parented decls m T hm rest _ h1 hb1
    refine ⟨?_, ?_⟩
    · intro s hs
      simp only [addSuiteTests.states, List.mem_cons] at hs
      rcases hs with rfl | hs
      · exact h1
      · exact ih1 s hs
    · rw [addSuiteTests_cons]
      exact ih2

theorem scanDecl_states_parented (resolver : TypeResolver)
    (order : Nat → List String → List String) (horder : ValidOrder order) (decls : List Decl)
    (st : Tracker × Nat) (f : Decl) (hf : f ∈ decls) (h : st.1.Parented decls) :
    (∀ s ∈ scanDecl.states resolver order st f, s.Parented decls) ∧
      ∀ st1, scanDecl resolver order st f = some st1 → st1.1.Parented decls := by
  cases f with
  | GenDecl =>
    refine ⟨?_, ?_⟩
    · intro s hs
      simp [scanDecl.states] at hs
    · intro st1 h1
      simp only [scanDecl, Option.some.injEq] at h1
      rw [← h1]
      exact h
  | FuncDecl fn =>
    cases hsimple : IsSimpleTest fn with
    | true =>
      have hsuite := IsPossibleSuiteTest_of_IsSimpleTest fn hsimple
      have hroot : IsRootName decls fn.Name.Name := ⟨fn, hf, hsimple, rfl⟩
      have h1 : (st.1.AddTest fn.Name.Name).Parented decls :=
        Parented_addTest_root h _ hroot
      refine ⟨?_, ?_⟩
      · intro s hs
        have : s = st.1.AddTest fn.Name.Name := by
          cases hfind : FindSuiteRunTypes fn <;>
            simpa [scanDecl.states, hsimple, hsuite, hfind] using hs
        rw [this]
        exact h1
      · intro st1 hst1
        rw [scanDecl_root resolver order st fn hsimple] at hst1
        cases hfind : FindSuiteRunTypes fn with
        | none => simp [hfind] at hst1
        | some idents =>
          simp only [hfind, Option.map_some', Option.some.injEq] at hst1
          rw [← hst1]
          apply Parented_bindSuites h1 resolver _ idents _ hroot
          exact (mem_AddTest_result st.1 _ _ h.1).2 (Or.inl rfl)
    | false =>
      cases hsuite : IsPossibleSuiteTest fn with
      | false =>
        refine ⟨?_, ?_⟩
        · intro s hs
          simp [scanDecl.states, hsimple, hsuite] at hs
        · intro st1 hst1
          rw [scanDecl_other resolver order st fn hsimple hsuite] at hst1
          simp only [Option.some.injEq] at hst1
          rw [← hst1]
          exact h
      | true =>
        have hm : IsMethodName decls fn.Name.Name := ⟨fn, hf, hsuite, rfl⟩
        cases hrecv : GetReceiverTypeNoStar fn with
        | none =>
          refine ⟨?_, ?_⟩
          · intro s hs
            simp [scanDecl.states, hsimple, hsuite, hrecv] at hs
          · intro st1 hst1
            rw [scanDecl_suite resolver order st fn hsimple hsuite] at hst1
            simp [hrecv] at hst1
        | some T =>
          have hb : ∀ r ∈ st.1.WhoRanSuiteType (order st.2) T, st.1.Bound T r :=
            fun r hr => (mem_WhoRanSuiteType (order st.2) (horder st.2) st.1 T r).1 hr
          obtain ⟨h1, h2⟩ := addSuiteTests_states_parented decls fn.Name.Name T hm _ st.1 h hb
          refine ⟨?_, ?_⟩
          · intro s hs
            apply h1 s
            simpa [scanDecl.states, hsimple, hsuite, hrecv] using hs
          · intro st1 hst1
            rw [scanDecl_suite resolver order st fn hsimple hsuite] at hst1
            simp only [hrecv, Option.map_some', Option.some.injEq] at hst1
            rw [← hst1]
            exact h2

theorem scan_states_parented (resolver : TypeResolver)
    (order : Nat → List String → List String) (horder : ValidOrder order) (decls : List Decl) :
    ∀ (l : List Decl) (st : Tracker × Nat), (∀ f ∈ l, f ∈ decls) → st.1.Parented decls →
      (∀ s ∈ scan.states resolver order l st, s.Parented decls) ∧
        ∀ st1, scan resolver order l st = some st1 → st1.1.Parented decls
  | [], st, _, h => by
    refine ⟨?_, ?_⟩
    · intro s hs
      simp [scan.states] at hs
    · intro st1 h1
      simp only [scan, Option.some.injEq] at h1
      rw [← h1]
      exact h
  | f :: rest, st, hl, h => by
    obtain ⟨h1, h2⟩ := scanDecl_states_parented resolver order horder decls st f
      (hl f (List.mem_cons_self _ _)) h
    cases hd : scanDecl resolver order st f with
    | none =>
      refine ⟨?_, ?_⟩
      · intro s hs
        simp only [scan.states, hd, List.append_nil] at hs
        exact h1 s hs
      · intro st1 hst1
        simp [scan, hd] at hst1
    | some st0 =>
      obtain ⟨ih1, ih2⟩ := scan_states_parented resolver order horder decls rest st0
        (fun g hg => hl g (List.mem_cons_of_mem _ hg)) (h2 st0 hd)
      refine ⟨?_, ?_⟩
      · intro s hs
        simp only [scan.states, hd, List.mem_append] at hs
        rcases hs with hs | hs
        · exact h1 s hs
        · exact ih1 s hs
      · intro st1 hst1
        simp only [scan, hd, Option.some_bind] at hst1
        exact ih2 st1 hst1

theorem scanTwice_states_parented (resolver : TypeResolver)
    (order : Nat → List String → List String) (horder : ValidOrder order) (decls : List Decl) :
    (∀ s ∈ scanTwice.states resolver order decls, s.Parented decls) ∧
      ∀ st1 st2, scan resolver order decls (NewTracker, 0) = some st1 →
        scan resolver order decls st1 = some st2 → st2.1.Parented decls := by
  obtain ⟨h1, h2⟩ := scan_states_parented resolver order horder decls decls (NewTracker, 0)
    (fun f hf => hf) (NewTracker_parented decls)
  refine ⟨?_, ?_⟩
  · intro s hs
    cases hp : scan resolver order decls (NewTracker, 0) with
    | none =>
      simp only [scanTwice.states, hp, List.append_nil] at hs
      exact h1 s hs
    | some st1 =>
      simp only [scanTwice.states, hp, List.mem_append] at hs
      rcases hs with hs | hs
      · exact h1 s hs
      · exact (scan_states_parented resolver order horder decls decls st1
          (fun f hf => hf) (h2 st1 hp)).1 s hs
  · intro st1 st2 hp1 hp2
    exact (scan_states_parented resolver order horder decls decls st1
      (fun f hf => hf) (h2 st1 hp1)).2 st2 hp2

theorem getLastD_result (l : List Tracker) (d d1 : Tracker) (h : d.result = d1.result) :
    (l.getLastD d).result = (l.getLastD d1).result := by
  cases l with
  | nil => exact h
  | cons a l => rw [List.getLastD_cons, List.getLastD_cons]

theorem getLastD_append_states (l1 l2 : List Tracker) (d : Tracker) :
    (l1 ++ l2).getLastD d = l2.getLastD (l1.getLastD d) := by
  induction l1 generalizing d with
  | nil => rfl
  | cons a l1 ih => rw [List.cons_append, List.getLastD_cons, List.getLastD_cons, ih]

theorem addSuiteTests_states_last (m : String) :
    ∀ (whoRan : List String) (t : Tracker),
      (addSuiteTests.states m whoRan t).getLastD t = addSuiteTests m whoRan t
  | [], t => by simp [addSuiteTests.states, addSuiteTests]
  | r :: rest, t => by
    rw [addSuiteTests_cons]
    simp only [addSuiteTests.states, List.getLastD_cons]
    exact addSuiteTests_states_last m rest _

theorem scanDecl_states_last (resolver : TypeResolver)
    (order : Nat → List String → List String) (st st1 : Tracker × Nat) (f : Decl)
    (h : scanDecl resolver order st f = some st1) :
    ((scanDecl.states resolver order st f).getLastD st.1).result = st1.1.result := by
  cases f with
  | GenDecl =>
    simp only [scanDecl, Option.some.injEq] at h
    simp [scanDecl.states, h]
  | FuncDecl fn =>
    cases hsimple : IsSimpleTest fn with
    | true =>
      have hsuite := IsPossibleSuiteTest_of_IsSimpleTest fn hsimple
      rw [scanDecl_root resolver order st fn hsimple] at h
      cases hfind : FindSuiteRunTypes fn with
      | none => simp [hfind] at h
      | some idents =>
        simp only [hfind, Option.map_some', Option.some.injEq] at h
        rw [← h]
        simp [scanDecl.states, hsimple, hsuite, hfind, bindSuites_result]
    | false =>
      cases hsuite : IsPossibleSuiteTest fn with
      | false =>
        rw [scanDecl_other resolver order st fn hsimple hsuite] at h
        simp only [Option.some.injEq] at h
        simp [scanDecl.states, hsimple, hsuite, h]
      | true =>
        rw [scanDecl_suite resolver order st fn hsimple hsuite] at h
        cases hrecv : GetReceiverTypeNoStar fn with
        | none => simp [hrecv] at h
        | some T =>
          simp only [hrecv, Option.map_some', Option.some.injEq] at h
          rw [← h]
          simp only [scanDecl.states, hsimple, hsuite, hrecv, Bool.false_eq_true, ↓reduceIte,
            List.nil_append]
          rw [addSuiteTests_states_last]

theorem scan_states_last (resolver : TypeResolver) (order : Nat → List String → List String) :
    ∀ (l : List Decl) (st st1 : Tracker × Nat), scan resolver order l st = some st1 →
      ((scan.states resolver order l st).getLastD st.1).result = st1.1.result
  | [], st, st1, h => by
    simp only [scan, Option.some.injEq] at h
    simp [scan.states, h]
  | f :: rest, st, st1, h => by
    cases hd : scanDecl resolver order st f with
    | none => simp [scan, hd] at h
    | some st0 =>
      simp only [scan, hd, Option.some_bind] at h
      simp only [scan.states, hd, getLastD_append_states]
      rw [getLastD_result _ _ st0.1 (scanDecl_states_last resolver order st st0 f hd)]
      exact scan_states_last resolver order rest st0 st1 h

theorem scanTwice_states_last (resolver : TypeResolver)
    (order : Nat → List String → List String) (decls : List Decl) (st1 st2 : Tracker × Nat)
    (h1 : scan resolver order decls (NewTracker, 0) = some st1)
    (h2 : scan resolver order decls st1 = some st2) :
    ((scanTwice.states resolver order decls).getLastD NewTracker).result = st2.1.result := by
  simp only [scanTwice.states, h1, getLastD_append_states]
  rw [getLastD_result _ _ st1.1 (scan_states_last resolver order decls _ st1 h1)]
  exact scan_states_last resolver order decls st1 st2 h2

theorem slash_toList (a b : String) :
    (a ++ "/" ++ b).toList = a.toList ++ '/' :: b.toList := by
  simp [String.toList, String.data_append]

theorem Parented_ne_empty {decls : List Decl} {t : Tracker} (h : t.Parented decls)
    (n : String) (hn : n ∈ t.result) : n ≠ "" := by
  rcases h.2.2 n hn with ⟨fn, -, hsimple, hname⟩ | ⟨r, m, heq, -, -, -⟩
  · intro hempty
    rw [← hname] at hempty
    simp only [IsSimpleTest, Bool.and_eq_true] at hsimple
    have htest := hsimple.1.1
    rw [hempty] at htest
    exact absurd htest (by decide)
  · intro hempty
    have h1 := congrArg String.toList heq
    rw [slash_toList, hempty] at h1
    simp at h1

theorem Parented_parent {decls : List Decl} {t : Tracker} (h : t.Parented decls)
    (hnames : ∀ fn, Decl.FuncDecl fn ∈ decls → IsIdentifierText fn.Name.Name)
    (a b : String) (hmem : a ++ "/" ++ b ∈ t.result) :
    IsRootName decls a ∧ Before t.result a (a ++ "/" ++ b) := by
  have hslash : ∀ s, IsIdentifierText s → '/' ∉ s.toList :=
    fun s hs => hs.not_mem '/' (by decide)
  rcases h.2.2 _ hmem with ⟨fn, hfn, -, hname⟩ | ⟨r, m, heq, hr, hm, hbefore⟩
  · exfalso
    apply hslash _ (hnames fn hfn)
    rw [hname, slash_toList]
    simp
  · obtain ⟨fr, hfr, hfrsimple, hrname⟩ := hr
    obtain ⟨fm, hfm, -, hmname⟩ := hm
    have hr1 : '/' ∉ r.toList := hrname ▸ hslash _ (hnames fr hfr)
    have hm1 : '/' ∉ m.toList := hmname ▸ hslash _ (hnames fm hfm)
    have h1 := congrArg String.toList heq
    rw [slash_toList, slash_toList] at h1
    have hcount := congrArg (List.count '/') h1
    simp only [List.count_append, List.count_cons_self, List.count_eq_zero_of_not_mem hr1,
      List.count_eq_zero_of_not_mem hm1] at hcount
    have ha1 : '/' ∉ a.toList := by
      intro hc
      have := List.count_pos_iff.2 hc
      omega
    obtain ⟨h2, -⟩ := append_cons_inj_of_not_mem _ _ _ _ _ ha1 hr1 h1
    have har : a = r := String.ext h2
    subst har
    exact ⟨⟨fr, hfr, hfrsimple, hrname⟩, hbefore⟩

/-- C21.  After each `AddTest` call of either pass of `ParseTestNamesGolangAST` over a file
whose functions are named by Go identifiers, no name of the tracker is empty, and whenever
`root/method` is in the tracker, `root` is a root test of the file and stands before
`root/method` in `tracker.result`, to which names are only appended: it was added before.
The names of the last of these trackers are those of the tracker that `SeenTests` sorts, so
in the returned list no name is empty and the parent `root` of every `root/method` is
present. -/
theorem ParseTestNamesGolangAST_parent (order : Nat → List String → List String)
    (horder : ValidOrder order) (file : SourceFile) (decls : List Decl)
    (hdecls : file.Decls = some decls)
    (hnames : ∀ fn, Decl.FuncDecl fn ∈ decls → IsIdentifierText fn.Name.Name) :
    (∀ t ∈ scanTwice.states (NewTypeResolver file) order decls,
      (∀ n ∈ t.result, n ≠ "") ∧
      ∀ root method, root ++ "/" ++ method ∈ t.result →
        IsRootName decls root ∧ Before t.result root (root ++ "/" ++ method)) ∧
    (∀ st1 st2, scan (NewTypeResolver file) order decls (NewTracker, 0) = some st1 →
      scan (NewTypeResolver file) order decls st1 = some st2 →
      ((scanTwice.states (NewTypeResolver file) order decls).getLastD NewTracker).result
        = st2.1.result) ∧
    (∀ names, ParseTestNamesGolangAST order file = some names →
      (∀ n ∈ names, n ≠ "") ∧
      ∀ root method, root ++ "/" ++ method ∈ names → IsRootName decls root ∧ root ∈ names) := by
  obtain ⟨hstates, hfinal⟩ :=
    scanTwice_states_parented (NewTypeResolver file) order horder decls
  refine ⟨?_, ?_, ?_⟩
  · intro t ht
    exact ⟨Parented_ne_empty (hstates t ht),
      fun root method hmem => Parented_parent (hstates t ht) hnames root method hmem⟩
  · intro st1 st2 h1 h2
    exact scanTwice_states_last (NewTypeResolver file) order decls st1 st2 h1 h2
  · intro names h
    simp only [ParseTestNamesGolangAST, hdecls, scanTwice] at h
    cases h1 : scan (NewTypeResolver file) order decls (NewTracker, 0) with
    | none => simp [h1] at h
    | some st1 =>
      cases h2 : scan (NewTypeResolver file) order decls st1 with
      | none => simp [h1, h2] at h
      | some st2 =>
        simp only [h1, Option.some_bind, h2, Option.map_some', Option.some.injEq] at h
        have hp := hfinal st1 st2 h1 h2
        rw [← h]
        refine ⟨?_, ?_⟩
        · intro n hn
          exact Parented_ne_empty hp n ((mem_sortStrings _ _).1 hn)
        · intro root method hmem
          obtain ⟨h3, h4⟩ :=
            Parented_parent hp hnames root method ((mem_sortStrings _ _).1 hmem)
          exact ⟨h3, (mem_sortStrings _ _).2 h4.mem_left⟩

/-- C21, witness: in `exampleFileReversed` the suite methods stand before the root test:
the first pass adds the two root tests, the second pass the two sub-tests, each after its
parent `TestSuite`. -/
theorem ParseTestNamesGolangAST_parent_witness :
    ValidOrder insertionOrder ∧
    (scanTwice.states (NewTypeResolver exampleFileReversed) insertionOrder
        exampleDecls.reverse).map (fun t => t.result)
      = [ ["TestSuite"], ["TestSuite", "TestSimple1"],
          ["TestSuite", "TestSimple1", "TestSuite/TestB"],
          ["TestSuite", "TestSimple1", "TestSuite/TestB", "TestSuite/TestA"],
          ["TestSuite", "TestSimple1", "TestSuite/TestB", "TestSuite/TestA"],
          ["TestSuite", "TestSimple1", "TestSuite/TestB", "TestSuite/TestA"] ] ∧
    ∀ t ∈ scanTwice.states (NewTypeResolver exampleFileReversed) insertionOrder
        exampleDecls.reverse,
      (∀ n ∈ t.result, n ≠ "") ∧
      ∀ root method, root ++ "/" ++ method ∈ t.result →
        IsRootName exampleDecls.reverse root ∧
          Before t.result root (root ++ "/" ++ method) :=
  ⟨validOrder_insertionOrder, by decide,
    (ParseTestNamesGolangAST_parent insertionOrder validOrder_insertionOrder
      exampleFileReversed exampleDecls.reverse rfl
      (by
        intro fn h
        simp only [exampleDecls, List.reverse_cons, List.reverse_nil, List.nil_append,
          List.cons_append, List.mem_cons, Decl.FuncDecl.injEq, List.mem_singleton,
          List.not_mem_nil, or_false] at h
        rcases h with rfl | rfl | rfl | rfl | rfl | rfl | rfl <;> decide)).1⟩

end GoListTests
